import Mathlib

/-!
# Shenandoah old-generation collection: coalesce-and-fill task and driver

A shallow embedding of `shenandoahOldGC.cpp`:

* `ShenandoahConcurrentCoalesceAndFillTask::work` / `is_completed` (the worker loop, with the
  `uint` loop index reduced modulo `2^32`),
* `ShenandoahOldGC::op_coalesce_and_fill`, `entry_coalesce_and_fill`, `op_final_mark`,
  `start_old_evacuations` and `collect` (the driver state machine).

Regions are identified by natural numbers (the value of the `ShenandoahHeapRegion*` pointer).
The operations of `ShenandoahHeapRegion` used by the task (`is_humongous`,
`oop_fill_and_coalesce`) are defined elsewhere in HotSpot and are parameters (`RegionOps`).
Functions of the base driver, the shared flag and the old heuristics that `collect` calls are
modelled from the design description; each says so in its comment.
-/

namespace Shenandoah

/-! ## Data model -/

/-- A region pointer `ShenandoahHeapRegion*`, identified by a number. -/
abbrev ShenandoahHeapRegion := Nat

/-- The number of values of the C++ type `uint` (32 bits). -/
def UINT_RANGE : Nat := 4294967296

/-- The two region operations the worker loop calls. `H` is the state of the heap's memory.
`oop_fill_and_coalesce r h` returns `(true, h')` when the fill ran to completion and
`(false, h')` when it reports preemption. -/
structure RegionOps (H : Type) where
  is_humongous : ShenandoahHeapRegion → Bool
  oop_fill_and_coalesce : ShenandoahHeapRegion → H → Bool × H

/-- What one loop iteration did with the candidate it looked at. -/
inductive Outcome where
  | skipped_humongous
  | filled
  | preempted
  deriving DecidableEq, Repr

/-- One iteration of the worker loop, recorded for reasoning: which worker,
which index of the candidate array, which region, and what happened. -/
structure Visit where
  worker_id : Nat
  region_idx : Nat
  region : ShenandoahHeapRegion
  outcome : Outcome
  deriving DecidableEq, Repr

/-- The task object. The first four fields are the C++ fields (`_old_gc` is never used by the
task and is left out); `heap` is the heap memory the fills act on and `visits` the history of
loop iterations, both carried along to state properties. The candidate array is a raw pointer
in the source, hence a total map from index to region. -/
structure ShenandoahConcurrentCoalesceAndFillTask (H : Type) where
  _nworkers : Nat
  _coalesce_and_fill_region_array : Nat → ShenandoahHeapRegion
  _coalesce_and_fill_region_count : Nat
  _is_preempted : Bool
  heap : H
  visits : List Visit

/-- The constructor: `_is_preempted(false)`, no iteration run yet. -/
def ShenandoahConcurrentCoalesceAndFillTask.new {H : Type} (nworkers : Nat)
    (coalesce_and_fill_region_array : Nat → ShenandoahHeapRegion) (region_count : Nat)
    (heap : H) : ShenandoahConcurrentCoalesceAndFillTask H :=
  { _nworkers := nworkers
    _coalesce_and_fill_region_array := coalesce_and_fill_region_array
    _coalesce_and_fill_region_count := region_count
    _is_preempted := false
    heap := heap
    visits := [] }

/-- The candidate array holding the list `L` in its first `L.length` slots. -/
def arrayOfList (L : List ShenandoahHeapRegion) : Nat → ShenandoahHeapRegion :=
  fun i => L.getD i 0

/-! ## The worker loop -/

/-- The `for` loop of `work`, from the loop test onwards, with `region_idx` the current value
of the loop variable. `advance` is the loop increment `region_idx += _nworkers`; for the code it
is `uint_advance` (32-bit wrap-around). `fuel` bounds the number of loop bodies executed;
`none` means the bound was hit before the loop ended. -/
def work_loop {H : Type} (ops : RegionOps H) (advance : Nat → Nat → Nat) (worker_id : Nat) :
    Nat → Nat → ShenandoahConcurrentCoalesceAndFillTask H →
      Option (ShenandoahConcurrentCoalesceAndFillTask H)
  | 0, region_idx, t =>
    if region_idx < t._coalesce_and_fill_region_count then none else some t
  | fuel + 1, region_idx, t =>
    if region_idx < t._coalesce_and_fill_region_count then
      let r := t._coalesce_and_fill_region_array region_idx
      if !ops.is_humongous r then
        let res := ops.oop_fill_and_coalesce r t.heap
        if !res.1 then
          -- Coalesce and fill has been preempted
          some { t with
            _is_preempted := true
            heap := res.2
            visits := t.visits ++ [⟨worker_id, region_idx, r, Outcome.preempted⟩] }
        else
          work_loop ops advance worker_id fuel (advance region_idx t._nworkers)
            { t with
              heap := res.2
              visits := t.visits ++ [⟨worker_id, region_idx, r, Outcome.filled⟩] }
      else
        work_loop ops advance worker_id fuel (advance region_idx t._nworkers)
          { t with
            visits := t.visits ++ [⟨worker_id, region_idx, r, Outcome.skipped_humongous⟩] }
    else some t

/-- The increment `region_idx += _nworkers` on `uint`. -/
def uint_advance (region_idx nworkers : Nat) : Nat := (region_idx + nworkers) % UINT_RANGE

/-- The same increment over unbounded integers. -/
def nat_advance (region_idx nworkers : Nat) : Nat := region_idx + nworkers

/-- The method `ShenandoahConcurrentCoalesceAndFillTask::work(worker_id)`. -/
def work {H : Type} (ops : RegionOps H) (fuel : Nat) (worker_id : Nat)
    (t : ShenandoahConcurrentCoalesceAndFillTask H) :
    Option (ShenandoahConcurrentCoalesceAndFillTask H) :=
  work_loop ops uint_advance worker_id fuel worker_id t

/-- The loop of `work` with the index over unbounded integers (for comparison only). -/
def work_unbounded {H : Type} (ops : RegionOps H) (fuel : Nat) (worker_id : Nat)
    (t : ShenandoahConcurrentCoalesceAndFillTask H) :
    Option (ShenandoahConcurrentCoalesceAndFillTask H) :=
  work_loop ops nat_advance worker_id fuel worker_id t

/-- The method `ShenandoahConcurrentCoalesceAndFillTask::is_completed()`. -/
def is_completed {H : Type} (t : ShenandoahConcurrentCoalesceAndFillTask H) : Bool :=
  !t._is_preempted

/-- Workers `next, next+1, ..., next+remaining-1` run `work`, one after the other. -/
def run_workers {H : Type} (ops : RegionOps H) (fuel : Nat) :
    Nat → Nat → ShenandoahConcurrentCoalesceAndFillTask H →
      Option (ShenandoahConcurrentCoalesceAndFillTask H)
  | _, 0, t => some t
  | next, remaining + 1, t =>
    match work ops fuel next t with
    | none => none
    | some t1 => run_workers ops fuel (next + 1) remaining t1

/-- Modelled from the spec: `WorkerThreads::run_task(&task)` ("runs a task across the currently
active worker count"): every worker id `0 .. _nworkers-1` runs `work`, and the call returns
when all have terminated. No worker reads `_is_preempted` or another worker's loop variable, so
what a worker does depends on the others only through the heap contents its fills see; the
workers are run here one after the other, in the order of their ids. -/
def run_task {H : Type} (ops : RegionOps H) (fuel : Nat)
    (t : ShenandoahConcurrentCoalesceAndFillTask H) :
    Option (ShenandoahConcurrentCoalesceAndFillTask H) :=
  run_workers ops fuel 0 t._nworkers t

/-- The iterations in which `oop_fill_and_coalesce` was invoked (with either result). -/
def fill_calls (visits : List Visit) : List Visit :=
  visits.filter (fun v => v.outcome != Outcome.skipped_humongous)

/-- A recorded iteration is consistent with the task `t` and the region operations: it looked
at an index below the count, at the region stored there, and its outcome matches what
`is_humongous` and `oop_fill_and_coalesce` returned. -/
def VisitOK {H : Type} (ops : RegionOps H) (t : ShenandoahConcurrentCoalesceAndFillTask H)
    (w : Nat) (v : Visit) : Prop :=
  v.worker_id = w ∧ v.region_idx < t._coalesce_and_fill_region_count ∧
  v.region = t._coalesce_and_fill_region_array v.region_idx ∧
  (v.outcome = Outcome.skipped_humongous → ops.is_humongous v.region = true) ∧
  (v.outcome = Outcome.filled →
    ops.is_humongous v.region = false ∧ ∃ h, (ops.oop_fill_and_coalesce v.region h).1 = true) ∧
  (v.outcome = Outcome.preempted →
    ops.is_humongous v.region = false ∧ ∃ h, (ops.oop_fill_and_coalesce v.region h).1 = false)

/-- Same configuration: worker count, candidate array and candidate count agree. -/
def SameConfig {H : Type} (t t' : ShenandoahConcurrentCoalesceAndFillTask H) : Prop :=
  t'._nworkers = t._nworkers ∧
  t'._coalesce_and_fill_region_array = t._coalesce_and_fill_region_array ∧
  t'._coalesce_and_fill_region_count = t._coalesce_and_fill_region_count

/-- The number of indices `idx, idx+N, idx+2N, ...` that are below `M`. -/
def round_robin_count (idx N M : Nat) : Nat := (M + N - 1 - idx) / N

/-- The indices `idx, idx+N, idx+2N, ...` below `M`, in increasing order. -/
def round_robin_indices (idx N M : Nat) : List Nat :=
  List.range' idx (round_robin_count idx N M) N

/-- The recorded iterations `new` are what the region operations really returned, starting
from heap `h` and ending in heap `h'`: an iteration recorded as skipped looked at a humongous
region and left the heap alone; one recorded as filled called `oop_fill_and_coalesce` on a
non-humongous region in the heap reached so far and the call returned true; one recorded as
preempted called it and the call returned false; the heap moves on to the heap each call
returned. -/
def Faithful {H : Type} (ops : RegionOps H) : List Visit → H → H → Prop
  | [], h, h' => h' = h
  | v :: rest, h, h' =>
    match v.outcome with
    | Outcome.skipped_humongous =>
      ops.is_humongous v.region = true ∧ Faithful ops rest h h'
    | Outcome.filled =>
      ops.is_humongous v.region = false ∧
      (ops.oop_fill_and_coalesce v.region h).1 = true ∧
      Faithful ops rest (ops.oop_fill_and_coalesce v.region h).2 h'
    | Outcome.preempted =>
      ops.is_humongous v.region = false ∧
      (ops.oop_fill_and_coalesce v.region h).1 = false ∧
      Faithful ops rest (ops.oop_fill_and_coalesce v.region h).2 h'

/-- The heap after the fills recorded in `new`, replayed in order from `h`. -/
def replay_fills {H : Type} (ops : RegionOps H) (new : List Visit) (h : H) : H :=
  new.foldl (fun h v =>
    if v.outcome = Outcome.skipped_humongous then h
    else (ops.oop_fill_and_coalesce v.region h).2) h

/-- The calls of `oop_fill_and_coalesce` made by the iterations of a record, replayed in
order from heap `h`: an iteration over a humongous region makes no call; any other iteration
calls the fill on its region in the heap reached so far. Each call is listed with the index
and region of its iteration and the Boolean the call returned (false: preemption). -/
def fill_results {H : Type} (ops : RegionOps H) :
    List Visit → H → List (Nat × ShenandoahHeapRegion × Bool)
  | [], _ => []
  | v :: rest, h =>
    if ops.is_humongous v.region then fill_results ops rest h
    else (v.region_idx, v.region, (ops.oop_fill_and_coalesce v.region h).1) ::
      fill_results ops rest (ops.oop_fill_and_coalesce v.region h).2

/-- The call an iteration is recorded to have made, read off its outcome: none for a skipped
humongous region, a call returning true for filled, a call returning false for preempted. -/
def call_of_label (v : Visit) : Option (Nat × ShenandoahHeapRegion × Bool) :=
  match v.outcome with
  | Outcome.skipped_humongous => none
  | Outcome.filled => some (v.region_idx, v.region, true)
  | Outcome.preempted => some (v.region_idx, v.region, false)

/-- The round-robin assignment for workers `a, a+1, ..., a+n-1`: the pairs
`(worker, index)` in the order in which `run_workers` goes through them when nothing is
preempted. -/
def assignment (a n N M : Nat) : List (Nat × Nat) :=
  (List.range' a n).flatMap (fun w => (round_robin_indices w N M).map (fun i => (w, i)))

/-- Heap memory of a test heap: the list of regions filled so far. -/
abbrev FilledList := List ShenandoahHeapRegion

/-- Region operations for scenarios: no region is humongous, the fill of region `r` reports
preemption when `preempt r` and otherwise records `r` as filled. -/
def scenario_ops (preempt : ShenandoahHeapRegion → Bool) : RegionOps FilledList :=
  { is_humongous := fun _ => false
    oop_fill_and_coalesce := fun r h => if preempt r then (false, h) else (true, h ++ [r]) }

/-! ## The old-generation collection driver -/

/-- The degeneration points `collect` can record (`ShenandoahDegenPoint`). -/
inductive ShenandoahDegenPoint where
  | _degenerated_unset
  | _degenerated_outside_cycle
  | _degenerated_mark
  | _degenerated_evac
  deriving DecidableEq, Repr

/-- The two places in `collect` where the driver calls `_allow_preemption.try_unset()`. -/
inductive GuardSite where
  | after_mark
  | after_coalesce_and_fill
  deriving DecidableEq, Repr

/-- What the driver thread did, in order. One constructor per call or shared-flag access made
by `collect` and the functions it calls. -/
inductive Event where
  | allow_preemption_set
  | entry_mark
  | try_unset (site : GuardSite) (succeeded : Bool)
  | cancelled_gc (observed : Bool)
  | spin_pause
  | check_cancellation_and_abort (point : ShenandoahDegenPoint) (cancelled : Bool)
  | vmop_entry_final_mark
  | finish_mark
  | prepare_regions_and_collection_set
  | prepare_concurrent_roots
  | entry_weak_refs
  | entry_weak_roots
  | entry_cleanup_early
  | log_status
  | set_concurrent_prep_for_mixed_evacuation_in_progress (value : Bool)
  | vmop_entry_final_roots
  | run_task (completed : Bool)
  | start_old_evacuations
  deriving DecidableEq, Repr

/-- What the regulator thread (or another third party) can do to the shared flags while the
driver runs: clear the Preemption Guard (`_allow_preemption.try_unset()`) and cancel the GC
(`heap->cancel_gc(..)`). -/
inductive RegulatorAction where
  | try_unset_guard
  | cancel_gc
  deriving DecidableEq, Repr

/-- The state `collect` reads and writes: the fields of `ShenandoahHeap`, of the old
heuristics and of `ShenandoahOldGC` that the code touches, plus the history (`trace`, `visits`)
and the position in the regulator's schedule (`clock`). -/
structure OldGCState (H : Type) where
  /-- The phase flag `heap->is_concurrent_prep_for_mixed_evacuation_in_progress()`. -/
  concurrent_prep_for_mixed_evacuation_in_progress : Bool
  /-- The value of `heap->cancelled_gc()`. -/
  cancelled_gc : Bool
  /-- The value of `heap->is_concurrent_weak_root_in_progress()`. -/
  concurrent_weak_root_in_progress : Bool
  /-- Whether the young generation's reference to the old task queues is non-null. -/
  old_gen_task_queues : Bool
  needs_cleaning : Bool
  unload_classes : Bool
  /-- The value of `heap->workers()->active_workers()`. -/
  active_workers : Nat
  /-- The contents of the heap's regions. -/
  memory : H
  /-- The candidate list held by the old heuristics. -/
  candidates : List ShenandoahHeapRegion
  /-- The Preemption Guard `_allow_preemption`. -/
  _allow_preemption : Bool
  _coalesce_and_fill_region_array : Nat → ShenandoahHeapRegion
  _degen_point : ShenandoahDegenPoint
  trace : List Event
  visits : List Visit
  clock : Nat

/-- Everything outside the driver thread: the region operations, the regulator's schedule
(what it does at each scheduling point), what the opaque phases do to the heap contents, and the
values the driver obtains from collaborators. -/
structure Environment (H : Type) where
  ops : RegionOps H
  regulator : Nat → List RegulatorAction
  phase : Event → H → H
  /-- Whether `prepare_concurrent_roots` leaves weak-root processing in progress. -/
  weak_roots_after_final_mark : Bool
  /-- The value of `ShenandoahWorkerPolicy::calc_workers_for_conc_marking()`. -/
  calc_workers_for_conc_marking : Nat
  /-- Bound on the loop bodies of each worker of the task. -/
  task_fuel : Nat

/-- One action of the regulator on the shared flags. -/
def apply_regulator_action {H : Type} (s : OldGCState H) : RegulatorAction → OldGCState H
  | RegulatorAction.try_unset_guard => { s with _allow_preemption := false }
  | RegulatorAction.cancel_gc => { s with cancelled_gc := true }

/-- A scheduling point of the driver thread: the regulator performs its actions for the
current clock tick. -/
def regulator_step {H : Type} (env : Environment H) (s : OldGCState H) : OldGCState H :=
  { (env.regulator s.clock).foldl apply_regulator_action s with clock := s.clock + 1 }

/-- Append an event to the history. -/
def record {H : Type} (e : Event) (s : OldGCState H) : OldGCState H :=
  { s with trace := s.trace ++ [e] }

/-- Modelled from the spec: `ShenandoahSharedFlag::set` on the Preemption Guard ("set by the
Driver to declare coalesce-and-fill in progress and interruptible"). -/
def allow_preemption_set {H : Type} (env : Environment H) (s : OldGCState H) : OldGCState H :=
  record Event.allow_preemption_set { regulator_step env s with _allow_preemption := true }

/-- Modelled from the spec: `ShenandoahSharedFlag::try_unset` on the Preemption Guard ("cleared
atomically either by the Driver or by an external regulator; exactly one of them transitions it
from set to unset"): returns true when this call made the transition. -/
def allow_preemption_try_unset {H : Type} (env : Environment H) (site : GuardSite)
    (s : OldGCState H) : Bool × OldGCState H :=
  let s1 := regulator_step env s
  (s1._allow_preemption,
    record (Event.try_unset site s1._allow_preemption) { s1 with _allow_preemption := false })

/-- The loop `while (!heap->cancelled_gc()) { SpinPause(); }`. `fuel` bounds the number of
`SpinPause` calls; `none` when the bound is hit. -/
def wait_for_cancelled_gc {H : Type} (env : Environment H) : Nat → OldGCState H →
    Option (OldGCState H)
  | 0, s =>
    let s1 := regulator_step env s
    if !s1.cancelled_gc then none else some (record (Event.cancelled_gc true) s1)
  | fuel + 1, s =>
    let s1 := regulator_step env s
    if !s1.cancelled_gc then
      wait_for_cancelled_gc env fuel (record Event.spin_pause (record (Event.cancelled_gc false) s1))
    else some (record (Event.cancelled_gc true) s1)

/-- The statement `if (!_allow_preemption.try_unset()) { while (!heap->cancelled_gc())
SpinPause(); }` (source lines 141-147 and 212-218). -/
def try_unset_or_wait {H : Type} (env : Environment H) (spin_fuel : Nat) (site : GuardSite)
    (s : OldGCState H) : Option (OldGCState H) :=
  let r := allow_preemption_try_unset env site s
  if !r.1 then wait_for_cancelled_gc env spin_fuel r.2 else some r.2

/-- Modelled from the spec: `ShenandoahConcurrentGC::check_cancellation_and_abort(point)` ("any
cancellation check failing aborts to a caller-specified degenerate point and returns
failure"): when the GC has been cancelled, record the point and return true. -/
def check_cancellation_and_abort {H : Type} (env : Environment H) (point : ShenandoahDegenPoint)
    (s : OldGCState H) : Bool × OldGCState H :=
  let s1 := regulator_step env s
  if s1.cancelled_gc then
    (true, record (Event.check_cancellation_and_abort point true) { s1 with _degen_point := point })
  else (false, record (Event.check_cancellation_and_abort point false) s1)

/-- Modelled from the spec: a phase of the base driver `ShenandoahConcurrentGC` whose body is
outside this source (`entry_mark`, `entry_weak_refs`, `entry_weak_roots`,
`entry_cleanup_early`, `vmop_entry_final_roots`, the free-set `log_status`): it is recorded, it
may change the heap contents, and the regulator may act while it runs. -/
def external_phase {H : Type} (env : Environment H) (e : Event) (s : OldGCState H) :
    OldGCState H :=
  let s1 := regulator_step env s
  record e { s1 with memory := env.phase e s1.memory }

/-- The method `ShenandoahOldGC::op_final_mark()`. The assertions and the verification hooks
(`ShenandoahVerify`, `VerifyAfterGC`) are left out. -/
def op_final_mark {H : Type} (env : Environment H) (s : OldGCState H) : OldGCState H :=
  if !s.cancelled_gc then
    -- _mark.finish_mark()
    let s1 := record Event.finish_mark { s with memory := env.phase Event.finish_mark s.memory }
    -- heap->young_generation()->set_old_gen_task_queues(NULL)
    let s2 := { s1 with old_gen_task_queues := false }
    -- JvmtiTagMap::set_needs_cleaning()
    let s3 := { s2 with needs_cleaning := true }
    -- _generation->prepare_regions_and_collection_set(true)
    let s4 := record Event.prepare_regions_and_collection_set
      { s3 with memory := env.phase Event.prepare_regions_and_collection_set s3.memory }
    -- heap->set_unload_classes(false)
    let s5 := { s4 with unload_classes := false }
    -- heap->prepare_concurrent_roots()
    record Event.prepare_concurrent_roots
      { s5 with concurrent_weak_root_in_progress := env.weak_roots_after_final_mark }
  else s

/-- Modelled from the spec: `vmop_entry_final_mark()` of the base driver ("finalize marking
under a global pause"): the VM operation runs `op_final_mark` at a safepoint. -/
def vmop_entry_final_mark {H : Type} (env : Environment H) (s : OldGCState H) : OldGCState H :=
  op_final_mark env (record Event.vmop_entry_final_mark (regulator_step env s))

/-- Modelled from the spec: `get_coalesce_and_fill_candidates(out_array) -> count` of the old
heuristics: the candidates are written to the front of the array. -/
def get_coalesce_and_fill_candidates (candidates : List ShenandoahHeapRegion)
    (out_array : Nat → ShenandoahHeapRegion) : Nat → ShenandoahHeapRegion :=
  fun i => if i < candidates.length then candidates.getD i 0 else out_array i

/-- Modelled from the spec: `old_coalesce_and_fill_candidates() -> count` of the old
heuristics. -/
def old_coalesce_and_fill_candidates (candidates : List ShenandoahHeapRegion) : Nat :=
  candidates.length

/-- The method `ShenandoahOldGC::op_coalesce_and_fill()` (its assertions and log lines are left
out). -/
def op_coalesce_and_fill {H : Type} (env : Environment H) (s : OldGCState H) :
    Option (Bool × OldGCState H) :=
  let nworkers := s.active_workers
  let coalesce_and_fill_regions_count := old_coalesce_and_fill_candidates s.candidates
  let array := get_coalesce_and_fill_candidates s.candidates s._coalesce_and_fill_region_array
  let task := ShenandoahConcurrentCoalesceAndFillTask.new nworkers array
    coalesce_and_fill_regions_count s.memory
  match run_task env.ops env.task_fuel task with
  | none => none
  | some task' =>
    let s1 := record (Event.run_task (is_completed task'))
      { s with
        _coalesce_and_fill_region_array := array
        memory := task'.heap
        visits := s.visits ++ task'.visits }
    if is_completed task' then
      -- Remember that we're done with coalesce-and-fill.
      some (true, record (Event.set_concurrent_prep_for_mixed_evacuation_in_progress false)
        { s1 with concurrent_prep_for_mixed_evacuation_in_progress := false })
    else
      -- Otherwise, we got preempted before the work was done.
      some (false, s1)

/-- The method `ShenandoahOldGC::entry_coalesce_and_fill()`: the worker scope sets the number of active
workers, then `op_coalesce_and_fill` runs (logging and timing are left out). -/
def entry_coalesce_and_fill {H : Type} (env : Environment H) (s : OldGCState H) :
    Option (Bool × OldGCState H) :=
  let s1 := regulator_step env s
  op_coalesce_and_fill env { s1 with active_workers := env.calc_workers_for_conc_marking }

/-- The method `ShenandoahOldGC::start_old_evacuations()`: forwards to the old heuristics. -/
def start_old_evacuations {H : Type} (s : OldGCState H) : OldGCState H :=
  record Event.start_old_evacuations s

/-- The first block of `collect` (source lines 136-184), entered when the phase flag is clear:
mark, final mark, weak roots, early cleanup, then set the phase flag. The Boolean is true when
the block executed `return false` (cancellation after marking). -/
def collect_initial_phases {H : Type} (env : Environment H) (spin_fuel : Nat)
    (s : OldGCState H) : Option (Bool × OldGCState H) :=
  let s1 := allow_preemption_set env s
  let s2 := external_phase env Event.entry_mark s1
  match try_unset_or_wait env spin_fuel GuardSite.after_mark s2 with
  | none => none
  | some s3 =>
    let c := check_cancellation_and_abort env ShenandoahDegenPoint._degenerated_mark s3
    if c.1 then some (true, c.2)
    else
      -- Complete marking under STW
      let s4 := vmop_entry_final_mark env c.2
      -- Process weak roots that might still point to regions that would be broken by cleanup
      let s5 :=
        if s4.concurrent_weak_root_in_progress then
          external_phase env Event.entry_weak_roots (external_phase env Event.entry_weak_refs s4)
        else s4
      let s6 := external_phase env Event.entry_cleanup_early s5
      let s7 := external_phase env Event.log_status s6
      let s8 := record (Event.set_concurrent_prep_for_mixed_evacuation_in_progress true)
        { regulator_step env s7 with concurrent_prep_for_mixed_evacuation_in_progress := true }
      some (false, s8)

/-- The rest of `collect` (source lines 193-223): set the guard, check for cancellation, final
roots, coalesce-and-fill, release the guard, start old evacuations. -/
def collect_coalesce_and_fill {H : Type} (env : Environment H) (spin_fuel : Nat)
    (s : OldGCState H) : Option (Bool × OldGCState H) :=
  let s1 := allow_preemption_set env s
  let c := check_cancellation_and_abort env ShenandoahDegenPoint._degenerated_evac s1
  if c.1 then some (false, c.2)
  else
    let s2 := external_phase env Event.vmop_entry_final_roots c.2
    let filled : Option (Bool × OldGCState H) :=
      if s2.concurrent_prep_for_mixed_evacuation_in_progress then
        match entry_coalesce_and_fill env s2 with
        | none => none
        | some r =>
          if !r.1 then
            some (true, (check_cancellation_and_abort env
              ShenandoahDegenPoint._degenerated_outside_cycle r.2).2)
          else some (false, r.2)
      else some (false, s2)
    match filled with
    | none => none
    | some (true, s3) => some (false, s3)
    | some (false, s3) =>
      match try_unset_or_wait env spin_fuel GuardSite.after_coalesce_and_fill s3 with
      | none => none
      | some s4 => some (true, start_old_evacuations s4)

/-- The method `ShenandoahOldGC::collect(cause)`, its two blocks joined (assertions are left
out). The result is `none` when a spin-wait or a worker loop did not end within its bound. -/
def collect {H : Type} (env : Environment H) (spin_fuel : Nat) (s : OldGCState H) :
    Option (Bool × OldGCState H) :=
  if !s.concurrent_prep_for_mixed_evacuation_in_progress then
    -- Skip over the initial phases of old collect if we're resuming mixed evacuation preparation.
    match collect_initial_phases env spin_fuel s with
    | none => none
    | some (true, s1) => some (false, s1)
    | some (false, s1) => collect_coalesce_and_fill env spin_fuel s1
  else collect_coalesce_and_fill env spin_fuel s

/-- A driver state for scenarios: nothing in progress, no history. -/
def scenario_state (candidates : List ShenandoahHeapRegion) (phase_flag : Bool) :
    OldGCState FilledList :=
  { concurrent_prep_for_mixed_evacuation_in_progress := phase_flag
    cancelled_gc := false
    concurrent_weak_root_in_progress := false
    old_gen_task_queues := true
    needs_cleaning := false
    unload_classes := false
    active_workers := 0
    memory := []
    candidates := candidates
    _allow_preemption := false
    _coalesce_and_fill_region_array := fun _ => 0
    _degen_point := ShenandoahDegenPoint._degenerated_unset
    trace := []
    visits := []
    clock := 0 }

/-- An environment for scenarios: `workers` workers, fills preempted on the regions selected
by `preempt`, the regulator following `regulator`, phases leaving the heap contents alone. -/
def scenario_env (workers : Nat) (preempt : ShenandoahHeapRegion → Bool)
    (regulator : Nat → List RegulatorAction) : Environment FilledList :=
  { ops := scenario_ops preempt
    regulator := regulator
    phase := fun _ h => h
    weak_roots_after_final_mark := true
    calc_workers_for_conc_marking := workers
    task_fuel := 16 }

/-- The events of `k` rounds of the spin-wait that saw no cancellation yet. -/
def spins : Nat → List Event
  | 0 => []
  | k + 1 => Event.cancelled_gc false :: Event.spin_pause :: spins k

/-- Whether the event is a `try_unset` that found the guard already cleared. -/
def is_failed_try_unset : Event → Bool
  | Event.try_unset _ false => true
  | _ => false

/-- The task object `op_coalesce_and_fill` constructs in state `s`. -/
def coalesce_and_fill_task {H : Type} (s : OldGCState H) :
    ShenandoahConcurrentCoalesceAndFillTask H :=
  ShenandoahConcurrentCoalesceAndFillTask.new s.active_workers
    (get_coalesce_and_fill_candidates s.candidates s._coalesce_and_fill_region_array)
    (old_coalesce_and_fill_candidates s.candidates) s.memory

/-- The events of the first block of `collect` after a cancellation check that let it
continue: final mark (with or without the body of `op_final_mark`), optional weak
reference and weak root processing, early cleanup, and setting the phase flag. -/
def initial_body (final_mark_ran weak_roots : Bool) : List Event :=
  [Event.vmop_entry_final_mark] ++
  (if final_mark_ran then [Event.finish_mark, Event.prepare_regions_and_collection_set,
    Event.prepare_concurrent_roots] else []) ++
  (if weak_roots then [Event.entry_weak_refs, Event.entry_weak_roots] else []) ++
  [Event.entry_cleanup_early, Event.log_status,
    Event.set_concurrent_prep_for_mixed_evacuation_in_progress true]

/-- The events of `if (!_allow_preemption.try_unset()) { while (!cancelled_gc()) SpinPause(); }`
at `site`: either the `try_unset` succeeded, or it failed and `k` rounds of spinning were
followed by the observation of the cancellation. -/
def guard_release (site : GuardSite) (ok : Bool) (k : Nat) : List Event :=
  if ok then [Event.try_unset site true]
  else Event.try_unset site false :: (spins k ++ [Event.cancelled_gc true])

/-- The first block of `collect` when it returns false after marking. -/
def initial_trace_early (ok : Bool) (k : Nat) : List Event :=
  [Event.allow_preemption_set, Event.entry_mark] ++ guard_release GuardSite.after_mark ok k ++
  [Event.check_cancellation_and_abort ShenandoahDegenPoint._degenerated_mark true]

/-- The first block of `collect` when it runs to its end. -/
def initial_trace (final_mark_ran weak_roots : Bool) : List Event :=
  [Event.allow_preemption_set, Event.entry_mark, Event.try_unset GuardSite.after_mark true,
    Event.check_cancellation_and_abort ShenandoahDegenPoint._degenerated_mark false] ++
  initial_body final_mark_ran weak_roots

/-- The second block of `collect` when the cancellation check stops it. -/
def tail_cancelled : List Event :=
  [Event.allow_preemption_set,
    Event.check_cancellation_and_abort ShenandoahDegenPoint._degenerated_evac true]

/-- The second block of `collect` when the task ends preempted. -/
def tail_preempted (c3 : Bool) : List Event :=
  [Event.allow_preemption_set,
    Event.check_cancellation_and_abort ShenandoahDegenPoint._degenerated_evac false,
    Event.vmop_entry_final_roots, Event.run_task false,
    Event.check_cancellation_and_abort ShenandoahDegenPoint._degenerated_outside_cycle c3]

/-- The second block of `collect` when the task completes. -/
def tail_completed (ok : Bool) (k : Nat) : List Event :=
  [Event.allow_preemption_set,
    Event.check_cancellation_and_abort ShenandoahDegenPoint._degenerated_evac false,
    Event.vmop_entry_final_roots, Event.run_task true,
    Event.set_concurrent_prep_for_mixed_evacuation_in_progress false] ++
  guard_release GuardSite.after_coalesce_and_fill ok k ++ [Event.start_old_evacuations]

/-- What every step of the driver other than coalesce-and-fill leaves alone: the phase flag,
the heuristics' candidates, the candidate array and the fill history; and a cancellation, once
signalled, stays. -/
structure Keeps {H : Type} (s s' : OldGCState H) : Prop where
  flag : s'.concurrent_prep_for_mixed_evacuation_in_progress
    = s.concurrent_prep_for_mixed_evacuation_in_progress
  candidates : s'.candidates = s.candidates
  array : s'._coalesce_and_fill_region_array = s._coalesce_and_fill_region_array
  visits : s'.visits = s.visits
  cancelled : s.cancelled_gc = true → s'.cancelled_gc = true

/-- In going from `s` to `s'` the driver ran the coalesce-and-fill task once, the task ended
in state `task'` with `is_completed() = b`, and nothing else touched the phase flag, the
candidates, the candidate array or the fill history. -/
def CoalesceRun {H : Type} (env : Environment H) (s s' : OldGCState H) (b : Bool)
    (task' : ShenandoahConcurrentCoalesceAndFillTask H) : Prop :=
  ∃ s1 s2, Keeps s s1 ∧ s1.active_workers = env.calc_workers_for_conc_marking ∧
    op_coalesce_and_fill env s1 = some (b, s2) ∧
    run_task env.ops env.task_fuel (coalesce_and_fill_task s1) = some task' ∧
    is_completed task' = b ∧ Keeps s2 s'

/-- The events that belong to the initial phases of `collect` (source lines 139-183): marking,
the guard release and cancellation check after marking, final mark, weak reference and weak
root processing, early cleanup, the free-set status log, and setting the phase flag. -/
def is_initial_phase_event : Event → Bool
  | Event.entry_mark => true
  | Event.try_unset GuardSite.after_mark _ => true
  | Event.check_cancellation_and_abort ShenandoahDegenPoint._degenerated_mark _ => true
  | Event.vmop_entry_final_mark => true
  | Event.finish_mark => true
  | Event.prepare_regions_and_collection_set => true
  | Event.prepare_concurrent_roots => true
  | Event.entry_weak_refs => true
  | Event.entry_weak_roots => true
  | Event.entry_cleanup_early => true
  | Event.log_status => true
  | Event.set_concurrent_prep_for_mixed_evacuation_in_progress true => true
  | _ => false

/-- A regulator that clears the Preemption Guard at scheduling point 2 (while the driver is
about to call `try_unset` after marking) and cancels the GC at scheduling point 5. -/
def scenario_regulator_race : Nat → List RegulatorAction :=
  fun n =>
    if n = 2 then [RegulatorAction.try_unset_guard]
    else if n = 5 then [RegulatorAction.cancel_gc]
    else []

/-- Whether the event is the clearing of the phase flag. -/
def is_clear_phase_flag : Event → Bool
  | Event.set_concurrent_prep_for_mixed_evacuation_in_progress false => true
  | _ => false

/-! ## Resumption of a preempted task -/

/-- The fills of `ops` act on region contents through `f`: a fill of region `r` that succeeds
replaces the contents `c` of `r` by `f r c` and touches no other region; a fill that reports
preemption leaves the heap as it was. -/
def ActsLocally {C : Type} (ops : RegionOps (ShenandoahHeapRegion → C))
    (f : ShenandoahHeapRegion → C → C) : Prop :=
  ∀ r h,
    ((ops.oop_fill_and_coalesce r h).1 = true →
      (ops.oop_fill_and_coalesce r h).2 = Function.update h r (f r (h r))) ∧
    ((ops.oop_fill_and_coalesce r h).1 = false → (ops.oop_fill_and_coalesce r h).2 = h)

/-- The indices at which a fill was invoked and completed. -/
def filled_indices (visits : List Visit) : List Nat :=
  (visits.filter (fun v => v.outcome == Outcome.filled)).map (fun v => v.region_idx)

/-- The candidates of `L` that the recorded run did not fill, in their order in `L`. -/
def remaining_candidates (L : List ShenandoahHeapRegion) (visits : List Visit) :
    List ShenandoahHeapRegion :=
  ((List.range L.length).filter (fun i => !(filled_indices visits).contains i)).map
    (fun i => L.getD i 0)

/-- How many completed fills of region `r` the history records. -/
def filled_count (r : ShenandoahHeapRegion) (visits : List Visit) : Nat :=
  visits.countP (fun v => v.outcome == Outcome.filled && v.region == r)

/-- Region operations on a heap of region contents: no region is humongous; the fill of
region `r` reports preemption when `preempt r`, and otherwise replaces the contents `c` of `r`
by `f r c`. -/
def local_ops {C : Type} (f : ShenandoahHeapRegion → C → C)
    (preempt : ShenandoahHeapRegion → Bool) : RegionOps (ShenandoahHeapRegion → C) :=
  { is_humongous := fun _ => false
    oop_fill_and_coalesce := fun r h =>
      if preempt r then (false, h) else (true, Function.update h r (f r (h r))) }

/-- The task of the wrap-around scenario: `2^32 - 1` workers, candidates `[0, 1]`, every
region's contents (a counter of fills) initially 0. -/
def wrap_scenario_task :
    ShenandoahConcurrentCoalesceAndFillTask (ShenandoahHeapRegion → Nat) :=
  ShenandoahConcurrentCoalesceAndFillTask.new 4294967295 (arrayOfList [0, 1]) 2 (fun _ => 0)

end Shenandoah

namespace Shenandoah

/-! ## Basic facts about the worker loop -/

theorem work_loop_effect {H : Type} (ops : RegionOps H) (adv : Nat → Nat → Nat) (w : Nat) :
    ∀ (fuel idx : Nat) (t t' : ShenandoahConcurrentCoalesceAndFillTask H),
      work_loop ops adv w fuel idx t = some t' →
      SameConfig t t' ∧
      ∃ new, t'.visits = t.visits ++ new ∧ (∀ v ∈ new, VisitOK ops t w v) ∧
        t'._is_preempted = (t._is_preempted || new.any (fun v => v.outcome == Outcome.preempted))
  | 0, idx, t, t', h => by
    unfold work_loop at h
    split at h
    · exact absurd h (by simp)
    · simp only [Option.some.injEq] at h
      subst h
      exact ⟨⟨rfl, rfl, rfl⟩, [], by simp, by simp, by simp⟩
  | fuel + 1, idx, t, t', h => by
    unfold work_loop at h
    split at h
    · rename_i hlt
      simp only at h
      split at h
      · rename_i hh
        split at h
        · rename_i hp
          simp only [Option.some.injEq] at h
          subst h
          refine ⟨⟨rfl, rfl, rfl⟩, [_], rfl, ?_, by simp⟩
          intro v hv
          simp only [List.mem_singleton] at hv
          subst hv
          refine ⟨rfl, hlt, rfl, by simp, by simp, ?_⟩
          intro _
          refine ⟨by simpa using hh, t.heap, by simpa using hp⟩
        · rename_i hp
          obtain ⟨hc, new, hv, hok, hf⟩ := work_loop_effect ops adv w fuel _ _ _ h
          refine ⟨⟨hc.1, hc.2.1, hc.2.2⟩,
            ⟨w, idx, t._coalesce_and_fill_region_array idx, Outcome.filled⟩ :: new,
            by simp [hv], ?_,
            by simp [hf, (by decide : (Outcome.filled == Outcome.preempted) = false)]⟩
          intro v hv
          simp only [List.mem_cons] at hv
          rcases hv with hv | hv
          · subst hv
            refine ⟨rfl, hlt, rfl, by simp, ?_, by simp⟩
            intro _
            exact ⟨by simpa using hh, t.heap, by simpa using hp⟩
          · exact hok v hv
      · rename_i hh
        obtain ⟨hc, new, hv, hok, hf⟩ := work_loop_effect ops adv w fuel _ _ _ h
        refine ⟨⟨hc.1, hc.2.1, hc.2.2⟩,
          ⟨w, idx, t._coalesce_and_fill_region_array idx, Outcome.skipped_humongous⟩ :: new,
          by simp [hv], ?_,
          by simp [hf, (by decide : (Outcome.skipped_humongous == Outcome.preempted) = false)]⟩
        intro v hv
        simp only [List.mem_cons] at hv
        rcases hv with hv | hv
        · subst hv
          refine ⟨rfl, hlt, rfl, ?_, by simp, by simp⟩
          intro _
          simpa using hh
        · exact hok v hv
    · simp only [Option.some.injEq] at h
      subst h
      exact ⟨⟨rfl, rfl, rfl⟩, [], by simp, by simp, by simp⟩

/-- The iterations the loop records are what the region operations returned: the loop
labels an iteration by the result of the call it made, in the heap it had then. -/
theorem work_loop_faithful {H : Type} (ops : RegionOps H) (adv : Nat → Nat → Nat) (w : Nat) :
    ∀ (fuel idx : Nat) (t t' : ShenandoahConcurrentCoalesceAndFillTask H),
      work_loop ops adv w fuel idx t = some t' →
      ∃ new, t'.visits = t.visits ++ new ∧ Faithful ops new t.heap t'.heap
  | 0, idx, t, t', h => by
    unfold work_loop at h
    split at h
    · exact absurd h (by simp)
    · simp only [Option.some.injEq] at h
      subst h
      exact ⟨[], by simp, rfl⟩
  | fuel + 1, idx, t, t', h => by
    unfold work_loop at h
    split at h
    · simp only at h
      split at h
      · rename_i hh
        split at h
        · rename_i hp
          simp only [Option.some.injEq] at h
          subst h
          refine ⟨[⟨w, idx, t._coalesce_and_fill_region_array idx, Outcome.preempted⟩],
            rfl, ?_⟩
          exact ⟨by simpa using hh, by simpa using hp, rfl⟩
        · rename_i hp
          obtain ⟨new, hv, hf⟩ := work_loop_faithful ops adv w fuel _ _ _ h
          refine ⟨⟨w, idx, t._coalesce_and_fill_region_array idx, Outcome.filled⟩ :: new,
            by simp [hv], ?_⟩
          exact ⟨by simpa using hh, by simpa using hp, hf⟩
      · rename_i hh
        obtain ⟨new, hv, hf⟩ := work_loop_faithful ops adv w fuel _ _ _ h
        refine ⟨⟨w, idx, t._coalesce_and_fill_region_array idx,
            Outcome.skipped_humongous⟩ :: new,
          by simp [hv], ?_⟩
        exact ⟨by simpa using hh, hf⟩
    · simp only [Option.some.injEq] at h
      subst h
      exact ⟨[], by simp, rfl⟩

theorem faithful_append {H : Type} (ops : RegionOps H) :
    ∀ (l1 l2 : List Visit) (h h1 h2 : H),
      Faithful ops l1 h h1 → Faithful ops l2 h1 h2 → Faithful ops (l1 ++ l2) h h2
  | [], l2, h, h1, h2, f1, f2 => by
    have e : h1 = h := f1
    subst e
    exact f2
  | v :: l1, l2, h, h1, h2, f1, f2 => by
    rw [List.cons_append]
    unfold Faithful at f1 ⊢
    cases ho : v.outcome with
    | skipped_humongous =>
      simp only [ho] at f1 ⊢
      exact ⟨f1.1, faithful_append ops l1 l2 _ _ _ f1.2 f2⟩
    | filled =>
      simp only [ho] at f1 ⊢
      exact ⟨f1.1, f1.2.1, faithful_append ops l1 l2 _ _ _ f1.2.2 f2⟩
    | preempted =>
      simp only [ho] at f1 ⊢
      exact ⟨f1.1, f1.2.1, faithful_append ops l1 l2 _ _ _ f1.2.2 f2⟩

/-- In a faithful record the calls really made, with the Booleans really returned, are the
calls the outcomes record. -/
theorem fill_results_eq_labels {H : Type} (ops : RegionOps H) :
    ∀ (l : List Visit) (h h' : H), Faithful ops l h h' →
      fill_results ops l h = l.filterMap call_of_label
  | [], _, _, _ => rfl
  | v :: l, h, h', f => by
    unfold Faithful at f
    cases ho : v.outcome with
    | skipped_humongous =>
      simp only [ho] at f
      rw [fill_results, List.filterMap_cons]
      simp only [call_of_label, ho, f.1, if_true]
      exact fill_results_eq_labels ops l _ _ f.2
    | filled =>
      simp only [ho] at f
      rw [fill_results, List.filterMap_cons]
      simp only [call_of_label, ho, f.1, f.2.1, Bool.false_eq_true, if_false]
      rw [fill_results_eq_labels ops l _ _ f.2.2]
    | preempted =>
      simp only [ho] at f
      rw [fill_results, List.filterMap_cons]
      simp only [call_of_label, ho, f.1, f.2.1, Bool.false_eq_true, if_false]
      rw [fill_results_eq_labels ops l _ _ f.2.2]

/-- In a faithful record, a call that returned true is an iteration recorded as filled. -/
theorem mem_fill_results_true {H : Type} (ops : RegionOps H) (l : List Visit) (h h' : H)
    (f : Faithful ops l h h') (i : Nat) (r : ShenandoahHeapRegion) :
    (i, r, true) ∈ fill_results ops l h ↔
      ∃ v ∈ l, v.region_idx = i ∧ v.region = r ∧ v.outcome = Outcome.filled := by
  rw [fill_results_eq_labels ops l h h' f, List.mem_filterMap]
  constructor
  · rintro ⟨v, hv, hc⟩
    refine ⟨v, hv, ?_⟩
    cases ho : v.outcome <;> simp [call_of_label, ho] at hc
    exact ⟨hc.1, hc.2, rfl⟩
  · rintro ⟨v, hv, hi, hr, ho⟩
    exact ⟨v, hv, by simp [call_of_label, ho, hi, hr]⟩

/-- In a faithful record, some call returned false exactly when some iteration is recorded
as preempted. -/
theorem fill_results_all_true {H : Type} (ops : RegionOps H) (l : List Visit) (h h' : H)
    (f : Faithful ops l h h') :
    (∀ c ∈ fill_results ops l h, c.2.2 = true) ↔ ∀ v ∈ l, v.outcome ≠ Outcome.preempted := by
  rw [fill_results_eq_labels ops l h h' f]
  constructor
  · intro hc v hv ho
    have := hc (v.region_idx, v.region, false)
      (List.mem_filterMap.2 ⟨v, hv, by simp [call_of_label, ho]⟩)
    simp at this
  · intro hl c hc
    obtain ⟨v, hv, hvc⟩ := List.mem_filterMap.1 hc
    cases ho : v.outcome with
    | skipped_humongous => simp [call_of_label, ho] at hvc
    | filled =>
      simp [call_of_label, ho] at hvc
      rw [← hvc]
    | preempted => exact absurd ho (hl v hv)

/-- In a faithful record, the Boolean test "some call returned false" agrees with "some
iteration is recorded as preempted". -/
theorem fill_results_any_false {H : Type} (ops : RegionOps H) (l : List Visit) (h h' : H)
    (f : Faithful ops l h h') :
    (fill_results ops l h).any (fun c => !c.2.2)
      = l.any (fun v => v.outcome == Outcome.preempted) := by
  rw [Bool.eq_iff_iff]
  simp only [List.any_eq_true, Bool.not_eq_true', beq_iff_eq]
  constructor
  · rintro ⟨c, hc, hb⟩
    by_contra hne
    have hall := (fill_results_all_true ops l h h' f).2
      (fun v hv ho => hne ⟨v, hv, ho⟩) c hc
    rw [hb] at hall
    exact absurd hall (by decide)
  · rintro ⟨v, hv, ho⟩
    by_contra hne
    have hall : ∀ c ∈ fill_results ops l h, c.2.2 = true := by
      intro c hc
      cases hb : c.2.2 with
      | true => rfl
      | false => exact absurd ⟨c, hc, hb⟩ hne
    exact (fill_results_all_true ops l h h' f).1 hall v hv ho

/-- In a faithful record whose only preempted iteration, if any, is the last one, a call
that returned false is the last call. -/
theorem fill_results_false_last {H : Type} (ops : RegionOps H) :
    ∀ (l : List Visit) (h h' : H), Faithful ops l h h' →
      (∀ pre v post, l = pre ++ v :: post → v.outcome = Outcome.preempted → post = []) →
      ∀ pre c post, fill_results ops l h = pre ++ c :: post → c.2.2 = false → post = []
  | [], _, _, _, _, pre, c, post, hd, _ => by
    simp [fill_results] at hd
  | v :: l, h, h', f, hl, pre, c, post, hd, hb => by
    unfold Faithful at f
    have hl' : ∀ pre v' post, l = pre ++ v' :: post → v'.outcome = Outcome.preempted →
        post = [] := by
      intro pre v' post e ho
      exact hl (v :: pre) v' post (by rw [e]; rfl) ho
    cases ho : v.outcome with
    | skipped_humongous =>
      simp only [ho] at f
      rw [fill_results] at hd
      simp only [f.1, if_true] at hd
      exact fill_results_false_last ops l _ _ f.2 hl' pre c post hd hb
    | filled =>
      simp only [ho] at f
      rw [fill_results] at hd
      simp only [f.1, f.2.1, Bool.false_eq_true, if_false] at hd
      cases pre with
      | nil =>
        simp only [List.nil_append, List.cons.injEq] at hd
        rw [← hd.1] at hb
        simp at hb
      | cons p pre =>
        simp only [List.cons_append, List.cons.injEq] at hd
        exact fill_results_false_last ops l _ _ f.2.2 hl' pre c post hd.2 hb
    | preempted =>
      simp only [ho] at f
      have hnil : l = [] := hl [] v l rfl ho
      subst hnil
      rw [fill_results] at hd
      simp only [f.1, Bool.false_eq_true, if_false, fill_results] at hd
      cases pre with
      | nil =>
        simp only [List.nil_append, List.cons.injEq] at hd
        exact hd.2.symm
      | cons p pre =>
        simp only [List.cons_append, List.cons.injEq] at hd
        exact absurd hd.2 (by simp)

theorem round_robin_count_of_ge (idx N M : Nat) (hN : 0 < N) (h : M ≤ idx) :
    round_robin_count idx N M = 0 := by
  unfold round_robin_count
  exact Nat.div_eq_of_lt (by omega)

theorem round_robin_count_of_lt (idx N M : Nat) (hN : 0 < N) (h : idx < M) :
    round_robin_count idx N M = round_robin_count (idx + N) N M + 1 := by
  unfold round_robin_count
  have e : M + N - 1 - idx = (M + N - 1 - (idx + N)) + N := by omega
  rw [e, Nat.add_div_right _ hN]

theorem round_robin_indices_of_ge (idx N M : Nat) (hN : 0 < N) (h : M ≤ idx) :
    round_robin_indices idx N M = [] := by
  simp [round_robin_indices, round_robin_count_of_ge idx N M hN h]

theorem round_robin_indices_of_lt (idx N M : Nat) (hN : 0 < N) (h : idx < M) :
    round_robin_indices idx N M = idx :: round_robin_indices (idx + N) N M := by
  simp [round_robin_indices, round_robin_count_of_lt idx N M hN h, List.range'_succ]

/-- On the range where the 32-bit index cannot overflow, the loop of the code and the loop over
unbounded integers are the same function. -/
theorem work_loop_uint_eq_nat {H : Type} (ops : RegionOps H) (w : Nat) :
    ∀ (fuel idx : Nat) (t : ShenandoahConcurrentCoalesceAndFillTask H),
      t._coalesce_and_fill_region_count + t._nworkers ≤ UINT_RANGE →
      work_loop ops uint_advance w fuel idx t = work_loop ops nat_advance w fuel idx t
  | 0, idx, t, _ => by simp [work_loop]
  | fuel + 1, idx, t, hb => by
    unfold work_loop
    split
    · rename_i hlt
      have e : uint_advance idx t._nworkers = nat_advance idx t._nworkers := by
        unfold uint_advance nat_advance
        exact Nat.mod_eq_of_lt (by omega)
      simp only [e]
      split
      · split
        · rfl
        · exact work_loop_uint_eq_nat ops w fuel _ _ hb
      · exact work_loop_uint_eq_nat ops w fuel _ _ hb
    · rfl

/-- The loop over unbounded integers, started at `idx`: the indices it visits are an initial
segment of `idx, idx+N, ...` (below the count), a preempted visit is the last one, without a
preempted visit the whole progression is visited, and the heap is the replay of the fills. -/
theorem work_loop_nat_sequence {H : Type} (ops : RegionOps H) (w : Nat) :
    ∀ (fuel idx : Nat) (t t' : ShenandoahConcurrentCoalesceAndFillTask H),
      0 < t._nworkers →
      work_loop ops nat_advance w fuel idx t = some t' →
      ∃ new, t'.visits = t.visits ++ new ∧
        new.map (fun v => v.region_idx) <+:
          round_robin_indices idx t._nworkers t._coalesce_and_fill_region_count ∧
        (∀ pre v post, new = pre ++ v :: post → v.outcome = Outcome.preempted → post = []) ∧
        ((∀ v ∈ new, v.outcome ≠ Outcome.preempted) →
          new.map (fun v => v.region_idx) =
            round_robin_indices idx t._nworkers t._coalesce_and_fill_region_count) ∧
        t'.heap = replay_fills ops new t.heap
  | 0, idx, t, t', hN, h => by
    unfold work_loop at h
    split at h
    · exact absurd h (by simp)
    · rename_i hge
      simp only [Option.some.injEq] at h
      subst h
      refine ⟨[], by simp, by simp, by simp, ?_, by simp [replay_fills]⟩
      intro _
      exact (round_robin_indices_of_ge idx t._nworkers t._coalesce_and_fill_region_count hN
        (by omega)).symm
  | fuel + 1, idx, t, t', hN, h => by
    unfold work_loop at h
    split at h
    · rename_i hlt
      simp only at h
      rw [round_robin_indices_of_lt idx _ _ hN hlt]
      split at h
      · rename_i hh
        split at h
        · rename_i hp
          simp only [Option.some.injEq] at h
          subst h
          refine ⟨[⟨w, idx, t._coalesce_and_fill_region_array idx, Outcome.preempted⟩],
            rfl, by simp, ?_, ?_, ?_⟩
          · intro pre v post e _
            rcases pre with _ | ⟨p, pre⟩
            · simp at e
              exact e.2
            · simp at e
          · intro hall
            exact absurd rfl (hall _ (List.mem_singleton.2 rfl))
          · simp [replay_fills]
        · rename_i hp
          obtain ⟨new, hv, hpre, hlast, hfull, hheap⟩ :=
            work_loop_nat_sequence ops w fuel _ _ _ (by exact hN) h
          refine ⟨⟨w, idx, t._coalesce_and_fill_region_array idx, Outcome.filled⟩ :: new,
            by simp [hv], ?_, ?_, ?_, ?_⟩
          · simpa [nat_advance, List.cons_prefix_cons] using hpre
          · intro pre v post e hvp
            rcases pre with _ | ⟨p, pre⟩
            · simp only [List.nil_append, List.cons.injEq] at e
              rw [← e.1] at hvp
              simp at hvp
            · simp only [List.cons_append, List.cons.injEq] at e
              exact hlast pre v post e.2 hvp
          · intro hall
            have := hfull (fun v hv => hall v (List.mem_cons_of_mem _ hv))
            simpa [nat_advance] using this
          · simp [hheap, replay_fills]
      · rename_i hh
        obtain ⟨new, hv, hpre, hlast, hfull, hheap⟩ :=
          work_loop_nat_sequence ops w fuel _ _ _ (by exact hN) h
        refine ⟨⟨w, idx, t._coalesce_and_fill_region_array idx,
            Outcome.skipped_humongous⟩ :: new,
          by simp [hv], ?_, ?_, ?_, ?_⟩
        · simpa [nat_advance, List.cons_prefix_cons] using hpre
        · intro pre v post e hvp
          rcases pre with _ | ⟨p, pre⟩
          · simp only [List.nil_append, List.cons.injEq] at e
            rw [← e.1] at hvp
            simp at hvp
          · simp only [List.cons_append, List.cons.injEq] at e
            exact hlast pre v post e.2 hvp
        · intro hall
          have := hfull (fun v hv => hall v (List.mem_cons_of_mem _ hv))
          simpa [nat_advance] using this
        · simp [hheap, replay_fills]
    · rename_i hge
      simp only [Option.some.injEq] at h
      subst h
      refine ⟨[], by simp, by simp, by simp, ?_, by simp [replay_fills]⟩
      intro _
      exact (round_robin_indices_of_ge idx t._nworkers t._coalesce_and_fill_region_count hN
        (by omega)).symm

/-- Fuel: `round_robin_count idx N M` loop bodies are enough for the unbounded loop started
at `idx`. -/
theorem work_loop_nat_terminates {H : Type} (ops : RegionOps H) (w : Nat) :
    ∀ (fuel idx : Nat) (t : ShenandoahConcurrentCoalesceAndFillTask H),
      0 < t._nworkers →
      round_robin_count idx t._nworkers t._coalesce_and_fill_region_count ≤ fuel →
      (work_loop ops nat_advance w fuel idx t).isSome = true
  | 0, idx, t, hN, hf => by
    unfold work_loop
    split
    · rename_i hlt
      rw [round_robin_count_of_lt idx _ _ hN hlt] at hf
      omega
    · rfl
  | fuel + 1, idx, t, hN, hf => by
    unfold work_loop
    split
    · rename_i hlt
      rw [round_robin_count_of_lt idx _ _ hN hlt] at hf
      simp only
      split
      · split
        · rfl
        · exact work_loop_nat_terminates ops w fuel _ _ (by exact hN) (by simpa [nat_advance] using hf)
      · exact work_loop_nat_terminates ops w fuel _ _ (by exact hN) (by simpa [nat_advance] using hf)
    · rfl

theorem round_robin_count_le (idx N M : Nat) :
    round_robin_count idx N M ≤ (M + N - 1) / N := by
  unfold round_robin_count
  exact Nat.div_le_div_right (by omega)

theorem round_robin_indices_sorted (idx N M : Nat) (hN : 0 < N) :
    (round_robin_indices idx N M).Pairwise (· < ·) :=
  List.pairwise_lt_range' idx _ N hN

/-! ## The worker loop: one worker -/

/-- C10: with the loop index in unsigned 32-bit arithmetic, for `N ≥ 1` workers and `M`
candidates with `M + N ≤ 2^32`, the loop of `work(w)` computes what the same loop over unbounded
integers computes (for every bound on the number of iterations, so it visits the same indices),
it terminates within `ceil(M / N)` iterations, and at every index it visits the increment
`region_idx + N` stays below `2^32` (no wrap-around). -/
theorem C10_no_wrap_and_termination {H : Type} (ops : RegionOps H) (w : Nat)
    (t : ShenandoahConcurrentCoalesceAndFillTask H)
    (hN : 1 ≤ t._nworkers)
    (hb : t._coalesce_and_fill_region_count + t._nworkers ≤ 4294967296) :
    (∀ fuel, work ops fuel w t = work_unbounded ops fuel w t) ∧
    (∃ t', work ops ((t._coalesce_and_fill_region_count + t._nworkers - 1) / t._nworkers) w t
        = some t') ∧
    (∀ fuel t', work ops fuel w t = some t' →
      ∃ new, t'.visits = t.visits ++ new ∧
        new.length ≤ (t._coalesce_and_fill_region_count + t._nworkers - 1) / t._nworkers ∧
        (∀ v ∈ new, v.region_idx + t._nworkers < 4294967296 ∧
          uint_advance v.region_idx t._nworkers = v.region_idx + t._nworkers) ∧
        new.map (fun v => v.region_idx) <+:
          round_robin_indices w t._nworkers t._coalesce_and_fill_region_count) := by
  have heq : ∀ fuel, work ops fuel w t = work_unbounded ops fuel w t :=
    fun fuel => work_loop_uint_eq_nat ops w fuel w t hb
  refine ⟨heq, ?_, ?_⟩
  · have hs := work_loop_nat_terminates ops w
      ((t._coalesce_and_fill_region_count + t._nworkers - 1) / t._nworkers) w t hN
      (round_robin_count_le _ _ _)
    rw [heq]
    exact Option.isSome_iff_exists.1 hs
  · intro fuel t' h
    obtain ⟨_, new1, hv1, hok, _⟩ := work_loop_effect ops uint_advance w fuel w t t' h
    rw [heq] at h
    obtain ⟨new, hv, hpre, _, _, _⟩ := work_loop_nat_sequence ops w fuel w t t' hN h
    have e : new1 = new := List.append_cancel_left (hv1.symm.trans hv)
    subst e
    refine ⟨new1, hv, ?_, ?_, hpre⟩
    · have := hpre.length_le
      simp only [List.length_map, round_robin_indices, List.length_range'] at this
      exact this.trans (round_robin_count_le _ _ _)
    · intro v hv
      have hlt := (hok v hv).2.1
      have : v.region_idx + t._nworkers < 4294967296 := by omega
      exact ⟨this, Nat.mod_eq_of_lt this⟩

/-- Witness for C10: 2 workers, 5 candidates, worker 1. -/
theorem C10_no_wrap_and_termination_witness :
    ∃ t', work (scenario_ops (fun _ => false)) 3 1
      (ShenandoahConcurrentCoalesceAndFillTask.new 2 (arrayOfList [10, 11, 12, 13, 14]) 5 [])
        = some t' :=
  (C10_no_wrap_and_termination (scenario_ops (fun _ => false)) 1
    (ShenandoahConcurrentCoalesceAndFillTask.new 2 (arrayOfList [10, 11, 12, 13, 14]) 5 [])
    (by decide) (by decide)).2.1

/-- C9 as stated fails when the 32-bit index wraps: with `N = 2^32 - 1` workers and `M = 2`
candidates, worker 1 fills index 1 and then index 0 (since `1 + N` wraps to 0), which is neither
of the form `1 + j*N` nor in increasing order. It also fails, read per region, for a candidate
list that repeats a region: with one worker and candidates `[5, 5]` region 5 is filled twice. -/
theorem C9_counterexample :
    ((work (scenario_ops (fun _ => false)) 2 1
      (ShenandoahConcurrentCoalesceAndFillTask.new 4294967295 (arrayOfList [10, 11]) 2 [])).map
        (fun t => (fill_calls t.visits).map (fun v => v.region_idx)) = some [1, 0] ∧
      round_robin_indices 1 4294967295 2 = [1] ∧ 1 ≤ 4294967295 ∧ 1 < 4294967295) ∧
    (work (scenario_ops (fun _ => false)) 2 0
      (ShenandoahConcurrentCoalesceAndFillTask.new 1 (arrayOfList [5, 5]) 2 [])).map
        (fun t => (fill_calls t.visits).map (fun v => (v.region_idx, v.region, v.outcome)))
      = some [(0, 5, Outcome.filled), (1, 5, Outcome.filled)] := by
  decide

/-- C9 (amended with `M + N ≤ 2^32`): for `N ≥ 1`, `work(w)` terminates, and the iterations
`new` it adds to the history satisfy: their indices are an initial segment of
`w, w+N, w+2N, ...` (below `M`), in strictly increasing order and without repetition; each
looks at the candidate stored at its index, is performed by `w`, and invokes the fill exactly
when that candidate is not humongous; an iteration whose fill reports preemption is the last
one; when no fill reports preemption the whole progression is visited; the shared flag is set
exactly when one of its fills reported preemption; the record is faithful (`Faithful`): an
iteration counts as filled exactly when its call of `oop_fill_and_coalesce`, in the heap left
by the calls before it, returned true, and as preempted exactly when that call returned false;
in terms of the Booleans the calls returned (`fill_results`): the flag is set exactly when a
call returned false, a call that returned false is the last call, and when every call returned
true the whole progression is visited; the heap on return is the result of exactly those calls, in that order (nothing is undone or
repeated); and when the candidates below `M` are distinct regions, no region is looked at
twice. -/
theorem C9_exact_fill_sequence {H : Type} (ops : RegionOps H) (w : Nat)
    (t : ShenandoahConcurrentCoalesceAndFillTask H)
    (hN : 1 ≤ t._nworkers)
    (hb : t._coalesce_and_fill_region_count + t._nworkers ≤ 4294967296) :
    (∃ t', work ops ((t._coalesce_and_fill_region_count + t._nworkers - 1) / t._nworkers) w t
        = some t') ∧
    (∀ fuel t', work ops fuel w t = some t' →
      ∃ new, t'.visits = t.visits ++ new ∧
        new.map (fun v => v.region_idx) <+:
          round_robin_indices w t._nworkers t._coalesce_and_fill_region_count ∧
        (new.map (fun v => v.region_idx)).Pairwise (· < ·) ∧
        (new.map (fun v => v.region_idx)).Nodup ∧
        (∀ v ∈ new, v.worker_id = w ∧ v.region_idx < t._coalesce_and_fill_region_count ∧
          v.region = t._coalesce_and_fill_region_array v.region_idx ∧
          (v.outcome = Outcome.skipped_humongous ↔ ops.is_humongous v.region = true)) ∧
        (∀ pre v post, new = pre ++ v :: post → v.outcome = Outcome.preempted → post = []) ∧
        ((∀ v ∈ new, v.outcome ≠ Outcome.preempted) →
          new.map (fun v => v.region_idx) =
            round_robin_indices w t._nworkers t._coalesce_and_fill_region_count) ∧
        t'._is_preempted
          = (t._is_preempted || new.any (fun v => v.outcome == Outcome.preempted)) ∧
        Faithful ops new t.heap t'.heap ∧
        t'._is_preempted
          = (t._is_preempted || (fill_results ops new t.heap).any (fun c => !c.2.2)) ∧
        (∀ pre c post, fill_results ops new t.heap = pre ++ c :: post → c.2.2 = false →
          post = []) ∧
        ((∀ c ∈ fill_results ops new t.heap, c.2.2 = true) →
          new.map (fun v => v.region_idx) =
            round_robin_indices w t._nworkers t._coalesce_and_fill_region_count) ∧
        t'.heap = replay_fills ops new t.heap ∧
        ((∀ i j, i < t._coalesce_and_fill_region_count →
            j < t._coalesce_and_fill_region_count →
            t._coalesce_and_fill_region_array i = t._coalesce_and_fill_region_array j → i = j) →
          (new.map (fun v => v.region)).Nodup)) := by
  have heq : ∀ fuel, work ops fuel w t = work_unbounded ops fuel w t :=
    fun fuel => work_loop_uint_eq_nat ops w fuel w t hb
  refine ⟨?_, ?_⟩
  · have hs := work_loop_nat_terminates ops w
      ((t._coalesce_and_fill_region_count + t._nworkers - 1) / t._nworkers) w t hN
      (round_robin_count_le _ _ _)
    rw [heq]
    exact Option.isSome_iff_exists.1 hs
  · intro fuel t' h
    obtain ⟨_, new2, hv1, hok, hflag⟩ := work_loop_effect ops uint_advance w fuel w t t' h
    obtain ⟨newf, hv2, hfaith⟩ := work_loop_faithful ops uint_advance w fuel w t t' h
    have e2 : new2 = newf := List.append_cancel_left (hv1.symm.trans hv2)
    subst e2
    rw [heq] at h
    obtain ⟨new, hv, hpre, hlast, hfull, hheap⟩ := work_loop_nat_sequence ops w fuel w t t' hN h
    have e : new2 = new := List.append_cancel_left (hv1.symm.trans hv)
    subst e
    have hsorted : (new2.map (fun v => v.region_idx)).Pairwise (· < ·) :=
      (round_robin_indices_sorted w _ _ hN).sublist hpre.sublist
    have hnd : (new2.map (fun v => v.region_idx)).Nodup :=
      hsorted.imp (fun h => Nat.ne_of_lt h)
    refine ⟨new2, hv, hpre, hsorted, hnd, ?_, hlast, hfull, hflag, hfaith,
      by rw [fill_results_any_false ops new2 _ _ hfaith]; exact hflag,
      fill_results_false_last ops new2 _ _ hfaith hlast,
      fun hc => hfull ((fill_results_all_true ops new2 _ _ hfaith).1 hc), hheap, ?_⟩
    swap
    · intro hinj
      refine List.Nodup.map_on ?_ (List.Nodup.of_map _ hnd)
      intro v hv u hu hreg
      have hv' := hok v hv
      have hu' := hok u hu
      have hidx : v.region_idx = u.region_idx :=
        hinj _ _ hv'.2.1 hu'.2.1 (by rw [← hv'.2.2.1, ← hu'.2.2.1]; exact hreg)
      exact List.inj_on_of_nodup_map hnd hv hu hidx
    intro v hv
    obtain ⟨h1, h2, h3, h4, h5, h6⟩ := hok v hv
    refine ⟨h1, h2, h3, h4, ?_⟩
    intro hh
    cases ho : v.outcome with
    | skipped_humongous => rfl
    | filled => rw [(h5 ho).1] at hh; exact absurd hh (by decide)
    | preempted => rw [(h6 ho).1] at hh; exact absurd hh (by decide)

/-- Witness for C9: 2 workers, 5 candidates, the fill of region 13 (index 3) reporting
preemption: worker 1 fills index 1 (the call returns true), is preempted at index 3 (the call
returns false), raises the flag and stops; the record is faithful to the calls. -/
theorem C9_exact_fill_sequence_witness :
    ∃ t', work (scenario_ops (fun r => r == 13)) 3 1
        (ShenandoahConcurrentCoalesceAndFillTask.new 2 (arrayOfList [10, 11, 12, 13, 14]) 5 [])
          = some t' ∧
      t'.visits = [⟨1, 1, 11, Outcome.filled⟩, ⟨1, 3, 13, Outcome.preempted⟩] ∧
      t'._is_preempted = true ∧ t'.heap = [11] ∧
      ((scenario_ops (fun r => r == 13)).oop_fill_and_coalesce 11 []).1 = true ∧
      ((scenario_ops (fun r => r == 13)).oop_fill_and_coalesce 13 [11]).1 = false ∧
      fill_results (scenario_ops (fun r => r == 13)) t'.visits []
        = [(1, 11, true), (3, 13, false)] ∧
      Faithful (scenario_ops (fun r => r == 13)) t'.visits [] t'.heap :=
  have hs : (work (scenario_ops (fun r => r == 13)) 3 1
      (ShenandoahConcurrentCoalesceAndFillTask.new 2 (arrayOfList [10, 11, 12, 13, 14]) 5
        [])).isSome = true := by decide
  have hc := (C9_exact_fill_sequence (scenario_ops (fun r => r == 13)) 1
    (ShenandoahConcurrentCoalesceAndFillTask.new 2 (arrayOfList [10, 11, 12, 13, 14]) 5 [])
    (by decide) (by decide)).2 3 (Option.get _ hs) (Option.some_get hs).symm
  ⟨Option.get _ hs, (Option.some_get hs).symm, rfl, rfl, rfl, rfl, rfl, rfl,
    (List.append_cancel_left (hc.choose_spec.1.symm.trans (List.nil_append _).symm)) ▸
      hc.choose_spec.2.2.2.2.2.2.2.2.1⟩

theorem SameConfig.andThen {H : Type} {t t1 t2 : ShenandoahConcurrentCoalesceAndFillTask H}
    (h1 : SameConfig t t1) (h2 : SameConfig t1 t2) : SameConfig t t2 :=
  ⟨h2.1.trans h1.1, h2.2.1.trans h1.2.1, h2.2.2.trans h1.2.2⟩

theorem VisitOK.of_sameConfig {H : Type} {ops : RegionOps H}
    {t t1 : ShenandoahConcurrentCoalesceAndFillTask H} {w : Nat} {v : Visit}
    (h1 : SameConfig t t1) (h : VisitOK ops t1 w v) : VisitOK ops t w v := by
  obtain ⟨a, b, c, d⟩ := h
  exact ⟨a, h1.2.2 ▸ b, h1.2.1 ▸ c, d⟩

theorem run_workers_effect {H : Type} (ops : RegionOps H) (fuel : Nat) :
    ∀ (n a : Nat) (t t' : ShenandoahConcurrentCoalesceAndFillTask H),
      run_workers ops fuel a n t = some t' →
      SameConfig t t' ∧
      ∃ new, t'.visits = t.visits ++ new ∧
        (∀ v ∈ new, a ≤ v.worker_id ∧ v.worker_id < a + n ∧ VisitOK ops t v.worker_id v) ∧
        t'._is_preempted = (t._is_preempted || new.any (fun v => v.outcome == Outcome.preempted))
  | 0, a, t, t', h => by
    simp only [run_workers, Option.some.injEq] at h
    subst h
    exact ⟨⟨rfl, rfl, rfl⟩, [], by simp, by simp, by simp⟩
  | n + 1, a, t, t', h => by
    simp only [run_workers] at h
    cases hw : work ops fuel a t with
    | none => simp [hw] at h
    | some t1 =>
      simp only [hw] at h
      obtain ⟨hc1, new1, hv1, hok1, hf1⟩ := work_loop_effect ops uint_advance a fuel a t t1 hw
      obtain ⟨hc2, new2, hv2, hok2, hf2⟩ := run_workers_effect ops fuel n (a + 1) t1 t' h
      refine ⟨hc1.andThen hc2, new1 ++ new2, by simp [hv2, hv1], ?_, ?_⟩
      · intro v hv
        rcases List.mem_append.1 hv with hv | hv
        · have hk := hok1 v hv
          have hwid : v.worker_id = a := hk.1
          exact ⟨by omega, by omega, hwid ▸ hk⟩
        · obtain ⟨h1, h2, h3⟩ := hok2 v hv
          exact ⟨by omega, by omega, h3.of_sameConfig hc1⟩
      · simp [hf2, hf1, Bool.or_assoc]

theorem run_workers_faithful {H : Type} (ops : RegionOps H) (fuel : Nat) :
    ∀ (n a : Nat) (t t' : ShenandoahConcurrentCoalesceAndFillTask H),
      run_workers ops fuel a n t = some t' →
      ∃ new, t'.visits = t.visits ++ new ∧ Faithful ops new t.heap t'.heap
  | 0, a, t, t', h => by
    simp only [run_workers, Option.some.injEq] at h
    subst h
    exact ⟨[], by simp, rfl⟩
  | n + 1, a, t, t', h => by
    simp only [run_workers] at h
    cases hw : work ops fuel a t with
    | none => simp [hw] at h
    | some t1 =>
      simp only [hw] at h
      obtain ⟨new1, hv1, hf1⟩ := work_loop_faithful ops uint_advance a fuel a t t1 hw
      obtain ⟨new2, hv2, hf2⟩ := run_workers_faithful ops fuel n (a + 1) t1 t' h
      exact ⟨new1 ++ new2, by simp [hv2, hv1], faithful_append ops _ _ _ _ _ hf1 hf2⟩

/-- Every worker in the range ran `work` once, from a task state with the same
configuration, and its iterations are part of the final history. -/
theorem run_workers_worker {H : Type} (ops : RegionOps H) (fuel : Nat) :
    ∀ (n a : Nat) (t t' : ShenandoahConcurrentCoalesceAndFillTask H),
      run_workers ops fuel a n t = some t' →
      ∀ w, a ≤ w → w < a + n →
        ∃ t1 t2 pre post, work ops fuel w t1 = some t2 ∧ SameConfig t t1 ∧
          t1.visits = t.visits ++ pre ∧ t'.visits = t2.visits ++ post
  | 0, a, t, t', _, w, h1, h2 => by omega
  | n + 1, a, t, t', h, w, h1, h2 => by
    simp only [run_workers] at h
    cases hw : work ops fuel a t with
    | none => simp [hw] at h
    | some t1 =>
      simp only [hw] at h
      obtain ⟨hc1, new1, hv1, _, _⟩ := work_loop_effect ops uint_advance a fuel a t t1 hw
      by_cases e : w = a
      · subst e
        obtain ⟨_, new2, hv2, _, _⟩ := run_workers_effect ops fuel n (w + 1) t1 t' h
        exact ⟨t, t1, [], new2, hw, ⟨rfl, rfl, rfl⟩, by simp, hv2⟩
      · obtain ⟨s1, s2, pre, post, hs, hc, hpre, hpost⟩ :=
          run_workers_worker ops fuel n (a + 1) t1 t' h w (by omega) (by omega)
        exact ⟨s1, s2, new1 ++ pre, post, hs, hc1.andThen hc, by simp [hpre, hv1], hpost⟩

theorem replay_fills_append {H : Type} (ops : RegionOps H) (l1 l2 : List Visit) (h : H) :
    replay_fills ops (l1 ++ l2) h = replay_fills ops l2 (replay_fills ops l1 h) := by
  simp [replay_fills, List.foldl_append]

theorem assignment_succ (a n N M : Nat) :
    assignment a (n + 1) N M =
      (round_robin_indices a N M).map (fun i => (a, i)) ++ assignment (a + 1) n N M := by
  simp [assignment, List.range'_succ]

/-- Without index wrap-around, the new iterations of workers `a .. a+n-1` follow the
round-robin assignment: they are a sublist of it, all of it when nothing was preempted, and
the heap is the replay of the fills. -/
theorem run_workers_sequence {H : Type} (ops : RegionOps H) (fuel : Nat) :
    ∀ (n a : Nat) (t t' : ShenandoahConcurrentCoalesceAndFillTask H),
      0 < t._nworkers →
      t._coalesce_and_fill_region_count + t._nworkers ≤ UINT_RANGE →
      run_workers ops fuel a n t = some t' →
      ∃ new, t'.visits = t.visits ++ new ∧
        (new.map (fun v => (v.worker_id, v.region_idx))).Sublist
          (assignment a n t._nworkers t._coalesce_and_fill_region_count) ∧
        ((∀ v ∈ new, v.outcome ≠ Outcome.preempted) →
          new.map (fun v => (v.worker_id, v.region_idx)) =
            assignment a n t._nworkers t._coalesce_and_fill_region_count) ∧
        t'.heap = replay_fills ops new t.heap
  | 0, a, t, t', _, _, h => by
    simp only [run_workers, Option.some.injEq] at h
    subst h
    exact ⟨[], by simp, by simp [assignment], by simp [assignment], by simp [replay_fills]⟩
  | n + 1, a, t, t', hN, hb, h => by
    simp only [run_workers] at h
    cases hw : work ops fuel a t with
    | none => simp [hw] at h
    | some t1 =>
      simp only [hw] at h
      obtain ⟨hc1, new0, hv0, hok1, _⟩ := work_loop_effect ops uint_advance a fuel a t t1 hw
      have hw' := hw
      unfold work at hw'
      rw [work_loop_uint_eq_nat ops a fuel a t hb] at hw'
      obtain ⟨new1, hv1, hpre1, _, hfull1, hheap1⟩ :=
        work_loop_nat_sequence ops a fuel a t t1 hN hw'
      have e : new0 = new1 := List.append_cancel_left (hv0.symm.trans hv1)
      subst e
      obtain ⟨new2, hv2, hsub2, hfull2, hheap2⟩ :=
        run_workers_sequence ops fuel n (a + 1) t1 t' (by rw [hc1.1]; exact hN)
          (by rw [hc1.1, hc1.2.2]; exact hb) h
      rw [hc1.1, hc1.2.2] at hsub2 hfull2
      have hmap : new0.map (fun v => (v.worker_id, v.region_idx)) =
          (new0.map (fun v => v.region_idx)).map (fun i => (a, i)) := by
        rw [List.map_map]
        apply List.map_congr_left
        intro v hv
        simp [(hok1 v hv).1]
      refine ⟨new0 ++ new2, by simp [hv2, hv1], ?_, ?_, ?_⟩
      · rw [assignment_succ, List.map_append, hmap]
        exact List.Sublist.append (hpre1.sublist.map _) hsub2
      · intro hall
        rw [assignment_succ, List.map_append, hmap,
          hfull1 (fun v hv => hall v (List.mem_append_left _ hv)),
          hfull2 (fun v hv => hall v (List.mem_append_right _ hv))]
      · rw [replay_fills_append, hheap2, hheap1]

/-- Fuel `ceil(M/N)` is enough for every worker when the index cannot wrap. -/
theorem run_workers_terminates {H : Type} (ops : RegionOps H) (fuel : Nat) :
    ∀ (n a : Nat) (t : ShenandoahConcurrentCoalesceAndFillTask H),
      0 < t._nworkers →
      t._coalesce_and_fill_region_count + t._nworkers ≤ UINT_RANGE →
      (t._coalesce_and_fill_region_count + t._nworkers - 1) / t._nworkers ≤ fuel →
      (run_workers ops fuel a n t).isSome = true
  | 0, a, t, _, _, _ => by simp [run_workers]
  | n + 1, a, t, hN, hb, hf => by
    simp only [run_workers]
    have hs := work_loop_nat_terminates ops a fuel a t hN
      ((round_robin_count_le _ _ _).trans hf)
    rw [← work_loop_uint_eq_nat ops a fuel a t hb] at hs
    obtain ⟨t1, ht1⟩ := Option.isSome_iff_exists.1 hs
    have hw : work ops fuel a t = some t1 := ht1
    obtain ⟨hc1, _⟩ := work_loop_effect ops uint_advance a fuel a t t1 hw
    simp only [hw]
    exact run_workers_terminates ops fuel n (a + 1) t1 (by rw [hc1.1]; exact hN)
      (by rw [hc1.1, hc1.2.2]; exact hb) (by rw [hc1.1, hc1.2.2]; exact hf)

theorem mem_round_robin_indices (w N M i : Nat) (hN : 0 < N) :
    i ∈ round_robin_indices w N M ↔ w ≤ i ∧ i < M ∧ i % N = w % N := by
  unfold round_robin_indices round_robin_count
  rw [List.mem_range']
  constructor
  · rintro ⟨j, hj, rfl⟩
    have h1 : j + 1 ≤ (M + N - 1 - w) / N := hj
    rw [Nat.le_div_iff_mul_le hN] at h1
    have h2 : (j + 1) * N = N * j + N := by ring
    rw [h2] at h1
    refine ⟨by omega, by omega, ?_⟩
    rw [Nat.add_mul_mod_self_left]
  · rintro ⟨h1, h2, h3⟩
    have hd : (i - w) % N = 0 := Nat.sub_mod_eq_zero_of_mod_eq h3
    have hm : N * ((i - w) / N) = i - w := Nat.mul_div_cancel' (Nat.dvd_of_mod_eq_zero hd)
    refine ⟨(i - w) / N, ?_, by omega⟩
    show (i - w) / N + 1 ≤ (M + N - 1 - w) / N
    rw [Nat.le_div_iff_mul_le hN]
    have h4 : ((i - w) / N + 1) * N = N * ((i - w) / N) + N := by ring
    rw [h4, hm]
    omega

theorem mem_assignment (a n N M w i : Nat) :
    (w, i) ∈ assignment a n N M ↔ a ≤ w ∧ w < a + n ∧ i ∈ round_robin_indices w N M := by
  unfold assignment
  simp only [List.mem_flatMap, List.mem_map, Prod.mk.injEq, List.mem_range'_1]
  constructor
  · rintro ⟨w', ⟨h1, h2⟩, i', hi, rfl, rfl⟩
    exact ⟨h1, h2, hi⟩
  · rintro ⟨h1, h2, hi⟩
    exact ⟨w, ⟨h1, h2⟩, i, hi, rfl, rfl⟩

theorem assignment_indices_nodup (N M : Nat) (hN : 0 < N) :
    ∀ (n a : Nat), a + n ≤ N → ((assignment a n N M).map Prod.snd).Nodup
  | 0, a, _ => by simp [assignment]
  | n + 1, a, h => by
    rw [assignment_succ, List.map_append, List.nodup_append]
    refine ⟨?_, assignment_indices_nodup N M hN n (a + 1) (by omega), ?_⟩
    · rw [List.map_map]
      have : (Prod.snd ∘ fun (i : Nat) => (a, i)) = (id : Nat → Nat) := rfl
      rw [this, List.map_id]
      exact List.nodup_range' a _ N hN
    · intro i h1 h2
      simp only [List.mem_map, Prod.exists, exists_eq_right] at h1 h2
      obtain ⟨w1, j, hj, e⟩ := h1
      simp only [Prod.mk.injEq] at e
      obtain ⟨rfl, rfl⟩ := e
      obtain ⟨w2, h2⟩ := h2
      rw [mem_assignment] at h2
      have e1 := ((mem_round_robin_indices a N M j hN).1 hj).2.2
      have e2 := ((mem_round_robin_indices w2 N M j hN).1 h2.2.2).2.2
      rw [Nat.mod_eq_of_lt (by omega : a < N)] at e1
      rw [Nat.mod_eq_of_lt (by omega : w2 < N)] at e2
      omega

theorem assignment_indices_perm (N M : Nat) (hN : 0 < N) :
    ((assignment 0 N N M).map Prod.snd).Perm (List.range M) := by
  rw [List.perm_ext_iff_of_nodup (assignment_indices_nodup N M hN N 0 (by omega))
    (List.nodup_range M)]
  intro i
  simp only [List.mem_map, Prod.exists, exists_eq_right, List.mem_range]
  constructor
  · rintro ⟨w, hw⟩
    rw [mem_assignment] at hw
    exact ((mem_round_robin_indices w N M i hN).1 hw.2.2).2.1
  · intro hi
    refine ⟨i % N, ?_⟩
    rw [mem_assignment]
    refine ⟨by omega, by simpa using Nat.mod_lt i hN, ?_⟩
    rw [mem_round_robin_indices _ _ _ _ hN]
    exact ⟨Nat.mod_le i N, hi, (Nat.mod_mod i N).symm⟩

/-- C1 (amended with `M + N ≤ 2^32`): for `N ≥ 1` workers and `M` candidates, a fresh task run
by all workers `0 .. N-1` terminates. The record of the run is faithful to the calls of
`oop_fill_and_coalesce` and the Booleans they returned, and `is_completed()` holds exactly when
every call returned true. When no fill reports preemption (every call returned true), the
indices of all recorded iterations are a permutation of `0, 1, ..., M-1` (every index in
`[0, M)` is visited exactly once), and the iteration at index `i` was performed by worker
`i mod N` on the candidate stored at `i`. -/
theorem C1_partition_completeness {H : Type} (ops : RegionOps H) (N M : Nat)
    (arr : Nat → ShenandoahHeapRegion) (heap : H)
    (hN : 1 ≤ N) (hb : M + N ≤ 4294967296) :
    (∃ t', run_task ops ((M + N - 1) / N)
      (ShenandoahConcurrentCoalesceAndFillTask.new N arr M heap) = some t') ∧
    (∀ fuel t', run_task ops fuel
        (ShenandoahConcurrentCoalesceAndFillTask.new N arr M heap) = some t' →
      Faithful ops t'.visits heap t'.heap ∧
      (is_completed t' = true ↔ ∀ c ∈ fill_results ops t'.visits heap, c.2.2 = true) ∧
      ((∀ c ∈ fill_results ops t'.visits heap, c.2.2 = true) →
        (t'.visits.map (fun v => v.region_idx)).Perm (List.range M) ∧
        ∀ v ∈ t'.visits, v.worker_id = v.region_idx % N ∧ v.region = arr v.region_idx)) := by
  refine ⟨?_, ?_⟩
  · exact Option.isSome_iff_exists.1
      (run_workers_terminates ops _ N 0 (ShenandoahConcurrentCoalesceAndFillTask.new N arr M heap)
        hN hb (le_refl _))
  · intro fuel t' h
    unfold run_task at h
    obtain ⟨_, new0, hv0, hok, hflag⟩ := run_workers_effect ops fuel _ _ _ _ h
    obtain ⟨newf, hvf, hfaith⟩ := run_workers_faithful ops fuel _ _ _ _ h
    have ef : new0 = newf := List.append_cancel_left (hv0.symm.trans hvf)
    subst ef
    obtain ⟨new, hv, _, hfull, _⟩ := run_workers_sequence ops fuel _ _ _ _ (by exact hN) (by exact hb) h
    have e : new0 = new := List.append_cancel_left (hv0.symm.trans hv)
    subst e
    have hvis : t'.visits = new0 := by
      simpa [ShenandoahConcurrentCoalesceAndFillTask.new] using hv
    have hfaith2 : Faithful ops new0 heap t'.heap := hfaith
    have hcomp : is_completed t' = true ↔ ∀ v ∈ new0, v.outcome ≠ Outcome.preempted := by
      unfold is_completed
      rw [hflag]
      simp [ShenandoahConcurrentCoalesceAndFillTask.new]
    rw [hvis]
    refine ⟨hfaith2, hcomp.trans (fill_results_all_true ops new0 _ _ hfaith2).symm, ?_⟩
    intro hall
    have hnp : ∀ v ∈ new0, v.outcome ≠ Outcome.preempted :=
      (fill_results_all_true ops new0 _ _ hfaith2).1 hall
    have hmap := hfull hnp
    simp only [ShenandoahConcurrentCoalesceAndFillTask.new] at hmap
    refine ⟨?_, ?_⟩
    · have : new0.map (fun v => v.region_idx) =
          (new0.map (fun v => (v.worker_id, v.region_idx))).map Prod.snd := by
        rw [List.map_map]; rfl
      rw [this, hmap]
      exact assignment_indices_perm N M hN
    · intro v hv
      have hm : (v.worker_id, v.region_idx) ∈ assignment 0 N N M := by
        rw [← hmap]
        exact List.mem_map.2 ⟨v, hv, rfl⟩
      rw [mem_assignment] at hm
      have := ((mem_round_robin_indices _ N M _ hN).1 hm.2.2).2.2
      rw [Nat.mod_eq_of_lt (by omega : v.worker_id < N)] at this
      exact ⟨this.symm, (hok v hv).2.2.2.2.1⟩

/-- Witness for C1: 2 workers and 5 candidates, every fill returning true: worker 0 visits the
indices 0, 2, 4 and worker 1 the indices 1, 3; the five calls all returned true. -/
theorem C1_partition_completeness_witness :
    ∃ t', run_task (scenario_ops (fun _ => false)) 3
        (ShenandoahConcurrentCoalesceAndFillTask.new 2 (arrayOfList [10, 11, 12, 13, 14]) 5 [])
          = some t' ∧
      t'.visits.map (fun v => (v.worker_id, v.region_idx))
        = [(0, 0), (0, 2), (0, 4), (1, 1), (1, 3)] ∧
      fill_results (scenario_ops (fun _ => false)) t'.visits []
        = [(0, 10, true), (2, 12, true), (4, 14, true), (1, 11, true), (3, 13, true)] ∧
      (t'.visits.map (fun v => v.region_idx)).Perm (List.range 5) ∧
      ∀ v ∈ t'.visits, v.worker_id = v.region_idx % 2 ∧
        v.region = arrayOfList [10, 11, 12, 13, 14] v.region_idx :=
  have hs : (run_task (scenario_ops (fun _ => false)) 3
      (ShenandoahConcurrentCoalesceAndFillTask.new 2 (arrayOfList [10, 11, 12, 13, 14]) 5
        [])).isSome = true := by decide
  ⟨Option.get _ hs, (Option.some_get hs).symm, rfl, rfl,
    ((C1_partition_completeness (scenario_ops (fun _ => false)) 2 5
      (arrayOfList [10, 11, 12, 13, 14]) [] (by decide) (by decide)).2 3 _
      (Option.some_get hs).symm).2.2 (of_decide_eq_true rfl)⟩

/-- The loop of the code (32-bit index), started at `idx`, when it terminates: for every index
`idx + j*N` below the count, either that index was visited, or an earlier visit was preempted.
No assumption on wrap-around is needed beyond the count being a `uint`. -/
theorem work_loop_reaches {H : Type} (ops : RegionOps H) (w : Nat) :
    ∀ (fuel idx : Nat) (t t' : ShenandoahConcurrentCoalesceAndFillTask H),
      0 < t._nworkers →
      t._coalesce_and_fill_region_count ≤ UINT_RANGE →
      work_loop ops uint_advance w fuel idx t = some t' →
      ∀ j, idx + j * t._nworkers < t._coalesce_and_fill_region_count →
        ∃ new, t'.visits = t.visits ++ new ∧
          ((∃ v ∈ new, v.region_idx = idx + j * t._nworkers) ∨
           (∃ v ∈ new, v.outcome = Outcome.preempted ∧ v.region_idx < idx + j * t._nworkers))
  | 0, idx, t, t', hN, hM, h, j, hj => by
    unfold work_loop at h
    have hlt : idx < t._coalesce_and_fill_region_count := by omega
    simp [hlt] at h
  | fuel + 1, idx, t, t', hN, hM, h, j, hj => by
    unfold work_loop at h
    have hlt : idx < t._coalesce_and_fill_region_count := by omega
    simp only [hlt, if_true] at h
    have hadv : ∀ j', j = j' + 1 →
        uint_advance idx t._nworkers = idx + t._nworkers ∧
        idx + t._nworkers + j' * t._nworkers = idx + j * t._nworkers := by
      intro j' e
      subst e
      have e2 : (j' + 1) * t._nworkers = j' * t._nworkers + t._nworkers := Nat.succ_mul _ _
      refine ⟨?_, by omega⟩
      unfold uint_advance
      exact Nat.mod_eq_of_lt (by omega)
    split at h
    · split at h
      · simp only [Option.some.injEq] at h
        subst h
        refine ⟨[⟨w, idx, t._coalesce_and_fill_region_array idx, Outcome.preempted⟩], rfl, ?_⟩
        rcases j with _ | j'
        · exact Or.inl ⟨_, List.mem_singleton.2 rfl, by simp⟩
        · refine Or.inr ⟨_, List.mem_singleton.2 rfl, rfl, ?_⟩
          have := (hadv j' rfl).2
          simp only
          omega
      · rcases j with _ | j'
        · obtain ⟨_, new, hv, _, _⟩ := work_loop_effect ops uint_advance w fuel _ _ _ h
          exact ⟨⟨w, idx, t._coalesce_and_fill_region_array idx, Outcome.filled⟩ :: new,
            by simp [hv], Or.inl ⟨_, List.mem_cons_self _ _, by simp⟩⟩
        · obtain ⟨ha, hb⟩ := hadv j' rfl
          rw [ha] at h
          obtain ⟨new, hv, hcase⟩ := work_loop_reaches ops w fuel _ _ _ (by exact hN)
            (by exact hM) h j' (by simp only; omega)
          simp only [hb] at hcase
          refine ⟨⟨w, idx, t._coalesce_and_fill_region_array idx, Outcome.filled⟩ :: new,
            by simp [hv], ?_⟩
          rcases hcase with ⟨v, hv, hi⟩ | ⟨v, hv, hi⟩
          · exact Or.inl ⟨v, List.mem_cons_of_mem _ hv, hi⟩
          · exact Or.inr ⟨v, List.mem_cons_of_mem _ hv, hi⟩
    · rcases j with _ | j'
      · obtain ⟨_, new, hv, _, _⟩ := work_loop_effect ops uint_advance w fuel _ _ _ h
        exact ⟨⟨w, idx, t._coalesce_and_fill_region_array idx,
            Outcome.skipped_humongous⟩ :: new,
          by simp [hv], Or.inl ⟨_, List.mem_cons_self _ _, by simp⟩⟩
      · obtain ⟨ha, hb⟩ := hadv j' rfl
        rw [ha] at h
        obtain ⟨new, hv, hcase⟩ := work_loop_reaches ops w fuel _ _ _ (by exact hN)
          (by exact hM) h j' (by simp only; omega)
        simp only [hb] at hcase
        refine ⟨⟨w, idx, t._coalesce_and_fill_region_array idx,
            Outcome.skipped_humongous⟩ :: new,
          by simp [hv], ?_⟩
        rcases hcase with ⟨v, hv, hi⟩ | ⟨v, hv, hi⟩
        · exact Or.inl ⟨v, List.mem_cons_of_mem _ hv, hi⟩
        · exact Or.inr ⟨v, List.mem_cons_of_mem _ hv, hi⟩

/-- After all workers have terminated: every index below the count was visited by its worker
`i mod N`, unless an iteration of that worker at a smaller index was preempted. -/
theorem run_task_reaches {H : Type} (ops : RegionOps H) (fuel : Nat)
    (t t' : ShenandoahConcurrentCoalesceAndFillTask H)
    (hN : 0 < t._nworkers) (hM : t._coalesce_and_fill_region_count ≤ UINT_RANGE)
    (h : run_task ops fuel t = some t') (i : Nat)
    (hi : i < t._coalesce_and_fill_region_count) :
    ∃ new, t'.visits = t.visits ++ new ∧
      ((∃ v ∈ new, v.region_idx = i ∧ VisitOK ops t (i % t._nworkers) v) ∨
       (∃ v ∈ new, v.outcome = Outcome.preempted ∧ v.region_idx < i ∧
          VisitOK ops t (i % t._nworkers) v)) := by
  unfold run_task at h
  obtain ⟨t1, t2, pre, post, hw, hc, hpre, hpost⟩ :=
    run_workers_worker ops fuel _ _ _ _ h (i % t._nworkers) (Nat.zero_le _)
      (by simpa using Nat.mod_lt i hN)
  obtain ⟨_, new0, hv0, hok, _⟩ := work_loop_effect ops uint_advance _ fuel _ t1 t2 hw
  have hdm : i % t._nworkers + i / t._nworkers * t._nworkers = i := by
    rw [Nat.mul_comm]; exact Nat.mod_add_div i _
  obtain ⟨new, hv, hcase⟩ := work_loop_reaches ops _ fuel _ t1 t2 (by rw [hc.1]; exact hN)
    (by rw [hc.2.2]; exact hM) hw (i / t._nworkers) (by rw [hc.1, hc.2.2, hdm]; exact hi)
  have e : new0 = new := List.append_cancel_left (hv0.symm.trans hv)
  subst e
  rw [hc.1, hdm] at hcase
  refine ⟨pre ++ new0 ++ post, by simp [hpost, hv, hpre], ?_⟩
  rcases hcase with ⟨v, hv, hi⟩ | ⟨v, hv, hp, hi⟩
  · exact Or.inl ⟨v, by simp [hv], hi, (hok v hv).of_sameConfig hc⟩
  · exact Or.inr ⟨v, by simp [hv], hp, hi, (hok v hv).of_sameConfig hc⟩

/-- Without index wrap-around no index is visited twice in a run of all workers. -/
theorem run_task_indices_nodup {H : Type} (ops : RegionOps H) (fuel : Nat)
    (t t' : ShenandoahConcurrentCoalesceAndFillTask H)
    (hN : 0 < t._nworkers)
    (hb : t._coalesce_and_fill_region_count + t._nworkers ≤ UINT_RANGE)
    (h : run_task ops fuel t = some t') :
    ∃ new, t'.visits = t.visits ++ new ∧ (new.map (fun v => v.region_idx)).Nodup := by
  unfold run_task at h
  obtain ⟨new, hv, hsub, _, _⟩ := run_workers_sequence ops fuel _ _ _ _ hN hb h
  refine ⟨new, hv, ?_⟩
  have h1 := hsub.map Prod.snd
  rw [List.map_map] at h1
  exact (assignment_indices_nodup _ _ hN _ 0 (by omega)).sublist h1

/-- Completion in terms of the recorded outcomes: after all workers have run on a fresh task,
`is_completed()` is true if and only if every non-humongous candidate has an iteration
recorded as filled and no iteration is recorded as preempted; when the index cannot wrap the
first half alone is equivalent. -/
theorem run_task_completion_labels {H : Type} (ops : RegionOps H) (N M : Nat)
    (arr : Nat → ShenandoahHeapRegion) (heap : H) (fuel : Nat)
    (t' : ShenandoahConcurrentCoalesceAndFillTask H)
    (hN : 1 ≤ N) (hM : M < 4294967296)
    (h : run_task ops fuel (ShenandoahConcurrentCoalesceAndFillTask.new N arr M heap)
      = some t') :
    (is_completed t' = true ↔
      ((∀ i, i < M → ops.is_humongous (arr i) = false →
          ∃ v ∈ t'.visits, v.region_idx = i ∧ v.region = arr i ∧ v.outcome = Outcome.filled) ∧
       (∀ v ∈ t'.visits, v.outcome ≠ Outcome.preempted))) ∧
    (M + N ≤ 4294967296 →
      (is_completed t' = true ↔
        (∀ i, i < M → ops.is_humongous (arr i) = false →
          ∃ v ∈ t'.visits, v.region_idx = i ∧ v.region = arr i ∧
            v.outcome = Outcome.filled))) := by
  have heff := run_workers_effect ops fuel _ _ _ _ h
  obtain ⟨_, new0, hv0, hok, hflag⟩ := heff
  have hvis : t'.visits = new0 := by
    simpa [ShenandoahConcurrentCoalesceAndFillTask.new] using hv0
  have hcomp : is_completed t' = true ↔ ∀ v ∈ t'.visits, v.outcome ≠ Outcome.preempted := by
    rw [hvis]
    unfold is_completed
    rw [hflag]
    simp [ShenandoahConcurrentCoalesceAndFillTask.new]
  have hfill : (∀ v ∈ t'.visits, v.outcome ≠ Outcome.preempted) →
      ∀ i, i < M → ops.is_humongous (arr i) = false →
        ∃ v ∈ t'.visits, v.region_idx = i ∧ v.region = arr i ∧ v.outcome = Outcome.filled := by
    intro hnp i hi hh
    obtain ⟨new, hv, hcase⟩ := run_task_reaches ops fuel _ t' (by exact hN) (by exact Nat.le_of_lt hM) h i hi
    have hvis2 : t'.visits = new := by
      simpa [ShenandoahConcurrentCoalesceAndFillTask.new] using hv
    rcases hcase with ⟨v, hvm, hvi, hvok⟩ | ⟨v, hvm, hp, _⟩
    · have hreg : v.region = arr i := by
        have := hvok.2.2.1
        rw [hvi] at this
        exact this
      refine ⟨v, hvis2 ▸ hvm, hvi, hreg, ?_⟩
      cases ho : v.outcome with
      | skipped_humongous =>
        have := hvok.2.2.2.1 ho
        rw [hreg, hh] at this
        exact absurd this (by decide)
      | filled => rfl
      | preempted => exact absurd ho (hnp v (hvis2 ▸ hvm))
    · exact absurd hp (hnp v (hvis2 ▸ hvm))
  refine ⟨?_, ?_⟩
  · constructor
    · intro hc
      exact ⟨hfill (hcomp.1 hc), hcomp.1 hc⟩
    · intro hr
      exact hcomp.2 hr.2
  · intro hb
    constructor
    · intro hc
      exact hfill (hcomp.1 hc)
    · intro hr
      apply hcomp.2
      intro v hvm hp
      obtain ⟨new, hv, hnd⟩ := run_task_indices_nodup ops fuel _ t' (by exact hN) (by exact hb) h
      have hvis2 : t'.visits = new := by
        simpa [ShenandoahConcurrentCoalesceAndFillTask.new] using hv
      have hvok := (hok v (hvis ▸ hvm)).2.2
      have hlt : v.region_idx < M := hvok.2.1
      have hreg : v.region = arr v.region_idx := hvok.2.2.1
      have hh : ops.is_humongous (arr v.region_idx) = false := by
        rw [← hreg]
        exact (hvok.2.2.2.2.2 hp).1
      obtain ⟨v', hvm', hi', _, ho'⟩ := hr v.region_idx hlt hh
      have : v' = v :=
        List.inj_on_of_nodup_map hnd (hvis2 ▸ hvm') (hvis2 ▸ hvm) hi'
      rw [this, hp] at ho'
      exact absurd ho' (by decide)

/-- C2: after `work(w)` has run to termination for every worker `w` in `0 .. N-1` (`N ≥ 1`) on
a fresh task over `M` candidates, the record of the run is faithful to the calls of
`oop_fill_and_coalesce` and the Booleans they returned, and `is_completed()` is true if and
only if every non-humongous candidate had `oop_fill_and_coalesce` called on it with the call
returning true and no call returned false (reported preemption). When the index cannot wrap
(`M + N ≤ 2^32`) the first half alone is equivalent. -/
theorem C2_completion_contract {H : Type} (ops : RegionOps H) (N M : Nat)
    (arr : Nat → ShenandoahHeapRegion) (heap : H) (fuel : Nat)
    (t' : ShenandoahConcurrentCoalesceAndFillTask H)
    (hN : 1 ≤ N) (hM : M < 4294967296)
    (h : run_task ops fuel (ShenandoahConcurrentCoalesceAndFillTask.new N arr M heap)
      = some t') :
    Faithful ops t'.visits heap t'.heap ∧
    (is_completed t' = true ↔
      ((∀ i, i < M → ops.is_humongous (arr i) = false →
          (i, arr i, true) ∈ fill_results ops t'.visits heap) ∧
       (∀ c ∈ fill_results ops t'.visits heap, c.2.2 = true))) ∧
    (M + N ≤ 4294967296 →
      (is_completed t' = true ↔
        (∀ i, i < M → ops.is_humongous (arr i) = false →
          (i, arr i, true) ∈ fill_results ops t'.visits heap))) := by
  have hlab := run_task_completion_labels ops N M arr heap fuel t' hN hM h
  obtain ⟨newf, hvf, hfaith⟩ := run_workers_faithful ops fuel _ _ _ _ h
  have hvis : t'.visits = newf := by
    simpa [ShenandoahConcurrentCoalesceAndFillTask.new] using hvf
  have hf : Faithful ops t'.visits heap t'.heap := by
    rw [hvis]
    exact hfaith
  have hmem : ∀ i, (i, arr i, true) ∈ fill_results ops t'.visits heap ↔
      ∃ v ∈ t'.visits, v.region_idx = i ∧ v.region = arr i ∧ v.outcome = Outcome.filled :=
    fun i => mem_fill_results_true ops t'.visits heap t'.heap hf i (arr i)
  have hall := fill_results_all_true ops t'.visits heap t'.heap hf
  refine ⟨hf, ?_, ?_⟩
  · rw [hlab.1, hall]
    simp only [hmem]
  · intro hb
    rw [hlab.2 hb]
    simp only [hmem]

/-- Witness for C2: 5 non-humongous candidates, 2 workers, no preemption: the run terminates,
`is_completed()` is true, all 5 regions have been filled by calls that returned true, and the
theorem applies. -/
theorem C2_completion_contract_witness :
    ∃ t', run_task (scenario_ops (fun _ => false)) 3
        (ShenandoahConcurrentCoalesceAndFillTask.new 2 (arrayOfList [10, 11, 12, 13, 14]) 5 [])
          = some t' ∧
      is_completed t' = true ∧ t'.heap = [10, 12, 14, 11, 13] ∧
      fill_results (scenario_ops (fun _ => false)) t'.visits []
        = [(0, 10, true), (2, 12, true), (4, 14, true), (1, 11, true), (3, 13, true)] ∧
      Faithful (scenario_ops (fun _ => false)) t'.visits [] t'.heap ∧
      (is_completed t' = true ↔
        ((∀ i, i < 5 → (scenario_ops (fun _ => false)).is_humongous
              (arrayOfList [10, 11, 12, 13, 14] i) = false →
            (i, arrayOfList [10, 11, 12, 13, 14] i, true) ∈
              fill_results (scenario_ops (fun _ => false)) t'.visits []) ∧
         (∀ c ∈ fill_results (scenario_ops (fun _ => false)) t'.visits [], c.2.2 = true))) :=
  have hs : (run_task (scenario_ops (fun _ => false)) 3
      (ShenandoahConcurrentCoalesceAndFillTask.new 2 (arrayOfList [10, 11, 12, 13, 14]) 5
        [])).isSome = true := by decide
  have hc := C2_completion_contract (scenario_ops (fun _ => false)) 2 5
    (arrayOfList [10, 11, 12, 13, 14]) [] 3 (Option.get _ hs) (by decide) (by decide)
    (Option.some_get hs).symm
  ⟨Option.get _ hs, (Option.some_get hs).symm, rfl, rfl, rfl, hc.1, hc.2.1⟩

/-! ## The driver: what each step keeps and records -/

theorem Keeps.refl {H : Type} (s : OldGCState H) : Keeps s s :=
  ⟨rfl, rfl, rfl, rfl, id⟩

theorem Keeps.followedBy {H : Type} {s s1 s2 : OldGCState H} (h1 : Keeps s s1) (h2 : Keeps s1 s2) :
    Keeps s s2 :=
  ⟨h2.flag.trans h1.flag, h2.candidates.trans h1.candidates, h2.array.trans h1.array,
    h2.visits.trans h1.visits, fun h => h2.cancelled (h1.cancelled h)⟩

theorem regulator_actions_keep {H : Type} (acts : List RegulatorAction) :
    ∀ s : OldGCState H, Keeps s (acts.foldl apply_regulator_action s) ∧
      (acts.foldl apply_regulator_action s).trace = s.trace ∧
      (acts.foldl apply_regulator_action s).memory = s.memory := by
  induction acts with
  | nil => intro s; exact ⟨Keeps.refl s, rfl, rfl⟩
  | cons a acts ih =>
    intro s
    simp only [List.foldl_cons]
    obtain ⟨h1, h2, h3⟩ := ih (apply_regulator_action s a)
    cases a with
    | try_unset_guard =>
      exact ⟨(show Keeps s (apply_regulator_action s RegulatorAction.try_unset_guard) from
        ⟨rfl, rfl, rfl, rfl, id⟩).followedBy h1, h2, h3⟩
    | cancel_gc =>
      exact ⟨(show Keeps s (apply_regulator_action s RegulatorAction.cancel_gc) from
        ⟨rfl, rfl, rfl, rfl, fun _ => rfl⟩).followedBy h1, h2, h3⟩

theorem regulator_step_keeps {H : Type} (env : Environment H) (s : OldGCState H) :
    Keeps s (regulator_step env s) ∧ (regulator_step env s).trace = s.trace ∧
      (regulator_step env s).memory = s.memory := by
  obtain ⟨h1, h2, h3⟩ := regulator_actions_keep (env.regulator s.clock) s
  exact ⟨⟨h1.flag, h1.candidates, h1.array, h1.visits, h1.cancelled⟩, h2, h3⟩

theorem allow_preemption_set_spec {H : Type} (env : Environment H) (s : OldGCState H) :
    Keeps s (allow_preemption_set env s) ∧
      (allow_preemption_set env s).trace = s.trace ++ [Event.allow_preemption_set] := by
  obtain ⟨h1, h2, _⟩ := regulator_step_keeps env s
  exact ⟨⟨h1.flag, h1.candidates, h1.array, h1.visits, h1.cancelled⟩,
    by simp [allow_preemption_set, record, h2]⟩

theorem external_phase_spec {H : Type} (env : Environment H) (e : Event) (s : OldGCState H) :
    Keeps s (external_phase env e s) ∧ (external_phase env e s).trace = s.trace ++ [e] := by
  obtain ⟨h1, h2, _⟩ := regulator_step_keeps env s
  exact ⟨⟨h1.flag, h1.candidates, h1.array, h1.visits, h1.cancelled⟩,
    by simp [external_phase, record, h2]⟩

theorem allow_preemption_try_unset_spec {H : Type} (env : Environment H) (site : GuardSite)
    (s : OldGCState H) :
    Keeps s (allow_preemption_try_unset env site s).2 ∧
      (allow_preemption_try_unset env site s).2.trace =
        s.trace ++ [Event.try_unset site (allow_preemption_try_unset env site s).1] := by
  obtain ⟨h1, h2, _⟩ := regulator_step_keeps env s
  exact ⟨⟨h1.flag, h1.candidates, h1.array, h1.visits, h1.cancelled⟩,
    by simp [allow_preemption_try_unset, record, h2]⟩

theorem check_cancellation_and_abort_spec {H : Type} (env : Environment H)
    (point : ShenandoahDegenPoint) (s : OldGCState H) :
    Keeps s (check_cancellation_and_abort env point s).2 ∧
      (check_cancellation_and_abort env point s).2.trace =
        s.trace ++ [Event.check_cancellation_and_abort point
          (check_cancellation_and_abort env point s).1] ∧
      (s.cancelled_gc = true → (check_cancellation_and_abort env point s).1 = true) ∧
      ((check_cancellation_and_abort env point s).1 = true →
        (check_cancellation_and_abort env point s).2.cancelled_gc = true) := by
  obtain ⟨h1, h2, _⟩ := regulator_step_keeps env s
  unfold check_cancellation_and_abort
  by_cases hc : (regulator_step env s).cancelled_gc = true
  · rw [if_pos hc]
    exact ⟨⟨h1.flag, h1.candidates, h1.array, h1.visits, fun _ => hc⟩,
      by simp [record, h2], fun _ => rfl, fun _ => hc⟩
  · rw [if_neg hc]
    refine ⟨⟨h1.flag, h1.candidates, h1.array, h1.visits, h1.cancelled⟩,
      by simp [record, h2], ?_, ?_⟩
    · intro h
      exact absurd (h1.cancelled h) hc
    · intro h
      simp at h

theorem wait_for_cancelled_gc_spec {H : Type} (env : Environment H) :
    ∀ (fuel : Nat) (s s' : OldGCState H), wait_for_cancelled_gc env fuel s = some s' →
      Keeps s s' ∧ s'.cancelled_gc = true ∧
      ∃ k, s'.trace = s.trace ++ spins k ++ [Event.cancelled_gc true]
  | 0, s, s', h => by
    obtain ⟨h1, h2, _⟩ := regulator_step_keeps env s
    unfold wait_for_cancelled_gc at h
    by_cases hc : (regulator_step env s).cancelled_gc = true
    · simp only [hc, Bool.not_true, Bool.false_eq_true, if_false, Option.some.injEq] at h
      subst h
      exact ⟨⟨h1.flag, h1.candidates, h1.array, h1.visits, fun _ => hc⟩, hc, 0,
        by simp [record, h2, spins]⟩
    · simp [hc] at h
  | fuel + 1, s, s', h => by
    obtain ⟨h1, h2, _⟩ := regulator_step_keeps env s
    unfold wait_for_cancelled_gc at h
    by_cases hc : (regulator_step env s).cancelled_gc = true
    · simp only [hc, Bool.not_true, Bool.false_eq_true, if_false, Option.some.injEq] at h
      subst h
      exact ⟨⟨h1.flag, h1.candidates, h1.array, h1.visits, fun _ => hc⟩, hc, 0,
        by simp [record, h2, spins]⟩
    · simp only [hc, Bool.not_false, if_true] at h
      obtain ⟨k1, k2, k, hk⟩ := wait_for_cancelled_gc_spec env fuel _ s' h
      refine ⟨?_, k2, k + 1, ?_⟩
      · exact (show Keeps s (record Event.spin_pause (record (Event.cancelled_gc false)
            (regulator_step env s))) from
          ⟨h1.flag, h1.candidates, h1.array, h1.visits, h1.cancelled⟩).followedBy k1
      · simp [hk, record, h2, spins]

theorem try_unset_or_wait_spec {H : Type} (env : Environment H) (spin_fuel : Nat)
    (site : GuardSite) (s s' : OldGCState H)
    (h : try_unset_or_wait env spin_fuel site s = some s') :
    Keeps s s' ∧
    ((s'.trace = s.trace ++ [Event.try_unset site true]) ∨
     (s'.cancelled_gc = true ∧
      ∃ k, s'.trace = s.trace ++ [Event.try_unset site false] ++ spins k
        ++ [Event.cancelled_gc true])) := by
  obtain ⟨h1, h2⟩ := allow_preemption_try_unset_spec env site s
  unfold try_unset_or_wait at h
  cases hr : (allow_preemption_try_unset env site s).1 with
  | true =>
    simp only [hr, Bool.not_true, Bool.false_eq_true, if_false, Option.some.injEq] at h
    subst h
    exact ⟨h1, Or.inl (by rw [h2, hr])⟩
  | false =>
    simp only [hr, Bool.not_false, if_true] at h
    obtain ⟨k1, k2, k, hk⟩ := wait_for_cancelled_gc_spec env spin_fuel _ s' h
    exact ⟨h1.followedBy k1, Or.inr ⟨k2, k, by rw [hk, h2, hr]⟩⟩

theorem op_final_mark_spec {H : Type} (env : Environment H) (s : OldGCState H) :
    Keeps s (op_final_mark env s) ∧
    ((op_final_mark env s).trace = s.trace ∨
     (op_final_mark env s).trace = s.trace ++ [Event.finish_mark,
        Event.prepare_regions_and_collection_set, Event.prepare_concurrent_roots]) := by
  unfold op_final_mark
  by_cases hc : s.cancelled_gc = true
  · rw [if_neg (by simp [hc])]
    exact ⟨Keeps.refl s, Or.inl rfl⟩
  · rw [if_pos (by simpa using hc)]
    exact ⟨⟨rfl, rfl, rfl, rfl, fun h => absurd h hc⟩, Or.inr (by simp [record])⟩

theorem vmop_entry_final_mark_spec {H : Type} (env : Environment H) (s : OldGCState H) :
    Keeps s (vmop_entry_final_mark env s) ∧
    ((vmop_entry_final_mark env s).trace = s.trace ++ [Event.vmop_entry_final_mark] ∨
     (vmop_entry_final_mark env s).trace = s.trace ++ [Event.vmop_entry_final_mark,
        Event.finish_mark, Event.prepare_regions_and_collection_set,
        Event.prepare_concurrent_roots]) := by
  obtain ⟨h1, h2, _⟩ := regulator_step_keeps env s
  obtain ⟨h3, h4⟩ := op_final_mark_spec env (record Event.vmop_entry_final_mark
    (regulator_step env s))
  unfold vmop_entry_final_mark
  refine ⟨(show Keeps s (record Event.vmop_entry_final_mark (regulator_step env s)) from
    ⟨h1.flag, h1.candidates, h1.array, h1.visits, h1.cancelled⟩).followedBy h3, ?_⟩
  rcases h4 with h4 | h4
  · exact Or.inl (by rw [h4]; simp [record, h2])
  · exact Or.inr (by rw [h4]; simp [record, h2])

/-- What `op_coalesce_and_fill` does, in terms of the task it runs. -/
theorem op_coalesce_and_fill_spec {H : Type} (env : Environment H) (s s' : OldGCState H)
    (r : Bool) (h : op_coalesce_and_fill env s = some (r, s')) :
    ∃ task', run_task env.ops env.task_fuel (coalesce_and_fill_task s) = some task' ∧
      r = is_completed task' ∧
      s'.visits = s.visits ++ task'.visits ∧
      s'.memory = task'.heap ∧
      s'.candidates = s.candidates ∧
      s'._coalesce_and_fill_region_array =
        get_coalesce_and_fill_candidates s.candidates s._coalesce_and_fill_region_array ∧
      (s.cancelled_gc = true → s'.cancelled_gc = true) ∧
      (r = true → s'.concurrent_prep_for_mixed_evacuation_in_progress = false ∧
        s'.trace = s.trace ++ [Event.run_task true,
          Event.set_concurrent_prep_for_mixed_evacuation_in_progress false]) ∧
      (r = false → s'.concurrent_prep_for_mixed_evacuation_in_progress =
          s.concurrent_prep_for_mixed_evacuation_in_progress ∧
        s'.trace = s.trace ++ [Event.run_task false]) := by
  unfold op_coalesce_and_fill at h
  simp only at h
  cases ht : run_task env.ops env.task_fuel (coalesce_and_fill_task s) with
  | none =>
    simp only [coalesce_and_fill_task] at ht
    simp [ht] at h
  | some task' =>
    have ht' := ht
    simp only [coalesce_and_fill_task] at ht'
    simp only [ht'] at h
    refine ⟨task', rfl, ?_⟩
    cases hc : is_completed task' with
    | true =>
      simp only [hc, if_true, Option.some.injEq, Prod.mk.injEq] at h
      obtain ⟨rfl, rfl⟩ := h
      exact ⟨rfl, rfl, rfl, rfl, rfl, id, fun _ => ⟨rfl, by simp [record]⟩,
        fun h => absurd h (by decide)⟩
    | false =>
      simp only [hc, Bool.false_eq_true, if_false, Option.some.injEq, Prod.mk.injEq] at h
      obtain ⟨rfl, rfl⟩ := h
      exact ⟨rfl, rfl, rfl, rfl, rfl, id, fun h => absurd h (by decide),
        fun _ => ⟨rfl, by simp [record]⟩⟩

/-- The state in which `entry_coalesce_and_fill` calls `op_coalesce_and_fill`. -/
theorem entry_coalesce_and_fill_spec {H : Type} (env : Environment H) (s s' : OldGCState H)
    (r : Bool) (h : entry_coalesce_and_fill env s = some (r, s')) :
    ∃ s1, op_coalesce_and_fill env s1 = some (r, s') ∧ Keeps s s1 ∧ s1.trace = s.trace ∧
      s1.memory = s.memory ∧ s1.active_workers = env.calc_workers_for_conc_marking := by
  obtain ⟨h1, h2, h3⟩ := regulator_step_keeps env s
  unfold entry_coalesce_and_fill at h
  exact ⟨_, h, ⟨h1.flag, h1.candidates, h1.array, h1.visits, h1.cancelled⟩, h2, h3, rfl⟩

/-- The three ways the second block of `collect` can end, when entered with the phase flag
set: cancelled at the check; task preempted; task completed. -/
theorem collect_coalesce_and_fill_spec {H : Type} (env : Environment H) (spin_fuel : Nat)
    (s s' : OldGCState H) (r : Bool)
    (hflag : s.concurrent_prep_for_mixed_evacuation_in_progress = true)
    (h : collect_coalesce_and_fill env spin_fuel s = some (r, s')) :
    (r = false ∧ Keeps s s' ∧ s'.cancelled_gc = true ∧
      s'.trace = s.trace ++ [Event.allow_preemption_set,
        Event.check_cancellation_and_abort ShenandoahDegenPoint._degenerated_evac true]) ∨
    (∃ s1 s2 c3, Keeps s s1 ∧ s1.active_workers = env.calc_workers_for_conc_marking ∧
      op_coalesce_and_fill env s1 = some (false, s2) ∧ Keeps s2 s' ∧
      r = false ∧
      s1.trace = s.trace ++ [Event.allow_preemption_set,
        Event.check_cancellation_and_abort ShenandoahDegenPoint._degenerated_evac false,
        Event.vmop_entry_final_roots] ∧
      s'.trace = s2.trace ++ [Event.check_cancellation_and_abort
        ShenandoahDegenPoint._degenerated_outside_cycle c3]) ∨
    (∃ s1 s2, Keeps s s1 ∧ s1.active_workers = env.calc_workers_for_conc_marking ∧
      op_coalesce_and_fill env s1 = some (true, s2) ∧ Keeps s2 s' ∧
      r = true ∧
      s1.trace = s.trace ++ [Event.allow_preemption_set,
        Event.check_cancellation_and_abort ShenandoahDegenPoint._degenerated_evac false,
        Event.vmop_entry_final_roots] ∧
      ((s'.trace = s2.trace ++ [Event.try_unset GuardSite.after_coalesce_and_fill true,
          Event.start_old_evacuations]) ∨
       (s'.cancelled_gc = true ∧
        ∃ k, s'.trace = s2.trace ++ [Event.try_unset GuardSite.after_coalesce_and_fill false]
          ++ spins k ++ [Event.cancelled_gc true, Event.start_old_evacuations]))) := by
  obtain ⟨a1, a2⟩ := allow_preemption_set_spec env s
  obtain ⟨b1, b2, b3, b4⟩ := check_cancellation_and_abort_spec env
    ShenandoahDegenPoint._degenerated_evac (allow_preemption_set env s)
  unfold collect_coalesce_and_fill at h
  simp only at h
  cases hc : (check_cancellation_and_abort env ShenandoahDegenPoint._degenerated_evac
      (allow_preemption_set env s)).1 with
  | true =>
    simp only [hc, if_true, Option.some.injEq, Prod.mk.injEq] at h
    obtain ⟨rfl, rfl⟩ := h
    exact Or.inl ⟨rfl, a1.followedBy b1, b4 hc, by rw [b2, a2, hc]; simp⟩
  | false =>
    simp only [hc, Bool.false_eq_true, if_false] at h
    obtain ⟨e1, e2⟩ := external_phase_spec env Event.vmop_entry_final_roots
      (check_cancellation_and_abort env ShenandoahDegenPoint._degenerated_evac
        (allow_preemption_set env s)).2
    have hk : Keeps s (external_phase env Event.vmop_entry_final_roots
        (check_cancellation_and_abort env ShenandoahDegenPoint._degenerated_evac
          (allow_preemption_set env s)).2) := (a1.followedBy b1).followedBy e1
    have hf := hk.flag.trans hflag
    simp only [hf, if_true] at h
    have htr : (external_phase env Event.vmop_entry_final_roots
        (check_cancellation_and_abort env ShenandoahDegenPoint._degenerated_evac
          (allow_preemption_set env s)).2).trace = s.trace ++ [Event.allow_preemption_set,
        Event.check_cancellation_and_abort ShenandoahDegenPoint._degenerated_evac false,
        Event.vmop_entry_final_roots] := by
      rw [e2, b2, a2, hc]; simp
    cases he : entry_coalesce_and_fill env (external_phase env Event.vmop_entry_final_roots
        (check_cancellation_and_abort env ShenandoahDegenPoint._degenerated_evac
          (allow_preemption_set env s)).2) with
    | none => simp [he] at h
    | some res =>
      obtain ⟨b, s2⟩ := res
      obtain ⟨s1, hop, k1, t1, _, aw⟩ := entry_coalesce_and_fill_spec env _ _ _ he
      simp only [he] at h
      cases b with
      | false =>
        simp only [Bool.not_false, if_true, Option.some.injEq, Prod.mk.injEq] at h
        obtain ⟨rfl, rfl⟩ := h
        obtain ⟨c1, c2, _, _⟩ := check_cancellation_and_abort_spec env
          ShenandoahDegenPoint._degenerated_outside_cycle s2
        exact Or.inr (Or.inl ⟨s1, s2, _, hk.followedBy k1, aw, hop, c1, rfl, t1.trans htr, c2⟩)
      | true =>
        simp only [Bool.not_true, Bool.false_eq_true, if_false] at h
        cases hw : try_unset_or_wait env spin_fuel GuardSite.after_coalesce_and_fill s2 with
        | none => simp [hw] at h
        | some s4 =>
          simp only [hw, Option.some.injEq, Prod.mk.injEq] at h
          obtain ⟨rfl, rfl⟩ := h
          obtain ⟨w1, w2⟩ := try_unset_or_wait_spec env spin_fuel _ s2 s4 hw
          refine Or.inr (Or.inr ⟨s1, s2, hk.followedBy k1, aw, hop,
            w1.followedBy ⟨rfl, rfl, rfl, rfl, id⟩, rfl, t1.trans htr, ?_⟩)
          rcases w2 with w2 | ⟨w3, k, w2⟩
          · exact Or.inl (by simp [start_old_evacuations, record, w2])
          · exact Or.inr ⟨w3, k, by simp [start_old_evacuations, record, w2]⟩

/-- The ways the first block of `collect` can end. -/
theorem collect_initial_phases_spec {H : Type} (env : Environment H) (spin_fuel : Nat)
    (s s' : OldGCState H) (early : Bool)
    (h : collect_initial_phases env spin_fuel s = some (early, s')) :
    s'.candidates = s.candidates ∧
    s'._coalesce_and_fill_region_array = s._coalesce_and_fill_region_array ∧
    s'.visits = s.visits ∧
    (s.cancelled_gc = true → s'.cancelled_gc = true) ∧
    ∃ pre body, s'.trace = s.trace ++ pre ++
        [Event.check_cancellation_and_abort ShenandoahDegenPoint._degenerated_mark early]
        ++ body ∧
      (pre = [Event.allow_preemption_set, Event.entry_mark,
          Event.try_unset GuardSite.after_mark true] ∨
       (early = true ∧ ∃ k, pre = [Event.allow_preemption_set, Event.entry_mark,
          Event.try_unset GuardSite.after_mark false] ++ spins k ++ [Event.cancelled_gc true])) ∧
      (early = true → body = [] ∧ s'.cancelled_gc = true ∧
        s'.concurrent_prep_for_mixed_evacuation_in_progress =
          s.concurrent_prep_for_mixed_evacuation_in_progress) ∧
      (early = false → s'.concurrent_prep_for_mixed_evacuation_in_progress = true ∧
        ∃ fm wk, body = initial_body fm wk) := by
  obtain ⟨a1, a2⟩ := allow_preemption_set_spec env s
  obtain ⟨b1, b2⟩ := external_phase_spec env Event.entry_mark (allow_preemption_set env s)
  unfold collect_initial_phases at h
  simp only at h
  cases hw : try_unset_or_wait env spin_fuel GuardSite.after_mark
      (external_phase env Event.entry_mark (allow_preemption_set env s)) with
  | none => simp [hw] at h
  | some s3 =>
    simp only [hw] at h
    obtain ⟨w1, w2⟩ := try_unset_or_wait_spec env spin_fuel _ _ s3 hw
    obtain ⟨c1, c2, c3, c4⟩ := check_cancellation_and_abort_spec env
      ShenandoahDegenPoint._degenerated_mark s3
    have hk3 : Keeps s s3 := (a1.followedBy b1).followedBy w1
    have hpre : ∃ pre, s3.trace = s.trace ++ pre ∧
        (pre = [Event.allow_preemption_set, Event.entry_mark,
            Event.try_unset GuardSite.after_mark true] ∨
         (s3.cancelled_gc = true ∧ ∃ k, pre = [Event.allow_preemption_set, Event.entry_mark,
            Event.try_unset GuardSite.after_mark false] ++ spins k
              ++ [Event.cancelled_gc true])) := by
      rcases w2 with w2 | ⟨w3, k, w2⟩
      · exact ⟨_, by rw [w2, b2, a2]; simp, Or.inl rfl⟩
      · exact ⟨_, by rw [w2, b2, a2]; simp, Or.inr ⟨w3, k, rfl⟩⟩
    obtain ⟨pre, hp1, hp2⟩ := hpre
    cases hc : (check_cancellation_and_abort env ShenandoahDegenPoint._degenerated_mark s3).1 with
    | true =>
      simp only [hc, if_true, Option.some.injEq, Prod.mk.injEq] at h
      obtain ⟨rfl, rfl⟩ := h
      have hk := hk3.followedBy c1
      refine ⟨hk.candidates, hk.array, hk.visits, hk.cancelled, pre, [], ?_, ?_, ?_, ?_⟩
      · rw [c2, hp1, hc]; simp
      · rcases hp2 with hp2 | ⟨_, hp2⟩
        · exact Or.inl hp2
        · exact Or.inr ⟨rfl, hp2⟩
      · intro _
        exact ⟨rfl, c4 hc, hk.flag⟩
      · intro h; exact absurd h (by decide)
    | false =>
      simp only [hc, Bool.false_eq_true, if_false, Option.some.injEq, Prod.mk.injEq] at h
      obtain ⟨rfl, rfl⟩ := h
      obtain ⟨f1, f2⟩ := vmop_entry_final_mark_spec env
        (check_cancellation_and_abort env ShenandoahDegenPoint._degenerated_mark s3).2
      have hk4 := (hk3.followedBy c1).followedBy f1
      generalize hs4 : vmop_entry_final_mark env
        (check_cancellation_and_abort env ShenandoahDegenPoint._degenerated_mark s3).2 = s4
        at f1 f2 hk4 ⊢
      have hweak : ∃ (s5 : OldGCState H) (wk : Bool), (if s4.concurrent_weak_root_in_progress = true then
            external_phase env Event.entry_weak_roots
              (external_phase env Event.entry_weak_refs s4)
          else s4) = s5 ∧ Keeps s4 s5 ∧
          s5.trace = s4.trace ++
            (if wk then [Event.entry_weak_refs, Event.entry_weak_roots] else []) := by
        by_cases hwk : s4.concurrent_weak_root_in_progress = true
        · obtain ⟨g1, g2⟩ := external_phase_spec env Event.entry_weak_refs s4
          obtain ⟨g3, g4⟩ := external_phase_spec env Event.entry_weak_roots
            (external_phase env Event.entry_weak_refs s4)
          exact ⟨_, true, if_pos hwk, g1.followedBy g3, by rw [g4, g2]; simp⟩
        · exact ⟨_, false, if_neg hwk, Keeps.refl s4, by simp⟩
      obtain ⟨s5, wk, hs5, hk5, ht5⟩ := hweak
      rw [hs5]
      obtain ⟨i1, i2⟩ := external_phase_spec env Event.entry_cleanup_early s5
      obtain ⟨j1, j2⟩ := external_phase_spec env Event.log_status
        (external_phase env Event.entry_cleanup_early s5)
      obtain ⟨r1, r2, _⟩ := regulator_step_keeps env
        (external_phase env Event.log_status (external_phase env Event.entry_cleanup_early s5))
      have hk := (((hk4.followedBy hk5).followedBy i1).followedBy j1).followedBy r1
      have hnot : ¬ (false = true) := by decide
      refine ⟨hk.candidates, hk.array, hk.visits, hk.cancelled, pre,
        (if hfm : s4.trace = (check_cancellation_and_abort env
            ShenandoahDegenPoint._degenerated_mark s3).2.trace ++ [Event.vmop_entry_final_mark]
          then initial_body false wk else initial_body true wk), ?_, ?_, ?_, ?_⟩
      · simp only [record]
        rw [r2, j2, i2, ht5]
        rcases f2 with f2 | f2
        · rw [dif_pos f2, f2, c2, hp1, hc]
          simp [initial_body]
        · have hne : ¬ (s4.trace = (check_cancellation_and_abort env
            ShenandoahDegenPoint._degenerated_mark s3).2.trace ++
              [Event.vmop_entry_final_mark]) := by
            rw [f2]
            intro he
            have := congrArg List.length he
            simp at this
          rw [dif_neg hne, f2, c2, hp1, hc]
          simp [initial_body]
      · rcases hp2 with hp2 | ⟨hp3, _⟩
        · exact Or.inl hp2
        · exact absurd (c3 hp3) (by rw [hc]; decide)
      · intro h; exact absurd h hnot
      · intro _
        refine ⟨rfl, ?_⟩
        by_cases hfm : s4.trace = (check_cancellation_and_abort env
            ShenandoahDegenPoint._degenerated_mark s3).2.trace ++ [Event.vmop_entry_final_mark]
        · exact ⟨false, wk, by rw [dif_pos hfm]⟩
        · exact ⟨true, wk, by rw [dif_neg hfm]⟩

theorem CoalesceRun.effect {H : Type} {env : Environment H} {s s' : OldGCState H} {b : Bool}
    {task' : ShenandoahConcurrentCoalesceAndFillTask H} (h : CoalesceRun env s s' b task') :
    s'.visits = s.visits ++ task'.visits ∧
    s'.candidates = s.candidates ∧
    s'._coalesce_and_fill_region_array =
      get_coalesce_and_fill_candidates s.candidates s._coalesce_and_fill_region_array ∧
    s'.concurrent_prep_for_mixed_evacuation_in_progress =
      (if b then false else s.concurrent_prep_for_mixed_evacuation_in_progress) := by
  obtain ⟨s1, s2, k1, _, hop, hrun, _, k2⟩ := h
  obtain ⟨task2, h1, _, h3, _, h5, h6, _, h8, h9⟩ := op_coalesce_and_fill_spec env s1 s2 _ hop
  have e : task2 = task' := Option.some.inj (h1.symm.trans hrun)
  subst e
  refine ⟨by rw [k2.visits, h3, k1.visits], (k2.candidates.trans h5).trans k1.candidates,
    by rw [k2.array, h6, k1.array, k1.candidates], ?_⟩
  cases b with
  | true => rw [k2.flag, (h8 rfl).1]; rfl
  | false => rw [k2.flag, (h9 rfl).1, k1.flag]; rfl

/-- The history and result of the second block of `collect` entered with the phase flag set. -/
theorem collect_coalesce_and_fill_shape {H : Type} (env : Environment H) (spin_fuel : Nat)
    (s s' : OldGCState H) (r : Bool)
    (hflag : s.concurrent_prep_for_mixed_evacuation_in_progress = true)
    (h : collect_coalesce_and_fill env spin_fuel s = some (r, s')) :
    ∃ tail, s'.trace = s.trace ++ tail ∧
      ((tail = tail_cancelled ∧ r = false ∧ Keeps s s' ∧ s'.cancelled_gc = true) ∨
       (∃ c3 task', tail = tail_preempted c3 ∧ r = false ∧ CoalesceRun env s s' false task') ∨
       (∃ ok k task', tail = tail_completed ok k ∧ r = true ∧
          CoalesceRun env s s' true task' ∧ (ok = false → s'.cancelled_gc = true))) := by
  rcases collect_coalesce_and_fill_spec env spin_fuel s s' r hflag h with
    ⟨hr, hk, hc, ht⟩ | ⟨s1, s2, c3, k1, aw, hop, k2, hr, t1, t2⟩ |
    ⟨s1, s2, k1, aw, hop, k2, hr, t1, t2⟩
  · exact ⟨_, ht, Or.inl ⟨rfl, hr, hk, hc⟩⟩
  · obtain ⟨task', h1, h2, _, _, _, _, _, _, h9⟩ := op_coalesce_and_fill_spec env s1 s2 _ hop
    refine ⟨tail_preempted c3, by rw [t2, (h9 rfl).2, t1]; simp [tail_preempted],
      Or.inr (Or.inl ⟨c3, task', rfl, hr, s1, s2, k1, aw, hop, h1, h2.symm, k2⟩)⟩
  · obtain ⟨task', h1, h2, _, _, _, _, _, h8, _⟩ := op_coalesce_and_fill_spec env s1 s2 _ hop
    rcases t2 with t2 | ⟨hc, k, t2⟩
    · refine ⟨tail_completed true 0,
        by rw [t2, (h8 rfl).2, t1]; simp [tail_completed, guard_release],
        Or.inr (Or.inr ⟨true, 0, task', rfl, hr, ⟨s1, s2, k1, aw, hop, h1, h2.symm, k2⟩,
          fun h => absurd h (by decide)⟩)⟩
    · refine ⟨tail_completed false k,
        by rw [t2, (h8 rfl).2, t1]; simp [tail_completed, guard_release],
        Or.inr (Or.inr ⟨false, k, task', rfl, hr, ⟨s1, s2, k1, aw, hop, h1, h2.symm, k2⟩,
          fun _ => hc⟩)⟩

/-- The history and result of one invocation of `collect`: `ini` is the history of the first
block (empty when the phase flag was set on entry), `tail` that of the second block, which
starts in state `s0`. -/
theorem collect_shape {H : Type} (env : Environment H) (spin_fuel : Nat)
    (s s' : OldGCState H) (r : Bool) (h : collect env spin_fuel s = some (r, s')) :
    ∃ ini tail, s'.trace = s.trace ++ ini ++ tail ∧
      ((s.concurrent_prep_for_mixed_evacuation_in_progress = false ∧
        (∃ ok k, ini = initial_trace_early ok k) ∧ tail = [] ∧ r = false ∧
        s'.concurrent_prep_for_mixed_evacuation_in_progress = false ∧
        s'.candidates = s.candidates ∧
        s'._coalesce_and_fill_region_array = s._coalesce_and_fill_region_array ∧
        s'.visits = s.visits ∧ s'.cancelled_gc = true) ∨
       (∃ s0, s0.candidates = s.candidates ∧
          s0._coalesce_and_fill_region_array = s._coalesce_and_fill_region_array ∧
          s0.visits = s.visits ∧
          s0.concurrent_prep_for_mixed_evacuation_in_progress = true ∧
          ((s.concurrent_prep_for_mixed_evacuation_in_progress = true ∧ ini = []) ∨
           (s.concurrent_prep_for_mixed_evacuation_in_progress = false ∧
            ∃ fm wk, ini = initial_trace fm wk)) ∧
          ((tail = tail_cancelled ∧ r = false ∧ Keeps s0 s' ∧ s'.cancelled_gc = true) ∨
           (∃ c3 task', tail = tail_preempted c3 ∧ r = false ∧
              CoalesceRun env s0 s' false task') ∨
           (∃ ok k task', tail = tail_completed ok k ∧ r = true ∧
              CoalesceRun env s0 s' true task' ∧ (ok = false → s'.cancelled_gc = true))))) := by
  unfold collect at h
  cases hf : s.concurrent_prep_for_mixed_evacuation_in_progress with
  | true =>
    simp only [hf, Bool.not_true, Bool.false_eq_true, if_false] at h
    obtain ⟨tail, ht, hcase⟩ := collect_coalesce_and_fill_shape env spin_fuel s s' r hf h
    exact ⟨[], tail, by simpa using ht, Or.inr ⟨s, rfl, rfl, rfl, hf, Or.inl ⟨rfl, rfl⟩, hcase⟩⟩
  | false =>
    simp only [hf, Bool.not_false, if_true] at h
    cases hi : collect_initial_phases env spin_fuel s with
    | none => simp [hi] at h
    | some res =>
      obtain ⟨early, s1⟩ := res
      obtain ⟨i1, i2, i3, _, pre, body, i5, i6, i7, i8⟩ :=
        collect_initial_phases_spec env spin_fuel s s1 early hi
      simp only [hi] at h
      cases early with
      | true =>
        simp only [Option.some.injEq, Prod.mk.injEq] at h
        obtain ⟨rfl, rfl⟩ := h
        obtain ⟨j1, j2, j3⟩ := i7 rfl
        refine ⟨pre ++ [Event.check_cancellation_and_abort
          ShenandoahDegenPoint._degenerated_mark true], [], by rw [i5, j1]; simp,
          Or.inl ⟨rfl, ?_, rfl, rfl, j3.trans hf, i1, i2, i3, j2⟩⟩
        rcases i6 with i6 | ⟨_, k, i6⟩
        · exact ⟨true, 0, by rw [i6]; simp [initial_trace_early, guard_release]⟩
        · exact ⟨false, k, by rw [i6]; simp [initial_trace_early, guard_release]⟩
      | false =>
        simp only at h
        obtain ⟨j1, fm, wk, j2⟩ := i8 rfl
        obtain ⟨tail, ht, hcase⟩ := collect_coalesce_and_fill_shape env spin_fuel s1 s' r j1 h
        have hpre : pre = [Event.allow_preemption_set, Event.entry_mark,
            Event.try_unset GuardSite.after_mark true] := by
          rcases i6 with i6 | ⟨i6, _⟩
          · exact i6
          · exact absurd i6 (by decide)
        refine ⟨initial_trace fm wk, tail, by rw [ht, i5, j2, hpre]; simp [initial_trace],
          Or.inr ⟨s1, i1, i2, i3, j1, Or.inr ⟨rfl, fm, wk, rfl⟩, hcase⟩⟩

/-! ## The driver: histories of `collect` -/

theorem forall_mem_spins (P : Event → Prop) (h1 : P (Event.cancelled_gc false))
    (h2 : P Event.spin_pause) : ∀ (k : Nat), ∀ e ∈ spins k, P e
  | 0, e, he => by simp [spins] at he
  | k + 1, e, he => by
    simp only [spins, List.mem_cons] at he
    rcases he with rfl | rfl | he
    · exact h1
    · exact h2
    · exact forall_mem_spins P h1 h2 k e he

theorem forall_mem_guard_release (P : Event → Prop) (site : GuardSite) (ok : Bool) (k : Nat)
    (h0 : P (Event.try_unset site ok))
    (h1 : P (Event.cancelled_gc false)) (h2 : P Event.spin_pause)
    (h3 : P (Event.cancelled_gc true)) : ∀ e ∈ guard_release site ok k, P e := by
  intro e he
  cases ok with
  | true =>
    simp only [guard_release, if_true, List.mem_singleton] at he
    exact he ▸ h0
  | false =>
    simp only [guard_release, Bool.false_eq_true, if_false, List.mem_cons, List.mem_append,
      List.mem_singleton, List.not_mem_nil, or_false] at he
    rcases he with rfl | he | rfl
    · exact h0
    · exact forall_mem_spins P h1 h2 k e he
    · exact h3

/-- No event of the second block of `collect` is an event of the initial phases. -/
theorem tail_no_initial_phase_event (tail : List Event)
    (h : tail = tail_cancelled ∨ (∃ c3, tail = tail_preempted c3) ∨
      (∃ ok k, tail = tail_completed ok k)) :
    ∀ e ∈ tail, is_initial_phase_event e = false := by
  rcases h with rfl | ⟨c3, rfl⟩ | ⟨ok, k, rfl⟩
  · exact by decide
  · cases c3 <;> exact by decide
  · intro e he
    unfold tail_completed at he
    rcases List.mem_append.1 he with he | he
    · rcases List.mem_append.1 he with he | he
      · exact (by decide : ∀ e ∈ [Event.allow_preemption_set,
          Event.check_cancellation_and_abort ShenandoahDegenPoint._degenerated_evac false,
          Event.vmop_entry_final_roots, Event.run_task true,
          Event.set_concurrent_prep_for_mixed_evacuation_in_progress false],
            is_initial_phase_event e = false) e he
      · exact forall_mem_guard_release (fun e => is_initial_phase_event e = false) _ ok k
          (by cases ok <;> rfl) rfl rfl rfl e he
    · rw [List.mem_singleton.1 he]
      rfl

/-- C3: when the phase flag is set on entry, `collect` is its second block: its history in
this invocation contains no event of the initial phases (no `entry_mark`, no post-marking
`try_unset`, no final-mark operation, no weak-reference or weak-root processing, no early
cleanup, no setting of the phase flag), and it starts with setting the Preemption Guard and
the cancellation check, followed (unless cancelled) by final roots and the run of the
coalesce-and-fill task. -/
theorem C3_idempotent_resumption {H : Type} (env : Environment H) (spin_fuel : Nat)
    (s s' : OldGCState H) (r : Bool)
    (hflag : s.concurrent_prep_for_mixed_evacuation_in_progress = true)
    (h : collect env spin_fuel s = some (r, s')) :
    ∃ new, s'.trace = s.trace ++ new ∧
      (∀ e ∈ new, is_initial_phase_event e = false) ∧
      ∃ c rest, new = Event.allow_preemption_set ::
          Event.check_cancellation_and_abort ShenandoahDegenPoint._degenerated_evac c :: rest ∧
        (c = true → rest = [] ∧ r = false) ∧
        (c = false → ∃ b rest', rest = Event.vmop_entry_final_roots :: Event.run_task b :: rest')
    := by
  obtain ⟨ini, tail, ht, hcase⟩ := collect_shape env spin_fuel s s' r h
  rcases hcase with ⟨hf, _⟩ | ⟨s0, _, _, _, _, hini, htail⟩
  · rw [hflag] at hf
    exact absurd hf (by decide)
  · have hi : ini = [] := by
      rcases hini with ⟨_, hi⟩ | ⟨hf, _⟩
      · exact hi
      · rw [hflag] at hf
        exact absurd hf (by decide)
    subst hi
    refine ⟨tail, by simpa using ht, ?_, ?_⟩
    · apply tail_no_initial_phase_event
      rcases htail with ⟨h1, _⟩ | ⟨c3, _, h1, _⟩ | ⟨ok, k, _, h1, _⟩
      · exact Or.inl h1
      · exact Or.inr (Or.inl ⟨c3, h1⟩)
      · exact Or.inr (Or.inr ⟨ok, k, h1⟩)
    · rcases htail with ⟨h1, hr, _⟩ | ⟨c3, _, h1, _⟩ | ⟨ok, k, _, h1, _⟩
      · exact ⟨true, [], h1, fun _ => ⟨rfl, hr⟩, fun hc => absurd hc (by decide)⟩
      · exact ⟨false, _, h1, fun hc => absurd hc (by decide), fun _ => ⟨false, _, rfl⟩⟩
      · exact ⟨false, _, h1, fun hc => absurd hc (by decide), fun _ => ⟨true, _, rfl⟩⟩

/-- Witness for C3: resuming with the phase flag set, 5 candidates, 2 workers, no cancellation
and no preemption: `collect` returns true. -/
theorem C3_idempotent_resumption_witness :
    ∃ r s', collect (scenario_env 2 (fun _ => false) (fun _ => [])) 4
        (scenario_state [10, 11, 12, 13, 14] true) = some (r, s') ∧ r = true ∧
      ∃ new, s'.trace = (scenario_state [10, 11, 12, 13, 14] true).trace ++ new ∧
        (∀ e ∈ new, is_initial_phase_event e = false) ∧
        ∃ c rest, new = Event.allow_preemption_set ::
            Event.check_cancellation_and_abort ShenandoahDegenPoint._degenerated_evac c
              :: rest ∧
          (c = true → rest = [] ∧ r = false) ∧
          (c = false →
            ∃ b rest', rest = Event.vmop_entry_final_roots :: Event.run_task b :: rest') :=
  have hs : (collect (scenario_env 2 (fun _ => false) (fun _ => [])) 4
      (scenario_state [10, 11, 12, 13, 14] true)).isSome = true := by decide
  ⟨(Option.get _ hs).1, (Option.get _ hs).2, (Option.some_get hs).symm, rfl,
    C3_idempotent_resumption _ 4 _ _ _ rfl (Option.some_get hs).symm⟩

/-- A list with exactly one element satisfying `p` splits around such an element in only one
way. -/
theorem split_unique (p : Event → Bool) :
    ∀ (P Q pre post : List Event) (X Y : Event),
      P ++ X :: Q = pre ++ Y :: post → p Y = true →
      (∀ e ∈ P, p e = false) → (∀ e ∈ Q, p e = false) →
      pre = P ∧ Y = X ∧ post = Q
  | [], Q, [], post, X, Y, h, _, _, _ => by
    simp only [List.nil_append, List.cons.injEq] at h
    exact ⟨rfl, h.1.symm, h.2.symm⟩
  | [], Q, a :: pre, post, X, Y, h, hY, _, hQ => by
    simp only [List.nil_append, List.cons_append, List.cons.injEq] at h
    have : Y ∈ Q := by rw [h.2]; simp
    rw [hQ Y this] at hY
    exact absurd hY (by decide)
  | a :: P, Q, [], post, X, Y, h, hY, hP, _ => by
    simp only [List.nil_append, List.cons_append, List.cons.injEq] at h
    have := hP a (List.mem_cons_self _ _)
    rw [h.1, hY] at this
    exact absurd this (by decide)
  | a :: P, Q, b :: pre, post, X, Y, h, hY, hP, hQ => by
    simp only [List.cons_append, List.cons.injEq] at h
    obtain ⟨h1, h2, h3⟩ := split_unique p P Q pre post X Y h.2 hY
      (fun e he => hP e (List.mem_cons_of_mem _ he)) hQ
    exact ⟨by rw [h.1, h1], h2, h3⟩

/-- A list without an element satisfying `p` does not split around one. -/
theorem no_split (p : Event → Bool) (l pre post : List Event) (Y : Event)
    (h : l = pre ++ Y :: post) (hY : p Y = true) (hl : ∀ e ∈ l, p e = false) : False := by
  have : Y ∈ l := by rw [h]; simp
  rw [hl Y this] at hY
  exact absurd hY (by decide)

theorem initial_trace_no_failed_try_unset (fm wk : Bool) :
    ∀ e ∈ initial_trace fm wk, is_failed_try_unset e = false := by
  cases fm <;> cases wk <;> exact by decide

theorem initial_trace_early_true (k : Nat) :
    initial_trace_early true k = [Event.allow_preemption_set, Event.entry_mark,
      Event.try_unset GuardSite.after_mark true,
      Event.check_cancellation_and_abort ShenandoahDegenPoint._degenerated_mark true] := rfl

theorem tail_completed_true (k : Nat) :
    tail_completed true k = [Event.allow_preemption_set,
      Event.check_cancellation_and_abort ShenandoahDegenPoint._degenerated_evac false,
      Event.vmop_entry_final_roots, Event.run_task true,
      Event.set_concurrent_prep_for_mixed_evacuation_in_progress false,
      Event.try_unset GuardSite.after_coalesce_and_fill true,
      Event.start_old_evacuations] := rfl

theorem spins_no_failed_try_unset (k : Nat) :
    ∀ e ∈ spins k, is_failed_try_unset e = false :=
  forall_mem_spins (fun e => is_failed_try_unset e = false) rfl rfl k

/-- C8: in every terminating execution of `collect`, a `try_unset` of the Preemption Guard that
fails (the guard was already cleared by a third party) is followed in the history by spin-wait
rounds and then by an observation `cancelled_gc() == true`, before anything else; the GC is
cancelled on return. At the post-marking site what follows that observation is only the
cancellation check, which sees the cancellation: `collect` returns false, the phase flag is
left as it was, and the history contains no final-mark operation, no setting of the phase flag
and no `start_old_evacuations`. -/
theorem C8_guard_race_loser_observes_cancellation {H : Type} (env : Environment H)
    (spin_fuel : Nat) (s s' : OldGCState H) (r : Bool)
    (h : collect env spin_fuel s = some (r, s')) :
    ∃ new, s'.trace = s.trace ++ new ∧
      ∀ pre site post, new = pre ++ Event.try_unset site false :: post →
        (∃ k rest, post = spins k ++ Event.cancelled_gc true :: rest) ∧
        s'.cancelled_gc = true ∧
        (site = GuardSite.after_mark →
          r = false ∧
          (∃ k, post = spins k ++ [Event.cancelled_gc true,
            Event.check_cancellation_and_abort ShenandoahDegenPoint._degenerated_mark true]) ∧
          pre = [Event.allow_preemption_set, Event.entry_mark] ∧
          s'.concurrent_prep_for_mixed_evacuation_in_progress =
            s.concurrent_prep_for_mixed_evacuation_in_progress ∧
          Event.vmop_entry_final_mark ∉ new ∧
          Event.set_concurrent_prep_for_mixed_evacuation_in_progress true ∉ new ∧
          Event.start_old_evacuations ∉ new) := by
  obtain ⟨ini, tail, ht, hcase⟩ := collect_shape env spin_fuel s s' r h
  refine ⟨ini ++ tail, by rw [ht, List.append_assoc], ?_⟩
  intro pre site post hsplit
  rcases hcase with ⟨hf, ⟨ok, k, hini⟩, htail, hr, hf', _, _, _, hc⟩ |
    ⟨s0, _, _, _, _, hini, htail⟩
  · subst htail
    subst hini
    cases ok with
    | true =>
      exfalso
      refine no_split is_failed_try_unset _ pre post _ hsplit rfl ?_
      rw [initial_trace_early_true]
      exact by decide
    | false =>
      have hsplit' : [Event.allow_preemption_set, Event.entry_mark] ++
          Event.try_unset GuardSite.after_mark false :: (spins k ++ [Event.cancelled_gc true,
            Event.check_cancellation_and_abort ShenandoahDegenPoint._degenerated_mark true])
          = pre ++ Event.try_unset site false :: post := by
        rw [← hsplit]
        simp [initial_trace_early, guard_release]
      obtain ⟨h1, h2, h3⟩ := split_unique is_failed_try_unset _ _ pre post _ _ hsplit' rfl
        (by decide) (by
          intro e he
          rcases List.mem_append.1 he with he | he
          · exact spins_no_failed_try_unset k e he
          · exact (by decide : ∀ e ∈ [Event.cancelled_gc true,
              Event.check_cancellation_and_abort ShenandoahDegenPoint._degenerated_mark true],
                is_failed_try_unset e = false) e he)
      refine ⟨⟨k, _, h3⟩, hc, fun _ => ⟨hr, ⟨k, h3⟩, h1, hf'.trans hf.symm, ?_, ?_, ?_⟩⟩
      all_goals
        rw [hsplit, h1, h3]
        simp only [List.mem_append, List.mem_cons, List.mem_singleton, List.not_mem_nil,
          or_false, reduceCtorEq, false_or, or_self, not_false_eq_true]
        intro hm
        have := forall_mem_spins (fun e => e = Event.cancelled_gc false ∨ e = Event.spin_pause)
          (Or.inl rfl) (Or.inr rfl) k _ hm
        simp at this
  · have hini' : ∀ e ∈ ini, is_failed_try_unset e = false := by
      rcases hini with ⟨_, rfl⟩ | ⟨_, fm, wk, rfl⟩
      · simp
      · exact initial_trace_no_failed_try_unset fm wk
    rcases htail with ⟨rfl, _⟩ | ⟨c3, _, rfl, _⟩ | ⟨ok, k, _, rfl, _, _, hc⟩
    · exfalso
      refine no_split is_failed_try_unset _ pre post _ hsplit rfl ?_
      intro e he
      rcases List.mem_append.1 he with he | he
      · exact hini' e he
      · exact (by decide : ∀ e ∈ tail_cancelled, is_failed_try_unset e = false) e he
    · exfalso
      refine no_split is_failed_try_unset _ pre post _ hsplit rfl ?_
      intro e he
      rcases List.mem_append.1 he with he | he
      · exact hini' e he
      · cases c3
        · exact (by decide : ∀ e ∈ tail_preempted false, is_failed_try_unset e = false) e he
        · exact (by decide : ∀ e ∈ tail_preempted true, is_failed_try_unset e = false) e he
    · cases ok with
      | true =>
        exfalso
        refine no_split is_failed_try_unset _ pre post _ hsplit rfl ?_
        intro e he
        rcases List.mem_append.1 he with he | he
        · exact hini' e he
        · rw [tail_completed_true] at he
          exact (by decide : ∀ e ∈ [Event.allow_preemption_set,
            Event.check_cancellation_and_abort ShenandoahDegenPoint._degenerated_evac false,
            Event.vmop_entry_final_roots, Event.run_task true,
            Event.set_concurrent_prep_for_mixed_evacuation_in_progress false,
            Event.try_unset GuardSite.after_coalesce_and_fill true,
            Event.start_old_evacuations], is_failed_try_unset e = false) e he
      | false =>
        have hsplit' : (ini ++ [Event.allow_preemption_set,
            Event.check_cancellation_and_abort ShenandoahDegenPoint._degenerated_evac false,
            Event.vmop_entry_final_roots, Event.run_task true,
            Event.set_concurrent_prep_for_mixed_evacuation_in_progress false]) ++
            Event.try_unset GuardSite.after_coalesce_and_fill false ::
              (spins k ++ [Event.cancelled_gc true, Event.start_old_evacuations])
            = pre ++ Event.try_unset site false :: post := by
          rw [← hsplit]
          simp [tail_completed, guard_release]
        obtain ⟨h1, h2, h3⟩ := split_unique is_failed_try_unset _ _ pre post _ _ hsplit' rfl
          (by
            intro e he
            rcases List.mem_append.1 he with he | he
            · exact hini' e he
            · exact (by decide : ∀ e ∈ [Event.allow_preemption_set,
                Event.check_cancellation_and_abort ShenandoahDegenPoint._degenerated_evac false,
                Event.vmop_entry_final_roots, Event.run_task true,
                Event.set_concurrent_prep_for_mixed_evacuation_in_progress false],
                  is_failed_try_unset e = false) e he)
          (by
            intro e he
            rcases List.mem_append.1 he with he | he
            · exact spins_no_failed_try_unset k e he
            · exact (by decide : ∀ e ∈ [Event.cancelled_gc true, Event.start_old_evacuations],
                  is_failed_try_unset e = false) e he)
        refine ⟨⟨k, _, h3⟩, hc rfl, fun hsite => ?_⟩
        rw [hsite] at h2
        exact absurd h2 (by decide)

/-- Witness for C8: the regulator clears the guard during marking and cancels the GC a little
later; the driver's `try_unset` after marking fails, it spins twice, sees the cancellation and
returns false. -/
theorem C8_guard_race_loser_observes_cancellation_witness :
    ∃ r s', collect (scenario_env 2 (fun _ => false) scenario_regulator_race) 4
        (scenario_state [10, 11, 12, 13, 14] false) = some (r, s') ∧
      s'.trace = [Event.allow_preemption_set, Event.entry_mark,
        Event.try_unset GuardSite.after_mark false, Event.cancelled_gc false, Event.spin_pause,
        Event.cancelled_gc false, Event.spin_pause, Event.cancelled_gc true,
        Event.check_cancellation_and_abort ShenandoahDegenPoint._degenerated_mark true] ∧
      ∃ new, s'.trace = (scenario_state [10, 11, 12, 13, 14] false).trace ++ new ∧
        ∀ pre site post, new = pre ++ Event.try_unset site false :: post →
          (∃ k rest, post = spins k ++ Event.cancelled_gc true :: rest) ∧
          s'.cancelled_gc = true ∧
          (site = GuardSite.after_mark →
            r = false ∧
            (∃ k, post = spins k ++ [Event.cancelled_gc true,
              Event.check_cancellation_and_abort ShenandoahDegenPoint._degenerated_mark true]) ∧
            pre = [Event.allow_preemption_set, Event.entry_mark] ∧
            s'.concurrent_prep_for_mixed_evacuation_in_progress =
              (scenario_state [10, 11, 12, 13, 14]
                false).concurrent_prep_for_mixed_evacuation_in_progress ∧
            Event.vmop_entry_final_mark ∉ new ∧
            Event.set_concurrent_prep_for_mixed_evacuation_in_progress true ∉ new ∧
            Event.start_old_evacuations ∉ new) :=
  have hs : (collect (scenario_env 2 (fun _ => false) scenario_regulator_race) 4
      (scenario_state [10, 11, 12, 13, 14] false)).isSome = true := by decide
  ⟨(Option.get _ hs).1, (Option.get _ hs).2, (Option.some_get hs).symm, rfl,
    C8_guard_race_loser_observes_cancellation _ 4 _ _ _ (Option.some_get hs).symm⟩

theorem count_spins_start (k : Nat) : (spins k).count Event.start_old_evacuations = 0 := by
  apply List.count_eq_zero_of_not_mem
  intro hm
  have := forall_mem_spins (fun e => e ≠ Event.start_old_evacuations) (by decide) (by decide)
    k _ hm
  exact this rfl

theorem guard_release_no_start (site : GuardSite) (ok : Bool) (k : Nat) :
    ∀ e ∈ guard_release site ok k, e ≠ Event.start_old_evacuations :=
  forall_mem_guard_release (fun e => e ≠ Event.start_old_evacuations) site ok k
    (by simp) (by simp) (by simp) (by simp)

theorem initial_trace_no_start (fm wk : Bool) :
    ∀ e ∈ initial_trace fm wk, e ≠ Event.start_old_evacuations := by
  cases fm <;> cases wk <;> exact by decide

/-- C5: whenever `collect` returns true, the coalesce-and-fill task was run in this invocation
and completed, the phase flag is clear on return, the history of the invocation has the run of
the task, the clearing of the phase flag and a `try_unset` of the Preemption Guard in that
order, and `start_old_evacuations` occurs exactly once, as its last event. Whenever `collect`
returns false, `start_old_evacuations` does not occur. -/
theorem C5_success_postcondition {H : Type} (env : Environment H) (spin_fuel : Nat)
    (s s' : OldGCState H) (r : Bool) (h : collect env spin_fuel s = some (r, s')) :
    ∃ new, s'.trace = s.trace ++ new ∧
      (r = true →
        s'.concurrent_prep_for_mixed_evacuation_in_progress = false ∧
        (∃ s1 task', s1.candidates = s.candidates ∧
          run_task env.ops env.task_fuel (coalesce_and_fill_task s1) = some task' ∧
          is_completed task' = true ∧ s'.visits = s.visits ++ task'.visits) ∧
        (∃ pre ok post, new = pre ++ Event.run_task true ::
          Event.set_concurrent_prep_for_mixed_evacuation_in_progress false ::
          Event.try_unset GuardSite.after_coalesce_and_fill ok :: post ++
          [Event.start_old_evacuations]) ∧
        new.count Event.start_old_evacuations = 1) ∧
      (r = false → Event.start_old_evacuations ∉ new) := by
  obtain ⟨ini, tail, ht, hcase⟩ := collect_shape env spin_fuel s s' r h
  refine ⟨ini ++ tail, by rw [ht, List.append_assoc], ?_⟩
  rcases hcase with ⟨_, ⟨ok, k, hini⟩, htail, hr, _⟩ | ⟨s0, hc0, _, hv0, hf0, hini, htail⟩
  · subst htail hini hr
    refine ⟨fun hr => absurd hr (by decide), fun _ hm => ?_⟩
    simp only [initial_trace_early, List.append_nil, List.mem_append, List.mem_cons,
      List.mem_singleton, List.not_mem_nil, or_false, reduceCtorEq, false_or] at hm
    exact guard_release_no_start _ ok k _ hm rfl
  · have hini' : ∀ e ∈ ini, e ≠ Event.start_old_evacuations := by
      rcases hini with ⟨_, rfl⟩ | ⟨_, fm, wk, rfl⟩
      · simp
      · exact initial_trace_no_start fm wk
    rcases htail with ⟨rfl, hr, _⟩ | ⟨c3, _, rfl, hr, _⟩ | ⟨ok, k, task', rfl, hr, hrun, _⟩
    · subst hr
      refine ⟨fun hr => absurd hr (by decide), fun _ hm => ?_⟩
      rcases List.mem_append.1 hm with hm | hm
      · exact hini' _ hm rfl
      · exact absurd hm (by decide)
    · subst hr
      refine ⟨fun hr => absurd hr (by decide), fun _ hm => ?_⟩
      rcases List.mem_append.1 hm with hm | hm
      · exact hini' _ hm rfl
      · cases c3
        · exact absurd hm (by decide)
        · exact absurd hm (by decide)
    · subst hr
      refine ⟨fun _ => ?_, fun hr => absurd hr (by decide)⟩
      obtain ⟨e1, _, _, e4⟩ := hrun.effect
      obtain ⟨s1, s2, k1, _, _, hrun1, hcomp, _⟩ := hrun
      refine ⟨by simpa using e4, ⟨s1, task', k1.candidates.trans hc0, hrun1, hcomp,
        by rw [e1, hv0]⟩, ?_, ?_⟩
      · cases ok with
        | true =>
          exact ⟨ini ++ [Event.allow_preemption_set,
            Event.check_cancellation_and_abort ShenandoahDegenPoint._degenerated_evac false,
            Event.vmop_entry_final_roots], true, [],
            by simp [tail_completed, guard_release]⟩
        | false =>
          exact ⟨ini ++ [Event.allow_preemption_set,
            Event.check_cancellation_and_abort ShenandoahDegenPoint._degenerated_evac false,
            Event.vmop_entry_final_roots], false, spins k ++ [Event.cancelled_gc true],
            by simp [tail_completed, guard_release]⟩
      · have h0 : ini.count Event.start_old_evacuations = 0 :=
          List.count_eq_zero_of_not_mem (fun hm => hini' _ hm rfl)
        have hg : (guard_release GuardSite.after_coalesce_and_fill ok k).count
            Event.start_old_evacuations = 0 :=
          List.count_eq_zero_of_not_mem (fun hm => guard_release_no_start _ ok k _ hm rfl)
        rw [List.count_append, h0, tail_completed, List.count_append, List.count_append, hg]
        decide

/-- Witness for C5: a full cycle with 5 candidates and 2 workers, nothing cancelled or
preempted: `collect` returns true. -/
theorem C5_success_postcondition_witness :
    ∃ r s', collect (scenario_env 2 (fun _ => false) (fun _ => [])) 4
        (scenario_state [10, 11, 12, 13, 14] false) = some (r, s') ∧ r = true ∧
      s'.memory = [10, 12, 14, 11, 13] ∧
      ∃ new, s'.trace = (scenario_state [10, 11, 12, 13, 14] false).trace ++ new ∧
        (r = true →
          s'.concurrent_prep_for_mixed_evacuation_in_progress = false ∧
          (∃ s1 task', s1.candidates = (scenario_state [10, 11, 12, 13, 14] false).candidates ∧
            run_task (scenario_env 2 (fun _ => false) (fun _ => [])).ops
              (scenario_env 2 (fun _ => false) (fun _ => [])).task_fuel
              (coalesce_and_fill_task s1) = some task' ∧
            is_completed task' = true ∧
            s'.visits = (scenario_state [10, 11, 12, 13, 14] false).visits ++ task'.visits) ∧
          (∃ pre ok post, new = pre ++ Event.run_task true ::
            Event.set_concurrent_prep_for_mixed_evacuation_in_progress false ::
            Event.try_unset GuardSite.after_coalesce_and_fill ok :: post ++
            [Event.start_old_evacuations]) ∧
          new.count Event.start_old_evacuations = 1) ∧
        (r = false → Event.start_old_evacuations ∉ new) :=
  have hs : (collect (scenario_env 2 (fun _ => false) (fun _ => [])) 4
      (scenario_state [10, 11, 12, 13, 14] false)).isSome = true := by decide
  ⟨(Option.get _ hs).1, (Option.get _ hs).2, (Option.some_get hs).symm, rfl, rfl,
    C5_success_postcondition _ 4 _ _ _ (Option.some_get hs).symm⟩

theorem guard_release_no_clear (site : GuardSite) (ok : Bool) (k : Nat) :
    ∀ e ∈ guard_release site ok k, is_clear_phase_flag e = false :=
  forall_mem_guard_release (fun e => is_clear_phase_flag e = false) site ok k
    rfl rfl rfl rfl

theorem initial_trace_no_clear (fm wk : Bool) :
    ∀ e ∈ initial_trace fm wk, is_clear_phase_flag e = false := by
  cases fm <;> cases wk <;> exact by decide

theorem initial_trace_early_no_clear (ok : Bool) (k : Nat) :
    ∀ e ∈ initial_trace_early ok k, is_clear_phase_flag e = false := by
  intro e he
  unfold initial_trace_early at he
  rcases List.mem_append.1 he with he | he
  · rcases List.mem_append.1 he with he | he
    · exact (by decide : ∀ e ∈ [Event.allow_preemption_set, Event.entry_mark],
        is_clear_phase_flag e = false) e he
    · exact guard_release_no_clear _ ok k e he
  · rw [List.mem_singleton.1 he]
    rfl

/-- C4: `op_coalesce_and_fill` returns `is_completed()` of the task it ran, and records the
run. In an invocation of `collect` whose task run ended preempted: `op_coalesce_and_fill`
returned false, `collect` returns false, the phase flag is set on return,
`start_old_evacuations` was not called, the phase flag was not cleared, the heuristics'
candidates are unchanged, and the candidate array on return is the array the task received
(the candidates as loaded from the heuristics): neither the task nor the driver modified it. In every invocation, a clearing of
the phase flag comes directly after a task run with `is_completed()` true. -/
theorem C4_preemption_keeps_progress {H : Type} (env : Environment H) (spin_fuel : Nat)
    (s s' : OldGCState H) (r : Bool) (h : collect env spin_fuel s = some (r, s')) :
    (∀ s1 b s2, op_coalesce_and_fill env s1 = some (b, s2) →
      ∃ task', run_task env.ops env.task_fuel (coalesce_and_fill_task s1) = some task' ∧
        b = is_completed task' ∧
        s2.trace = s1.trace ++ (if b then [Event.run_task true,
          Event.set_concurrent_prep_for_mixed_evacuation_in_progress false]
          else [Event.run_task false])) ∧
    ∃ new, s'.trace = s.trace ++ new ∧
      (Event.run_task false ∈ new →
        (∃ s1 s2 task', op_coalesce_and_fill env s1 = some (false, s2) ∧
          run_task env.ops env.task_fuel (coalesce_and_fill_task s1) = some task' ∧
          is_completed task' = false ∧
          task'._coalesce_and_fill_region_array =
            (coalesce_and_fill_task s1)._coalesce_and_fill_region_array ∧
          s'._coalesce_and_fill_region_array =
            (coalesce_and_fill_task s1)._coalesce_and_fill_region_array ∧
          s1.candidates = s.candidates ∧
          s1._coalesce_and_fill_region_array = s._coalesce_and_fill_region_array) ∧
        r = false ∧
        s'.concurrent_prep_for_mixed_evacuation_in_progress = true ∧
        Event.start_old_evacuations ∉ new ∧
        Event.set_concurrent_prep_for_mixed_evacuation_in_progress false ∉ new ∧
        s'.candidates = s.candidates ∧
        s'._coalesce_and_fill_region_array =
          get_coalesce_and_fill_candidates s.candidates s._coalesce_and_fill_region_array) ∧
      (∀ pre post,
        new = pre ++ Event.set_concurrent_prep_for_mixed_evacuation_in_progress false :: post →
        ∃ pre', pre = pre' ++ [Event.run_task true]) := by
  refine ⟨?_, ?_⟩
  · intro s1 b s2 hop
    obtain ⟨task', h1, h2, _, _, _, _, _, h8, h9⟩ := op_coalesce_and_fill_spec env s1 s2 b hop
    refine ⟨task', h1, h2, ?_⟩
    cases b with
    | true => exact (h8 rfl).2
    | false => exact (h9 rfl).2
  obtain ⟨ini, tail, ht, hcase⟩ := collect_shape env spin_fuel s s' r h
  refine ⟨ini ++ tail, by rw [ht, List.append_assoc], ?_⟩
  rcases hcase with ⟨_, ⟨ok, k, hini⟩, htail, hr, _⟩ | ⟨s0, hc0, ha0, hv0, hf0, hini, htail⟩
  · subst htail hini hr
    refine ⟨fun hm => ?_, fun pre post hsplit => ?_⟩
    · exfalso
      simp only [initial_trace_early, List.append_nil, List.mem_append, List.mem_cons,
        List.mem_singleton, List.not_mem_nil, or_false, reduceCtorEq, false_or] at hm
      exact forall_mem_guard_release (fun e => e ≠ Event.run_task false) _ ok k
        (by simp) (by simp) (by simp) (by simp) _ hm rfl
    · exfalso
      rw [List.append_nil] at hsplit
      exact no_split is_clear_phase_flag _ pre post _ hsplit rfl
        (initial_trace_early_no_clear ok k)
  · have hini' : ∀ e ∈ ini, is_clear_phase_flag e = false := by
      rcases hini with ⟨_, rfl⟩ | ⟨_, fm, wk, rfl⟩
      · simp
      · exact initial_trace_no_clear fm wk
    have hini2 : ∀ e ∈ ini, e ≠ Event.run_task false ∧ e ≠ Event.start_old_evacuations := by
      rcases hini with ⟨_, rfl⟩ | ⟨_, fm, wk, rfl⟩
      · simp
      · cases fm <;> cases wk <;> exact by decide
    rcases htail with ⟨rfl, hr, _⟩ | ⟨c3, task', rfl, hr, hrun⟩ |
      ⟨ok, k, task', rfl, hr, hrun, _⟩
    · refine ⟨fun hm => ?_, fun pre post hsplit => ?_⟩
      · exfalso
        rcases List.mem_append.1 hm with hm | hm
        · exact (hini2 _ hm).1 rfl
        · exact absurd hm (by decide)
      · exfalso
        refine no_split is_clear_phase_flag _ pre post _ hsplit rfl ?_
        intro e he
        rcases List.mem_append.1 he with he | he
        · exact hini' e he
        · exact (by decide : ∀ e ∈ tail_cancelled, is_clear_phase_flag e = false) e he
    · have htail' : ∀ e ∈ tail_preempted c3, is_clear_phase_flag e = false ∧
          e ≠ Event.start_old_evacuations := by
        cases c3 <;> exact by decide
      refine ⟨fun _ => ?_, fun pre post hsplit => ?_⟩
      · obtain ⟨e1, e2, e3, e4⟩ := hrun.effect
        obtain ⟨s1, s2, k1, _, hop, hrun1, hcomp, _⟩ := hrun
        have hcfg := (run_workers_effect env.ops env.task_fuel _ _ _ _ hrun1).1
        refine ⟨⟨s1, s2, task', hop, hrun1, hcomp, hcfg.2.1, ?_, k1.candidates.trans hc0,
          k1.array.trans ha0⟩, hr, ?_, ?_, ?_, e2.trans hc0, by rw [e3, hc0, ha0]⟩
        · rw [e3]
          show _ = get_coalesce_and_fill_candidates s1.candidates
            s1._coalesce_and_fill_region_array
          rw [k1.candidates, k1.array]
        · rw [e4]
          simpa using hf0
        · intro hm
          rcases List.mem_append.1 hm with hm | hm
          · exact (hini2 _ hm).2 rfl
          · exact (htail' _ hm).2 rfl
        · intro hm
          rcases List.mem_append.1 hm with hm | hm
          · exact absurd (hini' _ hm) (by decide)
          · exact absurd (htail' _ hm).1 (by decide)
      · exfalso
        refine no_split is_clear_phase_flag _ pre post _ hsplit rfl ?_
        intro e he
        rcases List.mem_append.1 he with he | he
        · exact hini' e he
        · exact (htail' e he).1
    · refine ⟨fun hm => ?_, fun pre post hsplit => ?_⟩
      · exfalso
        rcases List.mem_append.1 hm with hm | hm
        · exact (hini2 _ hm).1 rfl
        · unfold tail_completed at hm
          rcases List.mem_append.1 hm with hm | hm
          · rcases List.mem_append.1 hm with hm | hm
            · exact absurd hm (by decide)
            · exact forall_mem_guard_release (fun e => e ≠ Event.run_task false) _ ok k
                (by simp) (by simp) (by simp) (by simp) _ hm rfl
          · exact absurd hm (by decide)
      · have hsplit' : (ini ++ [Event.allow_preemption_set,
            Event.check_cancellation_and_abort ShenandoahDegenPoint._degenerated_evac false,
            Event.vmop_entry_final_roots, Event.run_task true]) ++
            Event.set_concurrent_prep_for_mixed_evacuation_in_progress false ::
              (guard_release GuardSite.after_coalesce_and_fill ok k ++
                [Event.start_old_evacuations])
            = pre ++ Event.set_concurrent_prep_for_mixed_evacuation_in_progress false :: post
            := by
          rw [← hsplit]
          simp [tail_completed]
        obtain ⟨h1, _, _⟩ := split_unique is_clear_phase_flag _ _ pre post _ _ hsplit' rfl
          (by
            intro e he
            rcases List.mem_append.1 he with he | he
            · exact hini' e he
            · exact (by decide : ∀ e ∈ [Event.allow_preemption_set,
                Event.check_cancellation_and_abort ShenandoahDegenPoint._degenerated_evac false,
                Event.vmop_entry_final_roots, Event.run_task true],
                  is_clear_phase_flag e = false) e he)
          (by
            intro e he
            rcases List.mem_append.1 he with he | he
            · exact guard_release_no_clear _ ok k e he
            · rw [List.mem_singleton.1 he]
              rfl)
        exact ⟨ini ++ [Event.allow_preemption_set,
          Event.check_cancellation_and_abort ShenandoahDegenPoint._degenerated_evac false,
          Event.vmop_entry_final_roots], by rw [h1]; simp⟩

/-- Witness for C4: resuming with the phase flag set, 5 candidates, 2 workers, the fill of the
candidate at index 3 preempted: `collect` returns false with the phase flag still set. -/
theorem C4_preemption_keeps_progress_witness :
    ∃ r s', collect (scenario_env 2 (fun x => x == 13) (fun _ => [])) 4
        (scenario_state [10, 11, 12, 13, 14] true) = some (r, s') ∧
      Event.run_task false ∈ s'.trace ∧ r = false ∧
      s'.concurrent_prep_for_mixed_evacuation_in_progress = true ∧
      s'.candidates = [10, 11, 12, 13, 14] ∧
      ∃ new, s'.trace = (scenario_state [10, 11, 12, 13, 14] true).trace ++ new ∧
        (∀ pre post,
          new = pre ++ Event.set_concurrent_prep_for_mixed_evacuation_in_progress false :: post →
          ∃ pre', pre = pre' ++ [Event.run_task true]) :=
  have hs : (collect (scenario_env 2 (fun x => x == 13) (fun _ => [])) 4
      (scenario_state [10, 11, 12, 13, 14] true)).isSome = true := by decide
  have hc := (C4_preemption_keeps_progress (scenario_env 2 (fun x => x == 13) (fun _ => [])) 4
    (scenario_state [10, 11, 12, 13, 14] true) (Option.get _ hs).2 (Option.get _ hs).1
    (Option.some_get hs).symm).2
  ⟨(Option.get _ hs).1, (Option.get _ hs).2, (Option.some_get hs).symm,
    of_decide_eq_true rfl, rfl, rfl, rfl, hc.choose, hc.choose_spec.1, hc.choose_spec.2.2⟩

/-- When every candidate at an index in `[k, k+N)` is non-humongous and its fill reports
preemption, a worker loop started below `k + N` fills nothing at an index `≥ k`. -/
theorem work_loop_filled_below {H : Type} (ops : RegionOps H) (w k : Nat) :
    ∀ (fuel idx : Nat) (t t' : ShenandoahConcurrentCoalesceAndFillTask H),
      (∀ i, k ≤ i → i < k + t._nworkers → i < t._coalesce_and_fill_region_count →
        ops.is_humongous (t._coalesce_and_fill_region_array i) = false ∧
        ∀ h, (ops.oop_fill_and_coalesce (t._coalesce_and_fill_region_array i) h).1 = false) →
      idx < k + t._nworkers →
      work_loop ops uint_advance w fuel idx t = some t' →
      ∃ new, t'.visits = t.visits ++ new ∧
        ∀ v ∈ new, v.outcome = Outcome.filled → v.region_idx < k
  | 0, idx, t, t', _, _, h => by
    unfold work_loop at h
    split at h
    · exact absurd h (by simp)
    · simp only [Option.some.injEq] at h
      subst h
      exact ⟨[], by simp, by simp⟩
  | fuel + 1, idx, t, t', hyp, hidx, h => by
    unfold work_loop at h
    split at h
    · rename_i hlt
      simp only at h
      have hnext : uint_advance idx t._nworkers < k + t._nworkers ∨ k ≤ idx := by
        by_cases hk : k ≤ idx
        · exact Or.inr hk
        · left
          unfold uint_advance
          have := Nat.mod_le (idx + t._nworkers) UINT_RANGE
          omega
      split at h
      · split at h
        · simp only [Option.some.injEq] at h
          subst h
          refine ⟨[⟨w, idx, t._coalesce_and_fill_region_array idx, Outcome.preempted⟩],
            rfl, ?_⟩
          intro v hv hf
          rw [List.mem_singleton.1 hv] at hf
          simp at hf
        · rename_i hp
          rcases hnext with hnext | hk
          · obtain ⟨new, hv, hall⟩ := work_loop_filled_below ops w k fuel _ _ _
              (by exact hyp) (by exact hnext) h
            refine ⟨⟨w, idx, t._coalesce_and_fill_region_array idx, Outcome.filled⟩ :: new,
              by simp [hv], ?_⟩
            intro v hv hf
            rcases List.mem_cons.1 hv with rfl | hv
            · show idx < k
              by_contra hge
              have := (hyp idx (by omega) hidx hlt).2 t.heap
              simp [this] at hp
            · exact hall v hv hf
          · have := (hyp idx hk hidx hlt).2 t.heap
            simp [this] at hp
      · rename_i hh
        rcases hnext with hnext | hk
        · obtain ⟨new, hv, hall⟩ := work_loop_filled_below ops w k fuel _ _ _
            (by exact hyp) (by exact hnext) h
          refine ⟨⟨w, idx, t._coalesce_and_fill_region_array idx,
              Outcome.skipped_humongous⟩ :: new,
            by simp [hv], ?_⟩
          intro v hv hf
          rcases List.mem_cons.1 hv with rfl | hv
          · simp at hf
          · exact hall v hv hf
        · have := (hyp idx hk hidx hlt).1
          simp [this] at hh
    · simp only [Option.some.injEq] at h
      subst h
      exact ⟨[], by simp, by simp⟩

theorem run_workers_filled_below {H : Type} (ops : RegionOps H) (fuel k : Nat) :
    ∀ (n a : Nat) (t t' : ShenandoahConcurrentCoalesceAndFillTask H),
      (∀ i, k ≤ i → i < k + t._nworkers → i < t._coalesce_and_fill_region_count →
        ops.is_humongous (t._coalesce_and_fill_region_array i) = false ∧
        ∀ h, (ops.oop_fill_and_coalesce (t._coalesce_and_fill_region_array i) h).1 = false) →
      a + n ≤ t._nworkers →
      run_workers ops fuel a n t = some t' →
      ∃ new, t'.visits = t.visits ++ new ∧
        ∀ v ∈ new, v.outcome = Outcome.filled → v.region_idx < k
  | 0, a, t, t', _, _, h => by
    simp only [run_workers, Option.some.injEq] at h
    subst h
    exact ⟨[], by simp, by simp⟩
  | n + 1, a, t, t', hyp, ha, h => by
    simp only [run_workers] at h
    cases hw : work ops fuel a t with
    | none => simp [hw] at h
    | some t1 =>
      simp only [hw] at h
      obtain ⟨hc1, _⟩ := work_loop_effect ops uint_advance a fuel a t t1 hw
      obtain ⟨new1, hv1, hall1⟩ := work_loop_filled_below ops a k fuel a t t1 hyp
        (by omega) hw
      obtain ⟨new2, hv2, hall2⟩ := run_workers_filled_below ops fuel k n (a + 1) t1 t'
        (by rw [hc1.1, hc1.2.1, hc1.2.2]; exact hyp) (by rw [hc1.1]; omega) h
      refine ⟨new1 ++ new2, by simp [hv2, hv1], ?_⟩
      intro v hv hf
      rcases List.mem_append.1 hv with hv | hv
      · exact hall1 v hv hf
      · exact hall2 v hv hf

theorem get_coalesce_and_fill_candidates_of_lt (candidates : List ShenandoahHeapRegion)
    (out_array : Nat → ShenandoahHeapRegion) (i : Nat) (h : i < candidates.length) :
    get_coalesce_and_fill_candidates candidates out_array i = candidates.getD i 0 := by
  simp [get_coalesce_and_fill_candidates, h]

/-- C7 as stated fails: 5 non-humongous candidates, 2 workers, every fill succeeding except
that of the candidate at index 3 (region 13), which reports preemption. Worker 0 does not look
at the shared flag and fills index 4 (region 14), so a candidate at an index `≥ 3` has been
filled. -/
theorem C7_counterexample :
    (op_coalesce_and_fill (scenario_env 2 (fun x => x == 13) (fun _ => []))
      { scenario_state [10, 11, 12, 13, 14] true with active_workers := 2 }).map
        (fun res => (res.1, res.2.memory,
          res.2.visits.map (fun v => (v.region_idx, v.outcome)),
          res.2.concurrent_prep_for_mixed_evacuation_in_progress))
      = some (false, [10, 12, 14, 11],
          [(0, Outcome.filled), (2, Outcome.filled), (4, Outcome.filled), (1, Outcome.filled),
            (3, Outcome.preempted)], true) := by
  decide

/-- C7 (amended: the fills of all candidates at indices `k .. k+N-1` report preemption, not
only the one at index `k`): for `N ≥ 1` workers and non-humongous candidates, if every fill at
an index below `k` succeeds and every fill at an index in `[k, k+N)` reports preemption, then
`op_coalesce_and_fill`, when its task run terminates, returns false with the phase flag still
set, `is_completed()` is false, every candidate at an index `< k` has been filled and no
candidate at an index `≥ k` has been filled. -/
theorem C7_preempted_run_fills_prefix {H : Type} (env : Environment H)
    (s s' : OldGCState H) (r : Bool) (N k : Nat)
    (hN : 1 ≤ N) (hw : s.active_workers = N)
    (hM : s.candidates.length < 4294967296) (hk : k < s.candidates.length)
    (hflag : s.concurrent_prep_for_mixed_evacuation_in_progress = true)
    (hnh : ∀ i, i < s.candidates.length → env.ops.is_humongous (s.candidates.getD i 0) = false)
    (hbelow : ∀ i, i < k →
      ∀ h, (env.ops.oop_fill_and_coalesce (s.candidates.getD i 0) h).1 = true)
    (hfrom : ∀ i, k ≤ i → i < k + N → i < s.candidates.length →
      ∀ h, (env.ops.oop_fill_and_coalesce (s.candidates.getD i 0) h).1 = false)
    (h : op_coalesce_and_fill env s = some (r, s')) :
    r = false ∧ s'.concurrent_prep_for_mixed_evacuation_in_progress = true ∧
    ∃ task', run_task env.ops env.task_fuel (coalesce_and_fill_task s) = some task' ∧
      is_completed task' = false ∧ s'.visits = s.visits ++ task'.visits ∧
      (∀ i, i < k → ∃ v ∈ task'.visits, v.region_idx = i ∧ v.outcome = Outcome.filled) ∧
      (∀ v ∈ task'.visits, v.outcome = Outcome.filled → v.region_idx < k) := by
  obtain ⟨task', h1, h2, h3, _, _, _, _, _, h9⟩ := op_coalesce_and_fill_spec env s s' r h
  have hcfgN : (coalesce_and_fill_task s)._nworkers = N := hw
  have hcfgM : (coalesce_and_fill_task s)._coalesce_and_fill_region_count
      = s.candidates.length := rfl
  have harr : ∀ i, i < s.candidates.length →
      (coalesce_and_fill_task s)._coalesce_and_fill_region_array i = s.candidates.getD i 0 :=
    fun i hi => get_coalesce_and_fill_candidates_of_lt _ _ i hi
  have hvis0 : (coalesce_and_fill_task s).visits = [] := rfl
  obtain ⟨_, new0, hv0, _, hfl⟩ := run_workers_effect env.ops env.task_fuel _ _ _ _ h1
  have hvis : task'.visits = new0 := by rw [hv0, hvis0]; rfl
  -- every index below or at `k` is reached by its worker
  have hreach : ∀ i, i ≤ k → ∃ v ∈ task'.visits, v.region_idx = i ∧
      VisitOK env.ops (coalesce_and_fill_task s) (i % N) v := by
    intro i hi
    obtain ⟨new, hv, hcase⟩ := run_task_reaches env.ops env.task_fuel _ task'
      (by rw [hcfgN]; exact hN) (by rw [hcfgM]; exact Nat.le_of_lt hM) h1 i
      (by rw [hcfgM]; omega)
    have hvis2 : task'.visits = new := by rw [hv, hvis0]; rfl
    rw [hcfgN] at hcase
    rcases hcase with ⟨v, hvm, hvi, hvok⟩ | ⟨v, hvm, hp, hlt, hvok⟩
    · exact ⟨v, hvis2 ▸ hvm, hvi, hvok⟩
    · exfalso
      obtain ⟨_, hh, hf⟩ := hvok.2.2.2.2.2 hp
      rw [hvok.2.2.1, harr _ (by omega), hbelow _ (by omega) hh] at hf
      exact absurd hf (by decide)
  have hcomp : is_completed task' = false := by
    obtain ⟨v, hvm, hvi, hvok⟩ := hreach k (le_refl k)
    have hreg : v.region = s.candidates.getD k 0 := by
      rw [hvok.2.2.1, hvi, harr k hk]
    have hp : v.outcome = Outcome.preempted := by
      cases ho : v.outcome with
      | skipped_humongous =>
        have := hvok.2.2.2.1 ho
        rw [hreg, hnh k hk] at this
        exact absurd this (by decide)
      | filled =>
        obtain ⟨_, hh, hf⟩ := hvok.2.2.2.2.1 ho
        rw [hreg, hfrom k (le_refl k) (by omega) hk hh] at hf
        exact absurd hf (by decide)
      | preempted => rfl
    unfold is_completed
    rw [hfl]
    have : new0.any (fun v => v.outcome == Outcome.preempted) = true := by
      rw [List.any_eq_true]
      exact ⟨v, hvis ▸ hvm, by simp [hp]⟩
    simp [this]
  have hr : r = false := by rw [h2, hcomp]
  refine ⟨hr, ?_, task', h1, hcomp, h3, ?_, ?_⟩
  · rw [(h9 hr).1, hflag]
  · intro i hi
    obtain ⟨v, hvm, hvi, hvok⟩ := hreach i (by omega)
    have hreg : v.region = s.candidates.getD i 0 := by
      rw [hvok.2.2.1, hvi, harr i (by omega)]
    refine ⟨v, hvm, hvi, ?_⟩
    cases ho : v.outcome with
    | skipped_humongous =>
      have := hvok.2.2.2.1 ho
      rw [hreg, hnh i (by omega)] at this
      exact absurd this (by decide)
    | filled => rfl
    | preempted =>
      obtain ⟨_, hh, hf⟩ := hvok.2.2.2.2.2 ho
      rw [hreg, hbelow i hi hh] at hf
      exact absurd hf (by decide)
  · obtain ⟨new, hv, hall⟩ := run_workers_filled_below env.ops env.task_fuel k _ 0
      (coalesce_and_fill_task s) task'
      (by
        intro i h1 h2 h3
        rw [hcfgN] at h2
        rw [hcfgM] at h3
        rw [harr i h3]
        exact ⟨hnh i h3, hfrom i h1 h2 h3⟩)
      (by omega) h1
    have hvis2 : task'.visits = new := by rw [hv, hvis0]; rfl
    rw [hvis2]
    exact hall

/-- Witness for C7: 5 regions, 2 workers, `k = 3`, the fills of regions 13 and 14 (indices 3
and 4) reporting preemption: regions at indices 0-2 are filled, those at indices 3-4 are not,
`is_completed()` is false and the phase flag stays set. -/
theorem C7_preempted_run_fills_prefix_witness :
    ∃ r s', op_coalesce_and_fill (scenario_env 2 (fun x => decide (13 ≤ x)) (fun _ => []))
        { scenario_state [10, 11, 12, 13, 14] true with active_workers := 2 } = some (r, s') ∧
      s'.memory = [10, 12, 11] ∧
      r = false ∧ s'.concurrent_prep_for_mixed_evacuation_in_progress = true ∧
      ∃ task', run_task (scenario_env 2 (fun x => decide (13 ≤ x)) (fun _ => [])).ops
          (scenario_env 2 (fun x => decide (13 ≤ x)) (fun _ => [])).task_fuel
          (coalesce_and_fill_task
            { scenario_state [10, 11, 12, 13, 14] true with active_workers := 2 })
            = some task' ∧
        is_completed task' = false ∧
        s'.visits = ({ scenario_state [10, 11, 12, 13, 14] true with
          active_workers := 2 } : OldGCState FilledList).visits ++ task'.visits ∧
        (∀ i, i < 3 → ∃ v ∈ task'.visits, v.region_idx = i ∧ v.outcome = Outcome.filled) ∧
        (∀ v ∈ task'.visits, v.outcome = Outcome.filled → v.region_idx < 3) :=
  have hs : (op_coalesce_and_fill (scenario_env 2 (fun x => decide (13 ≤ x)) (fun _ => []))
      { scenario_state [10, 11, 12, 13, 14] true with active_workers := 2 }).isSome = true := by
    decide
  ⟨(Option.get _ hs).1, (Option.get _ hs).2, (Option.some_get hs).symm, rfl,
    C7_preempted_run_fills_prefix _ _ _ _ 2 3 (by decide) rfl (by decide) (by decide) rfl
      (by intro i _; rfl)
      (by
        intro i hi h
        have : i = 0 ∨ i = 1 ∨ i = 2 := by omega
        rcases this with rfl | rfl | rfl <;> rfl)
      (by
        intro i h1 h2 h3 h
        have h3' : i < 5 := h3
        have : i = 3 ∨ i = 4 := by omega
        rcases this with rfl | rfl <;> rfl)
      (Option.some_get hs).symm⟩

/-! ## Resumption: the heap after a run -/

theorem filled_count_append (r : ShenandoahHeapRegion) (l1 l2 : List Visit) :
    filled_count r (l1 ++ l2) = filled_count r l1 + filled_count r l2 := by
  simp [filled_count, List.countP_append]

/-- With local fills, the contents of region `r` after the loop are `f r` applied as many times
as the loop filled `r`. -/
theorem work_loop_heap {C : Type} (ops : RegionOps (ShenandoahHeapRegion → C))
    (f : ShenandoahHeapRegion → C → C) (hloc : ActsLocally ops f)
    (adv : Nat → Nat → Nat) (w : Nat) :
    ∀ (fuel idx : Nat) (t t' : ShenandoahConcurrentCoalesceAndFillTask (ShenandoahHeapRegion → C)),
      work_loop ops adv w fuel idx t = some t' →
      ∃ new, t'.visits = t.visits ++ new ∧
        ∀ r, t'.heap r = (f r)^[filled_count r new] (t.heap r)
  | 0, idx, t, t', h => by
    unfold work_loop at h
    split at h
    · exact absurd h (by simp)
    · simp only [Option.some.injEq] at h
      subst h
      exact ⟨[], by simp, by simp [filled_count]⟩
  | fuel + 1, idx, t, t', h => by
    unfold work_loop at h
    split at h
    · simp only at h
      split at h
      · split at h
        · rename_i hp
          simp only [Option.some.injEq] at h
          subst h
          refine ⟨[⟨w, idx, t._coalesce_and_fill_region_array idx, Outcome.preempted⟩],
            rfl, ?_⟩
          intro r
          have := (hloc (t._coalesce_and_fill_region_array idx) t.heap).2 (by simpa using hp)
          simp [filled_count, this]
        · rename_i hp
          obtain ⟨new, hv, hheap⟩ := work_loop_heap ops f hloc adv w fuel _ _ _ h
          refine ⟨⟨w, idx, t._coalesce_and_fill_region_array idx, Outcome.filled⟩ :: new,
            by simp [hv], ?_⟩
          intro r
          have hup := (hloc (t._coalesce_and_fill_region_array idx) t.heap).1
            (by simpa using hp)
          rw [hheap r]
          simp only [hup]
          by_cases hr : t._coalesce_and_fill_region_array idx = r
          · subst hr
            simp [filled_count, List.countP_cons, Function.iterate_succ_apply]
          · have hne : r ≠ t._coalesce_and_fill_region_array idx := fun e => hr e.symm
            simp [filled_count, List.countP_cons, Function.update_noteq hne, hr]
      · obtain ⟨new, hv, hheap⟩ := work_loop_heap ops f hloc adv w fuel _ _ _ h
        refine ⟨⟨w, idx, t._coalesce_and_fill_region_array idx,
            Outcome.skipped_humongous⟩ :: new,
          by simp [hv], ?_⟩
        intro r
        rw [hheap r]
        simp [filled_count, List.countP_cons]
    · simp only [Option.some.injEq] at h
      subst h
      exact ⟨[], by simp, by simp [filled_count]⟩

theorem run_workers_heap {C : Type} (ops : RegionOps (ShenandoahHeapRegion → C))
    (f : ShenandoahHeapRegion → C → C) (hloc : ActsLocally ops f) (fuel : Nat) :
    ∀ (n a : Nat) (t t' : ShenandoahConcurrentCoalesceAndFillTask (ShenandoahHeapRegion → C)),
      run_workers ops fuel a n t = some t' →
      ∃ new, t'.visits = t.visits ++ new ∧
        ∀ r, t'.heap r = (f r)^[filled_count r new] (t.heap r)
  | 0, a, t, t', h => by
    simp only [run_workers, Option.some.injEq] at h
    subst h
    exact ⟨[], by simp, by simp [filled_count]⟩
  | n + 1, a, t, t', h => by
    simp only [run_workers] at h
    cases hw : work ops fuel a t with
    | none => simp [hw] at h
    | some t1 =>
      simp only [hw] at h
      obtain ⟨new1, hv1, hh1⟩ := work_loop_heap ops f hloc uint_advance a fuel a t t1 hw
      obtain ⟨new2, hv2, hh2⟩ := run_workers_heap ops f hloc fuel n (a + 1) t1 t' h
      refine ⟨new1 ++ new2, by simp [hv2, hv1], ?_⟩
      intro r
      rw [hh2 r, hh1 r, filled_count_append, Nat.add_comm, Function.iterate_add_apply]

theorem range_filter_length_eq_countP (p : ShenandoahHeapRegion → Bool) :
    ∀ (A : List ShenandoahHeapRegion),
      ((List.range A.length).filter (fun i => p (A.getD i 0))).length = A.countP p
  | [] => by simp
  | a :: A => by
    rw [List.length_cons, List.range_succ_eq_map, List.filter_cons, List.filter_map,
      List.countP_cons]
    have ih := range_filter_length_eq_countP p A
    have hcomp : ((fun i => p ((a :: A).getD i 0)) ∘ Nat.succ) = fun i => p (A.getD i 0) := by
      funext i
      simp
    rw [hcomp]
    by_cases ha : p a = true
    · simp only [List.getD_cons_zero, ha, if_true, List.length_cons, List.length_map]
      omega
    · simp only [List.getD_cons_zero, ha, Bool.false_eq_true, if_false, List.length_map]
      omega

theorem countP_split {α : Type} (q c : α → Bool) :
    ∀ (l : List α), l.countP (fun a => q a && c a) + l.countP (fun a => q a && !c a)
      = l.countP q
  | [] => by simp
  | a :: l => by
    have ih := countP_split q c l
    simp only [List.countP_cons]
    cases hq : q a <;> cases hc : c a <;> simp <;> omega

/-- Facts about a run of all workers over the candidate list `A`, where the 32-bit index
cannot wrap: which indices were filled. -/
theorem run_task_filled_indices {H : Type} (ops : RegionOps H) (N : Nat)
    (A : List ShenandoahHeapRegion) (heap : H) (fuel : Nat)
    (t' : ShenandoahConcurrentCoalesceAndFillTask H)
    (hN : 1 ≤ N) (hb : A.length + N ≤ UINT_RANGE)
    (h : run_task ops fuel
      (ShenandoahConcurrentCoalesceAndFillTask.new N (arrayOfList A) A.length heap) = some t') :
    (filled_indices t'.visits).Nodup ∧
    (∀ v ∈ t'.visits, v.region = A.getD v.region_idx 0) ∧
    (∀ i ∈ filled_indices t'.visits, i < A.length ∧ ops.is_humongous (A.getD i 0) = false) ∧
    (is_completed t' = true → ∀ i, i < A.length → ops.is_humongous (A.getD i 0) = false →
      i ∈ filled_indices t'.visits) := by
  obtain ⟨_, new0, hv0, hok, hflag⟩ := run_workers_effect ops fuel _ _ _ _ h
  have hvis : t'.visits = new0 := by
    simpa [ShenandoahConcurrentCoalesceAndFillTask.new] using hv0
  obtain ⟨new1, hv1, hnd⟩ := run_task_indices_nodup ops fuel _ t' (by exact hN) (by exact hb) h
  have hvis1 : t'.visits = new1 := by
    simpa [ShenandoahConcurrentCoalesceAndFillTask.new] using hv1
  have hreg : ∀ v ∈ t'.visits, v.region = A.getD v.region_idx 0 := by
    intro v hv
    exact (hok v (hvis ▸ hv)).2.2.2.2.1
  refine ⟨?_, hreg, ?_, ?_⟩
  · rw [hvis1]
    exact hnd.sublist ((List.filter_sublist _).map _)
  · intro i hi
    simp only [filled_indices, List.mem_map, List.mem_filter, beq_iff_eq] at hi
    obtain ⟨v, ⟨hv, ho⟩, rfl⟩ := hi
    have hvok := (hok v (hvis ▸ hv)).2.2
    refine ⟨hvok.2.1, ?_⟩
    have := (hvok.2.2.2.2.1 ho).1
    rw [hreg v hv] at this
    exact this
  · intro hc i hi hh
    have hnp : ∀ v ∈ t'.visits, v.outcome ≠ Outcome.preempted := by
      intro v hv hp
      have : t'._is_preempted = true := by
        rw [hflag]
        simp only [Bool.or_eq_true, List.any_eq_true, beq_iff_eq]
        exact Or.inr ⟨v, hvis ▸ hv, hp⟩
      simp [is_completed, this] at hc
    obtain ⟨new, hv, hcase⟩ := run_task_reaches ops fuel _ t' (by exact hN)
      (by show A.length ≤ UINT_RANGE; omega) h i hi
    have hvis2 : t'.visits = new := by
      simpa [ShenandoahConcurrentCoalesceAndFillTask.new] using hv
    rcases hcase with ⟨v, hvm, hvi, hvok⟩ | ⟨v, hvm, hp, _⟩
    · have hvm' : v ∈ t'.visits := hvis2 ▸ hvm
      simp only [filled_indices, List.mem_map, List.mem_filter, beq_iff_eq]
      refine ⟨v, ⟨hvm', ?_⟩, hvi⟩
      cases ho : v.outcome with
      | skipped_humongous =>
        have := hvok.2.2.2.1 ho
        rw [hreg v hvm', hvi, hh] at this
        exact absurd this (by decide)
      | filled => rfl
      | preempted => exact absurd ho (hnp v hvm')
    · exact absurd hp (hnp v (hvis2 ▸ hvm))

/-- With local fills, the contents of region `r` after a run over `A` from `heap` are `f r`
applied once for each filled index holding `r`. -/
theorem run_task_heap {C : Type} (ops : RegionOps (ShenandoahHeapRegion → C))
    (f : ShenandoahHeapRegion → C → C) (hloc : ActsLocally ops f) (N : Nat)
    (A : List ShenandoahHeapRegion) (heap : ShenandoahHeapRegion → C) (fuel : Nat)
    (t' : ShenandoahConcurrentCoalesceAndFillTask (ShenandoahHeapRegion → C))
    (hreg : ∀ v ∈ t'.visits, v.region = A.getD v.region_idx 0)
    (h : run_task ops fuel
      (ShenandoahConcurrentCoalesceAndFillTask.new N (arrayOfList A) A.length heap) = some t')
    (r : ShenandoahHeapRegion) :
    t'.heap r =
      (f r)^[(filled_indices t'.visits).countP (fun i => A.getD i 0 == r)] (heap r) := by
  obtain ⟨new, hv, hheap⟩ := run_workers_heap ops f hloc fuel _ _ _ _ h
  have hvis : t'.visits = new := by
    simpa [ShenandoahConcurrentCoalesceAndFillTask.new] using hv
  have hcount : filled_count r new =
      (filled_indices t'.visits).countP (fun i => A.getD i 0 == r) := by
    rw [← hvis]
    unfold filled_count filled_indices
    rw [List.countP_map, List.countP_filter]
    apply List.countP_congr
    intro v hv
    simp only [Function.comp, Bool.and_eq_true, beq_iff_eq, hreg v hv]
    exact ⟨fun ⟨a, b⟩ => ⟨b, a⟩, fun ⟨a, b⟩ => ⟨b, a⟩⟩
  rw [hheap r, hcount]
  rfl

theorem remaining_candidates_length_le (L : List ShenandoahHeapRegion) (visits : List Visit) :
    (remaining_candidates L visits).length ≤ L.length := by
  unfold remaining_candidates
  rw [List.length_map]
  exact (List.length_filter_le _ _).trans (by simp)

theorem contains_iff_mem_nat (F : List Nat) (i : Nat) : F.contains i = true ↔ i ∈ F := by
  simp

/-- A duplicate-free list of indices below `M` is counted like the indices of `range M` it
contains. -/
theorem countP_of_nodup_lt (F : List Nat) (M : Nat) (q : Nat → Bool) (hnd : F.Nodup)
    (hlt : ∀ i ∈ F, i < M) :
    F.countP q = (List.range M).countP (fun i => q i && F.contains i) := by
  have hperm : F.Perm ((List.range M).filter (fun i => F.contains i)) := by
    rw [List.perm_ext_iff_of_nodup hnd ((List.nodup_range M).filter _)]
    intro i
    simp only [List.mem_filter, List.mem_range, contains_iff_mem_nat]
    exact ⟨fun h => ⟨hlt i h, h⟩, fun h => h.2⟩
  rw [hperm.countP_eq, List.countP_filter]

/-- C6 (amended with `M + N ≤ 2^32`): let the fills act locally through `f` (a successful fill
changes only its own region, a preempted fill changes nothing). Run the task over `L` with `N`
workers from heap `heap0` (run 1, preempted or not, ending in `t1`); then run a fresh task,
to completion, over the candidates of `L` that run 1 did not fill, from the heap run 1 left
(run 2, ending in `t2`). The contents of all regions after run 2 equal those after a single
completed run over the whole of `L` from `heap0` (run 3, ending in `t3`). -/
theorem C6_resumability {C : Type} (ops1 ops2 ops3 : RegionOps (ShenandoahHeapRegion → C))
    (f : ShenandoahHeapRegion → C → C) (N : Nat) (L : List ShenandoahHeapRegion)
    (heap0 : ShenandoahHeapRegion → C) (fuel1 fuel2 fuel3 : Nat)
    (t1 t2 t3 : ShenandoahConcurrentCoalesceAndFillTask (ShenandoahHeapRegion → C))
    (hN : 1 ≤ N) (hb : L.length + N ≤ 4294967296)
    (hl1 : ActsLocally ops1 f) (hl2 : ActsLocally ops2 f) (hl3 : ActsLocally ops3 f)
    (hh2 : ops2.is_humongous = ops1.is_humongous)
    (hh3 : ops3.is_humongous = ops1.is_humongous)
    (hrun1 : run_task ops1 fuel1
      (ShenandoahConcurrentCoalesceAndFillTask.new N (arrayOfList L) L.length heap0) = some t1)
    (hrun2 : run_task ops2 fuel2
      (ShenandoahConcurrentCoalesceAndFillTask.new N
        (arrayOfList (remaining_candidates L t1.visits))
        (remaining_candidates L t1.visits).length t1.heap) = some t2)
    (hc2 : is_completed t2 = true)
    (hrun3 : run_task ops3 fuel3
      (ShenandoahConcurrentCoalesceAndFillTask.new N (arrayOfList L) L.length heap0) = some t3)
    (hc3 : is_completed t3 = true) :
    t2.heap = t3.heap := by
  have hb2 : (remaining_candidates L t1.visits).length + N ≤ UINT_RANGE :=
    (Nat.add_le_add_right (remaining_candidates_length_le L t1.visits) N).trans hb
  obtain ⟨nd1, reg1, mem1, _⟩ := run_task_filled_indices ops1 N L heap0 fuel1 t1 hN hb hrun1
  obtain ⟨nd2, reg2, mem2, full2⟩ := run_task_filled_indices ops2 N _ t1.heap fuel2 t2 hN hb2
    hrun2
  obtain ⟨nd3, reg3, mem3, full3⟩ := run_task_filled_indices ops3 N L heap0 fuel3 t3 hN hb hrun3
  funext r
  rw [run_task_heap ops2 f hl2 N _ t1.heap fuel2 t2 reg2 hrun2 r,
    run_task_heap ops1 f hl1 N L heap0 fuel1 t1 reg1 hrun1 r,
    run_task_heap ops3 f hl3 N L heap0 fuel3 t3 reg3 hrun3 r,
    ← Function.iterate_add_apply]
  congr 1
  -- the three counts, all over `range L.length`
  let nh : ShenandoahHeapRegion → Bool := fun x => !ops1.is_humongous x
  let p : ShenandoahHeapRegion → Bool := fun x => nh x && x == r
  let F1 := filled_indices t1.visits
  -- a completed run fills exactly the non-humongous indices
  have hfull : ∀ (ops : RegionOps (ShenandoahHeapRegion → C)) (A : List ShenandoahHeapRegion)
      (F : List Nat), ops.is_humongous = ops1.is_humongous → F.Nodup →
      (∀ i ∈ F, i < A.length ∧ ops.is_humongous (A.getD i 0) = false) →
      (∀ i, i < A.length → ops.is_humongous (A.getD i 0) = false → i ∈ F) →
      F.countP (fun i => A.getD i 0 == r) = A.countP p := by
    intro ops A F hh nd hmem hfull
    have hperm : F.Perm ((List.range A.length).filter (fun i => nh (A.getD i 0))) := by
      rw [List.perm_ext_iff_of_nodup nd ((List.nodup_range _).filter _)]
      intro i
      simp only [List.mem_filter, List.mem_range, nh, Bool.not_eq_true']
      rw [← hh]
      exact ⟨fun h => hmem i h, fun h => hfull i h.1 h.2⟩
    rw [hperm.countP_eq, List.countP_filter, ← range_filter_length_eq_countP p A,
      List.countP_eq_length_filter]
    congr 1
    apply List.filter_congr
    intro i _
    simp [p, Bool.and_comm]
  have e3 : (filled_indices t3.visits).countP (fun i => L.getD i 0 == r) = L.countP p :=
    hfull ops3 L _ hh3 nd3 mem3 (full3 hc3)
  have e2 : (filled_indices t2.visits).countP
      (fun i => (remaining_candidates L t1.visits).getD i 0 == r)
        = (remaining_candidates L t1.visits).countP p :=
    hfull ops2 _ _ hh2 nd2 mem2 (full2 hc2)
  have e2' : (remaining_candidates L t1.visits).countP p =
      (List.range L.length).countP (fun i => p (L.getD i 0) && !F1.contains i) := by
    unfold remaining_candidates
    rw [List.countP_map, List.countP_filter]
    rfl
  have e1 : F1.countP (fun i => L.getD i 0 == r) =
      (List.range L.length).countP (fun i => p (L.getD i 0) && F1.contains i) := by
    rw [countP_of_nodup_lt F1 L.length _ nd1 (fun i hi => (mem1 i hi).1)]
    apply List.countP_congr
    intro i _
    simp only [Bool.and_eq_true, beq_iff_eq, contains_iff_mem_nat, p, nh, Bool.not_eq_true']
    constructor
    · rintro ⟨h1, h2⟩
      exact ⟨⟨(mem1 i h2).2, h1⟩, h2⟩
    · rintro ⟨⟨_, h1⟩, h2⟩
      exact ⟨h1, h2⟩
  have e3' : L.countP p = (List.range L.length).countP (fun i => p (L.getD i 0)) := by
    rw [← range_filter_length_eq_countP p L, List.countP_eq_length_filter]
  rw [e3, e2, e2', e3']
  show _ + F1.countP (fun i => L.getD i 0 == r) = _
  rw [e1, Nat.add_comm]
  exact countP_split (fun i => p (L.getD i 0)) (fun i => F1.contains i) (List.range L.length)

theorem local_ops_acts_locally {C : Type} (f : ShenandoahHeapRegion → C → C)
    (preempt : ShenandoahHeapRegion → Bool) : ActsLocally (local_ops f preempt) f := by
  intro r h
  unfold local_ops
  cases hp : preempt r <;> simp [hp]

/-- Workers whose id is not below the candidate count do nothing. -/
theorem run_workers_idle {H : Type} (ops : RegionOps H) (fuel : Nat) :
    ∀ (n a : Nat) (t : ShenandoahConcurrentCoalesceAndFillTask H),
      t._coalesce_and_fill_region_count ≤ a → run_workers ops fuel a n t = some t
  | 0, a, t, _ => rfl
  | n + 1, a, t, h => by
    have hw : work ops fuel a t = some t := by
      unfold work
      cases fuel with
      | zero => unfold work_loop; rw [if_neg (by omega)]
      | succ fuel => unfold work_loop; rw [if_neg (by omega)]
    simp only [run_workers, hw]
    exact run_workers_idle ops fuel n (a + 1) t (by omega)

theorem run_workers_add {H : Type} (ops : RegionOps H) (fuel : Nat) :
    ∀ (n m a : Nat) (t : ShenandoahConcurrentCoalesceAndFillTask H),
      run_workers ops fuel a (n + m) t =
        (run_workers ops fuel a n t).bind (fun t1 => run_workers ops fuel (a + n) m t1)
  | 0, m, a, t => by simp [run_workers]
  | n + 1, m, a, t => by
    have e : n + 1 + m = (n + m) + 1 := by omega
    rw [e]
    simp only [run_workers]
    cases hw : work ops fuel a t with
    | none => rfl
    | some t1 =>
      simp only
      rw [run_workers_add ops fuel n m (a + 1) t1]
      have e2 : a + 1 + n = a + (n + 1) := by omega
      rw [e2]

/-- Running all workers is running the first `n` of them, when `n` is at least the candidate
count. -/
theorem run_task_eq_run_workers {H : Type} (ops : RegionOps H) (fuel n : Nat)
    (t : ShenandoahConcurrentCoalesceAndFillTask H)
    (h1 : t._coalesce_and_fill_region_count ≤ n) (h2 : n ≤ t._nworkers) :
    run_task ops fuel t = run_workers ops fuel 0 n t := by
  unfold run_task
  obtain ⟨m, hm⟩ : ∃ m, t._nworkers = n + m := ⟨_, (Nat.add_sub_cancel' h2).symm⟩
  rw [hm, run_workers_add]
  cases h : run_workers ops fuel 0 n t with
  | none => rfl
  | some t1 =>
    obtain ⟨hc, _⟩ := run_workers_effect ops fuel _ _ _ _ h
    simp only [Option.bind]
    exact run_workers_idle ops fuel m (0 + n) t1 (by rw [hc.2.2]; omega)

theorem wrap_scenario_visits :
    (run_workers (scenario_ops (fun _ => false)) 2 0 2
      (ShenandoahConcurrentCoalesceAndFillTask.new 4294967295 (arrayOfList [10, 11]) 2
        [])).isSome = true := by
  decide

/-- C1 as stated fails when the 32-bit index wraps: with `N = 2^32 - 1` workers, `M = 2`
candidates and no fill preempted, the run of all workers completes and visits index 0 twice,
by worker 0 and by worker 1 (whose index `1 + N` wraps to 0). -/
theorem C1_counterexample :
    ∃ t', run_task (scenario_ops (fun _ => false)) 2
        (ShenandoahConcurrentCoalesceAndFillTask.new 4294967295 (arrayOfList [10, 11]) 2 [])
          = some t' ∧
      is_completed t' = true ∧
      t'.visits.map (fun v => (v.worker_id, v.region_idx)) = [(0, 0), (1, 1), (1, 0)] ∧
      ¬ (t'.visits.map (fun v => v.region_idx)).Perm (List.range 2) ∧
      0 % 4294967295 ≠ 1 := by
  refine ⟨Option.get _ wrap_scenario_visits, ?_, rfl, rfl, ?_, by decide⟩
  · rw [run_task_eq_run_workers _ 2 2 _ (by decide) (by decide)]
    exact (Option.some_get _).symm
  · intro hp
    have := hp.length_eq
    exact absurd this (by decide)

theorem wrap_scenario_run1 :
    (run_workers (local_ops (fun _ c => c + 1) (fun r => r == 0)) 2 0 2
      wrap_scenario_task).isSome = true := by
  decide

theorem wrap_scenario_run3 :
    (run_workers (local_ops (fun _ c => c + 1) (fun _ => false)) 2 0 2
      wrap_scenario_task).isSome = true := by
  decide

theorem wrap_scenario_run2 :
    (run_workers (local_ops (fun _ c => c + 1) (fun _ => false)) 2 0 2
      (ShenandoahConcurrentCoalesceAndFillTask.new 4294967295
        (arrayOfList (remaining_candidates [0, 1] (Option.get _ wrap_scenario_run1).visits))
        (remaining_candidates [0, 1] (Option.get _ wrap_scenario_run1).visits).length
        (Option.get _ wrap_scenario_run1).heap)).isSome = true := by
  decide

/-- C6 as stated fails when the 32-bit index wraps: with `N = 2^32 - 1` workers, candidates
`[0, 1]` and fills that increment a region's counter, a run in which the fills of region 0 are
preempted fills only index 1; the fresh run over the remaining candidate `[0]` fills region 0
once. A single uninterrupted run over `[0, 1]` fills region 0 twice (worker 1 wraps from
index 1 to index 0), so the final contents differ. -/
theorem C6_counterexample :
    ∃ t1 t2 t3,
      ActsLocally (local_ops (fun _ c => c + 1) (fun r => r == 0)) (fun _ c => c + 1) ∧
      ActsLocally (local_ops (fun _ c => c + 1) (fun _ => false)) (fun _ c => c + 1) ∧
      run_task (local_ops (fun _ c => c + 1) (fun r => r == 0)) 2 wrap_scenario_task
        = some t1 ∧
      is_completed t1 = false ∧ remaining_candidates [0, 1] t1.visits = [0] ∧
      run_task (local_ops (fun _ c => c + 1) (fun _ => false)) 2
        (ShenandoahConcurrentCoalesceAndFillTask.new 4294967295
          (arrayOfList (remaining_candidates [0, 1] t1.visits))
          (remaining_candidates [0, 1] t1.visits).length t1.heap) = some t2 ∧
      is_completed t2 = true ∧
      run_task (local_ops (fun _ c => c + 1) (fun _ => false)) 2 wrap_scenario_task
        = some t3 ∧
      is_completed t3 = true ∧
      t2.heap 0 = 1 ∧ t3.heap 0 = 2 ∧ t2.heap ≠ t3.heap := by
  refine ⟨Option.get _ wrap_scenario_run1, Option.get _ wrap_scenario_run2,
    Option.get _ wrap_scenario_run3, local_ops_acts_locally _ _, local_ops_acts_locally _ _,
    ?_, rfl, rfl, ?_, rfl, ?_, rfl, rfl, rfl, ?_⟩
  · rw [run_task_eq_run_workers _ 2 2 wrap_scenario_task (by decide) (by decide)]
    exact (Option.some_get _).symm
  · rw [run_task_eq_run_workers _ 2 2 _ (by decide) (by decide)]
    exact (Option.some_get _).symm
  · rw [run_task_eq_run_workers _ 2 2 wrap_scenario_task (by decide) (by decide)]
    exact (Option.some_get _).symm
  · intro e
    have := congrFun e 0
    exact absurd this (by decide)

theorem resume_scenario_run1 :
    (run_task (local_ops (fun _ c => c + 1) (fun r => r == 13)) 3
      (ShenandoahConcurrentCoalesceAndFillTask.new 2 (arrayOfList [10, 11, 12, 13, 14]) 5
        (fun _ => 0))).isSome = true := by
  decide

theorem resume_scenario_run3 :
    (run_task (local_ops (fun _ c => c + 1) (fun _ => false)) 3
      (ShenandoahConcurrentCoalesceAndFillTask.new 2 (arrayOfList [10, 11, 12, 13, 14]) 5
        (fun _ => 0))).isSome = true := by
  decide

theorem resume_scenario_run2 :
    (run_task (local_ops (fun _ c => c + 1) (fun _ => false)) 3
      (ShenandoahConcurrentCoalesceAndFillTask.new 2
        (arrayOfList (remaining_candidates [10, 11, 12, 13, 14]
          (Option.get _ resume_scenario_run1).visits))
        (remaining_candidates [10, 11, 12, 13, 14]
          (Option.get _ resume_scenario_run1).visits).length
        (Option.get _ resume_scenario_run1).heap)).isSome = true := by
  decide

/-- Witness for C6: candidates `[10, .., 14]`, 2 workers, fills incrementing a region's
counter; in run 1 the fill of region 13 (index 3) is preempted, the resumed run goes over the
remaining candidate `[13]`, and the result equals that of an uninterrupted run. -/
theorem C6_resumability_witness :
    ∃ t1 t2 t3,
      run_task (local_ops (fun _ c => c + 1) (fun r => r == 13)) 3
        (ShenandoahConcurrentCoalesceAndFillTask.new 2 (arrayOfList [10, 11, 12, 13, 14]) 5
          (fun _ => 0)) = some t1 ∧
      is_completed t1 = false ∧ remaining_candidates [10, 11, 12, 13, 14] t1.visits = [13] ∧
      run_task (local_ops (fun _ c => c + 1) (fun _ => false)) 3
        (ShenandoahConcurrentCoalesceAndFillTask.new 2
          (arrayOfList (remaining_candidates [10, 11, 12, 13, 14] t1.visits))
          (remaining_candidates [10, 11, 12, 13, 14] t1.visits).length t1.heap) = some t2 ∧
      run_task (local_ops (fun _ c => c + 1) (fun _ => false)) 3
        (ShenandoahConcurrentCoalesceAndFillTask.new 2 (arrayOfList [10, 11, 12, 13, 14]) 5
          (fun _ => 0)) = some t3 ∧
      t2.heap = t3.heap :=
  ⟨Option.get _ resume_scenario_run1, Option.get _ resume_scenario_run2,
    Option.get _ resume_scenario_run3, (Option.some_get _).symm, rfl, rfl,
    (Option.some_get _).symm, (Option.some_get _).symm,
    C6_resumability (local_ops (fun _ c => c + 1) (fun r => r == 13))
      (local_ops (fun _ c => c + 1) (fun _ => false))
      (local_ops (fun _ c => c + 1) (fun _ => false))
      (fun _ c => c + 1) 2 [10, 11, 12, 13, 14] (fun _ => 0) 3 3 3
      (Option.get _ resume_scenario_run1) (Option.get _ resume_scenario_run2)
      (Option.get _ resume_scenario_run3) (by decide) (by decide)
      (local_ops_acts_locally _ _) (local_ops_acts_locally _ _) (local_ops_acts_locally _ _)
      rfl rfl (Option.some_get _).symm (Option.some_get _).symm rfl
      (Option.some_get _).symm rfl⟩

end Shenandoah
